import Mathlib

/-!
# Uniswap TWAP oracle source: a shallow embedding

The Go package computes a time-weighted average price from two cumulative-tick
observations of a Uniswap V3 pool.  All of its arithmetic runs on `math/big.Float`
values, so the first part of this file embeds the `big.Float` operations the
source calls (`SetInt64`, `SetFloat64`, `SetInt`, `Mul`, `Quo`, `GobEncode`,
`GobDecode`) at the level of mantissa words, exponent, precision, rounding mode
and accuracy.  The second part embeds the source itself: `NewUniswapSource`,
`Dial`, `getPrice`, `ReadServerData`, `getSqrtRatioAtTick` and the provider's
`extractPrice`.
-/

set_option maxRecDepth 100000

namespace UniswapOracle

/-! ## `math/big.Float` -/

/-- Rounding modes of `big.Float`, in the order of their Go constants (0..5).
`RoundingMode` is a byte in Go; `invalid` stands for a byte value outside the six
constants, which only `GobDecode` can produce. -/
inductive RoundingMode
  | ToNearestEven
  | ToNearestAway
  | ToZero
  | AwayFromZero
  | ToNegativeInf
  | ToPositiveInf
  | invalid (code : Nat)
  deriving DecidableEq, Repr

/-- Accuracy of the last operation: Go constants `Below = -1`, `Exact = 0`,
`Above = +1`.  `invalid` stands for the value 2, which only `GobDecode` can
produce. -/
inductive Accuracy
  | Below
  | Exact
  | Above
  | invalid
  deriving DecidableEq, Repr

/-- Internal form of a `big.Float`: Go constants `zero = 0`, `finite = 1`, `inf = 2`.
`undef` stands for the byte value 3, which only `GobDecode` can produce. -/
inductive Form
  | zero
  | finite
  | inf
  | undef
  deriving DecidableEq, Repr

/-- A `big.Float`.  `mant` is the number written by the mantissa words (least
significant word first in Go); for a finite value its top word has the most
significant bit set, so the bit length of `mant` is a multiple of 64 and the
value is `(-1)^neg * mant / 2^(bit length of mant) * 2^exp`.  For a value that
is not finite the mantissa and exponent are not observable and are kept 0. -/
structure BigFloat where
  prec : Nat
  mode : RoundingMode
  acc : Accuracy
  form : Form
  neg : Bool
  mant : Nat
  exp : Int
  deriving DecidableEq, Repr

/-- Word size `_W` of `math/big` on a 64-bit platform. -/
def wordBits : Nat := 64

/-- Smallest exponent of a `big.Float` (`math.MinInt32`). -/
def MinExp : Int := -2147483648

/-- Largest exponent of a `big.Float` (`math.MaxInt32`). -/
def MaxExp : Int := 2147483647

/-- Bit counting by repeated halving; the first argument bounds the number of steps. -/
def bitLenAux : Nat → Nat → Nat
  | 0, _ => 0
  | fuel + 1, n => if n = 0 then 0 else bitLenAux fuel (n / 2) + 1

/-- Number of bits of `n` (`bits.Len`, `Int.BitLen`). -/
def bitLen (n : Nat) : Nat := bitLenAux n n

/-- Number of words of a normalized `nat` (`len(mant)`). -/
def wordLen (m : Nat) : Nat := (bitLen m + (wordBits - 1)) / wordBits

/-- Leading zero bits of the most significant word. -/
def nlz (m : Nat) : Nat := wordLen m * wordBits - bitLen m

/-- The mantissa shifted left so that the top bit of its top word is set, and the
shift that took (`fnorm`). -/
def fnorm (m : Nat) : Nat × Nat := (m <<< nlz m, nlz m)

/-- Accuracy from a boolean (`makeAcc`). -/
def makeAcc (above : Bool) : Accuracy := if above then Accuracy.Above else Accuracy.Below

/-- The value `new(big.Float)`: zero, precision 0, mode `ToNearestEven`. -/
def BigFloat.new : BigFloat :=
  ⟨0, RoundingMode.ToNearestEven, Accuracy.Exact, Form.zero, false, 0, 0⟩

/-- A value that is not finite carries no mantissa and no exponent. -/
def BigFloat.setForm (z : BigFloat) (f : Form) : BigFloat :=
  { z with form := f, mant := 0, exp := 0 }

/-- Sticky bit: 1 when a bit of `m` below position `r` is set (`nat.sticky`). -/
def sticky (m r : Nat) : Nat := if m % 2 ^ r = 0 then 0 else 1

/-- Whether the truncated mantissa is incremented, per rounding mode; a mode
outside the six constants is the `unreachable` panic of `round`. -/
def roundInc (mode : RoundingMode) (neg : Bool) (rbit sbit lsbSet : Bool) :
    Except String Bool :=
  match mode with
  | RoundingMode.ToNegativeInf => Except.ok neg
  | RoundingMode.ToZero => Except.ok false
  | RoundingMode.ToNearestEven => Except.ok (rbit && (sbit || lsbSet))
  | RoundingMode.ToNearestAway => Except.ok rbit
  | RoundingMode.AwayFromZero => Except.ok true
  | RoundingMode.ToPositiveInf => Except.ok (!neg)
  | RoundingMode.invalid _ => Except.error "unreachable"

/-- The mantissa and exponent after the rounding decision `inc` has been taken:
`mant` is the mantissa already cut to `n` words, `lsb` the weight of its last
kept bit. -/
def BigFloat.applyInc (z : BigFloat) (n mant lsb : Nat) (inc : Bool) : BigFloat :=
  let acc := makeAcc (inc != z.neg)
  if inc then
    let sum := mant + lsb
    if sum ≥ 2 ^ (n * wordBits) then
      if z.exp ≥ MaxExp then
        { (z.setForm Form.inf) with acc := acc }
      else
        let mant := ((sum - 2 ^ (n * wordBits)) >>> 1) + 2 ^ (n * wordBits - 1)
        { z with acc := acc, exp := z.exp + 1, mant := mant - mant % lsb }
    else
      { z with acc := acc, mant := sum - sum % lsb }
  else
    { z with acc := acc, mant := mant - mant % lsb }

/-- Rounding of a finite mantissa to `z.prec` bits (`(*Float).round`).  `sbit` is
the sticky bit handed in by the caller (non-zero when bits were already lost).
The error is a panic. -/
def BigFloat.round (z : BigFloat) (sbit : Nat) : Except String BigFloat :=
  let z := { z with acc := Accuracy.Exact }
  if z.form ≠ Form.finite then Except.ok z else
  let m := wordLen z.mant
  let bits := m * wordBits
  if bits ≤ z.prec then Except.ok z else
  let r := bits - z.prec - 1
  let rbit := (z.mant >>> r) % 2
  let sbit := if sbit = 0 ∧ (rbit = 0 ∨ z.mode = RoundingMode.ToNearestEven)
    then sticky z.mant r else sbit
  let sbit := sbit % 2
  let n := (z.prec + (wordBits - 1)) / wordBits
  let mant := if m > n then z.mant >>> (wordBits * (m - n)) else z.mant
  let ntz := n * wordBits - z.prec
  let lsb := 1 <<< ntz
  if rbit ≠ 0 ∨ sbit ≠ 0 then
    match roundInc z.mode z.neg (rbit ≠ 0) (sbit ≠ 0) ((mant >>> ntz) % 2 ≠ 0) with
    | Except.error e => Except.error e
    | Except.ok inc => Except.ok (z.applyInc n mant lsb inc)
  else
    Except.ok { z with mant := mant - mant % lsb }

/-- Sets the exponent, with underflow to 0 and overflow to Inf, then rounds
(`(*Float).setExpAndRound`). -/
def BigFloat.setExpAndRound (z : BigFloat) (exp : Int) (sbit : Nat) :
    Except String BigFloat :=
  if exp < MinExp then
    Except.ok { (z.setForm Form.zero) with acc := makeAcc z.neg }
  else if exp > MaxExp then
    Except.ok { (z.setForm Form.inf) with acc := makeAcc (!z.neg) }
  else
    BigFloat.round { z with form := Form.finite, exp := exp } sbit

/-- The call `z.setBits64(neg, x)` behind `SetInt64` and `SetUint64`. -/
def BigFloat.setBits64 (z : BigFloat) (neg : Bool) (x : Nat) : Except String BigFloat :=
  let z := { z with prec := if z.prec = 0 then 64 else z.prec }
  let z := { z with acc := Accuracy.Exact, neg := neg }
  if x = 0 then Except.ok (z.setForm Form.zero) else
  let s := 64 - bitLen x
  let z := { z with form := Form.finite, mant := x <<< s, exp := 64 - (s : Int) }
  if z.prec < 64 then z.round 0 else Except.ok z

/-- The call `z.SetInt64(x)`, for `x` in the range of `int64`. -/
def BigFloat.SetInt64 (z : BigFloat) (x : Int) : Except String BigFloat :=
  z.setBits64 (decide (x < 0)) x.natAbs

/-- A `float64` argument: zero, infinity, NaN, or a normal number
`(-1)^neg * (1 + frac / 2^52) * 2^e` with `frac < 2^52`. -/
inductive F64
  | zero (neg : Bool)
  | inf (neg : Bool)
  | nan
  | normal (neg : Bool) (frac : Nat) (e : Int)
  deriving DecidableEq, Repr

/-- The call `z.SetFloat64(x)`; the error is a panic (`ErrNaN` for a NaN). -/
def BigFloat.SetFloat64 (z : BigFloat) (x : F64) : Except String BigFloat :=
  let z := { z with prec := if z.prec = 0 then 53 else z.prec }
  match x with
  | F64.nan => Except.error "Float.SetFloat64(NaN)"
  | F64.zero neg => Except.ok ({ z with acc := Accuracy.Exact, neg := neg }.setForm Form.zero)
  | F64.inf neg => Except.ok ({ z with acc := Accuracy.Exact, neg := neg }.setForm Form.inf)
  | F64.normal neg frac e =>
    let z := { z with acc := Accuracy.Exact, neg := neg, form := Form.finite,
                      mant := 2 ^ 63 + (frac % 2 ^ 52) * 2 ^ 11, exp := e + 1 }
    if z.prec < 53 then z.round 0 else Except.ok z

/-- The call `big.NewFloat(x)`. -/
def NewFloat (x : F64) : Except String BigFloat := BigFloat.new.SetFloat64 x

/-- The call `z.SetInt(x)` for a `big.Int` `x`. -/
def BigFloat.SetInt (z : BigFloat) (x : Int) : Except String BigFloat :=
  let bits := bitLen x.natAbs
  let z := { z with prec := if z.prec = 0 then max bits 64 else z.prec }
  let z := { z with acc := Accuracy.Exact, neg := decide (x < 0) }
  if x = 0 then Except.ok (z.setForm Form.zero) else
  let z := { z with mant := (fnorm x.natAbs).1 }
  z.setExpAndRound bits 0

/-- Product of two finite values (`(*Float).umul`). -/
def BigFloat.umul (z x y : BigFloat) : Except String BigFloat :=
  let e := x.exp + y.exp
  let p := fnorm (x.mant * y.mant)
  BigFloat.setExpAndRound { z with mant := p.1 } (e - p.2) 0

/-- The call `z.Mul(x, y)`; the error is a panic (`ErrNaN` for `0 * Inf`). -/
def BigFloat.Mul (z x y : BigFloat) : Except String BigFloat :=
  let z := { z with prec := if z.prec = 0 then max x.prec y.prec else z.prec }
  let z := { z with neg := x.neg != y.neg }
  if x.form = Form.finite ∧ y.form = Form.finite then
    z.umul x y
  else
    let z := { z with acc := Accuracy.Exact }
    if (x.form = Form.zero ∧ y.form = Form.inf) ∨ (x.form = Form.inf ∧ y.form = Form.zero) then
      Except.error "multiplication of zero with infinity"
    else if x.form = Form.inf ∨ y.form = Form.inf then
      Except.ok (z.setForm Form.inf)
    else
      Except.ok (z.setForm Form.zero)

/-- Quotient of two finite values (`(*Float).uquo`): the dividend is extended by
zero words until the integer quotient has at least `prec + 1` bits, and a
non-zero remainder becomes the sticky bit. -/
def BigFloat.uquo (z x y : BigFloat) : Except String BigFloat :=
  let n := z.prec / wordBits + 1
  let lx := wordLen x.mant
  let ly := wordLen y.mant
  let d := (n + ly) - lx
  let xadj := x.mant * 2 ^ (wordBits * d)
  let d := (lx + d) - ly
  let q := xadj / y.mant
  let r := xadj % y.mant
  let e := x.exp - y.exp - ((d : Int) - (wordLen q : Int)) * wordBits
  let sbit := if r = 0 then 0 else 1
  let p := fnorm q
  BigFloat.setExpAndRound { z with mant := p.1 } (e - p.2) sbit

/-- The call `z.Quo(x, y)`; the error is a panic (`ErrNaN` for `0 / 0` and
`Inf / Inf`). -/
def BigFloat.Quo (z x y : BigFloat) : Except String BigFloat :=
  let z := { z with prec := if z.prec = 0 then max x.prec y.prec else z.prec }
  let z := { z with neg := x.neg != y.neg }
  if x.form = Form.finite ∧ y.form = Form.finite then
    z.uquo x y
  else
    let z := { z with acc := Accuracy.Exact }
    if (x.form = Form.zero ∧ y.form = Form.zero) ∨ (x.form = Form.inf ∧ y.form = Form.inf) then
      Except.error "division of zero by zero or infinity by infinity"
    else if x.form = Form.zero ∨ y.form = Form.inf then
      Except.ok (z.setForm Form.zero)
    else
      Except.ok (z.setForm Form.inf)

/-- The rational value of a finite `big.Float` (0 for a zero; not meaningful for
an infinity). -/
def BigFloat.toRat (x : BigFloat) : ℚ :=
  if x.form = Form.finite then
    (if x.neg then -1 else 1) * (x.mant : ℚ) * (2 : ℚ) ^ (x.exp - (bitLen x.mant : Int))
  else 0

/-! ## `GobEncode` and `GobDecode` of `big.Float`

Bytes are numbers below 256.  The layout is the one of `math/big`: version byte,
one byte packing mode, accuracy, form and sign, the precision as a big-endian
`uint32`, and for a finite value the exponent as a big-endian `uint32` followed
by the mantissa words, most significant byte first. -/

/-- Big-endian bytes of a `uint32` (`binary.BigEndian.PutUint32`). -/
def putUint32 (v : Nat) : List Nat :=
  [v / 2 ^ 24 % 256, v / 2 ^ 16 % 256, v / 2 ^ 8 % 256, v % 256]

/-- The number written by big-endian bytes (`nat.setBytes`, and
`binary.BigEndian.Uint32` on four bytes). -/
def setBytes (buf : List Nat) : Nat := buf.foldl (fun acc b => acc * 256 + b % 256) 0

/-- The `k` low-order bytes of `m`, most significant first (`nat.bytes` into a
buffer of `k` bytes). -/
def natBytes : Nat → Nat → List Nat
  | 0, _ => []
  | k + 1, m => natBytes k (m / 256) ++ [m % 256]

/-- Go constant of a rounding mode. -/
def RoundingMode.code : RoundingMode → Nat
  | RoundingMode.ToNearestEven => 0
  | RoundingMode.ToNearestAway => 1
  | RoundingMode.ToZero => 2
  | RoundingMode.AwayFromZero => 3
  | RoundingMode.ToNegativeInf => 4
  | RoundingMode.ToPositiveInf => 5
  | RoundingMode.invalid c => c

/-- The rounding mode of a byte value (`RoundingMode(b)`). -/
def RoundingMode.ofCode (c : Nat) : RoundingMode :=
  if c = 0 then RoundingMode.ToNearestEven
  else if c = 1 then RoundingMode.ToNearestAway
  else if c = 2 then RoundingMode.ToZero
  else if c = 3 then RoundingMode.AwayFromZero
  else if c = 4 then RoundingMode.ToNegativeInf
  else if c = 5 then RoundingMode.ToPositiveInf
  else RoundingMode.invalid c

/-- The two bits `(acc + 1) & 3` written for an accuracy. -/
def Accuracy.code : Accuracy → Nat
  | Accuracy.Below => 0
  | Accuracy.Exact => 1
  | Accuracy.Above => 2
  | Accuracy.invalid => 3

/-- The accuracy `Accuracy(c) - 1` read from two bits. -/
def Accuracy.ofCode (c : Nat) : Accuracy :=
  if c = 0 then Accuracy.Below
  else if c = 1 then Accuracy.Exact
  else if c = 2 then Accuracy.Above
  else Accuracy.invalid

/-- Go constant of a form. -/
def Form.code : Form → Nat
  | Form.zero => 0
  | Form.finite => 1
  | Form.inf => 2
  | Form.undef => 3

/-- The form of a two-bit value. -/
def Form.ofCode (c : Nat) : Form :=
  if c = 0 then Form.zero
  else if c = 1 then Form.finite
  else if c = 2 then Form.inf
  else Form.undef

/-- The call `x.GobEncode()` on a non-nil `x`; its error result is always nil. -/
def BigFloat.GobEncode (x : BigFloat) : List Nat :=
  let n := if x.form = Form.finite
    then min ((x.prec + (wordBits - 1)) / wordBits) (wordLen x.mant) else 0
  let b := x.mode.code % 8 * 32 + x.acc.code % 4 * 8 + x.form.code % 4 * 2
    + (if x.neg then 1 else 0)
  [1, b] ++ putUint32 (x.prec % 2 ^ 32) ++
    (if x.form = Form.finite then
      putUint32 (x.exp % 2 ^ 32).toNat
        ++ natBytes (n * 8) (x.mant >>> (wordBits * (wordLen x.mant - n)))
    else [])

/-- The message of `validate0`, empty when the value is well formed. -/
def BigFloat.validate0 (x : BigFloat) : String :=
  if x.form ≠ Form.finite then ""
  else if x.mant = 0 then "nonzero finite number with empty mantissa"
  else if bitLen x.mant % wordBits ≠ 0 then "msb not set in last word"
  else if x.prec = 0 then "zero precision finite number"
  else ""

/-- A `uint32` read as an `int32`. -/
def toInt32 (v : Nat) : Int := if v < 2 ^ 31 then (v : Int) else (v : Int) - 2 ^ 32

/-- The call `z.GobDecode(buf)` on a receiver `z = new(big.Float)`, as in the
provider (with precision 0 the receiver takes the decoded value unrounded). -/
def GobDecode (buf : List Nat) : Except String BigFloat :=
  if buf.length = 0 then Except.ok BigFloat.new
  else if buf.length < 6 then Except.error "Float.GobDecode: buffer too small"
  else if buf.headD 0 % 256 ≠ 1 then
    Except.error ("Float.GobDecode: encoding version " ++ toString (buf.headD 0 % 256)
      ++ " not supported")
  else
    let b := (buf.drop 1).headD 0 % 256
    let z : BigFloat :=
      { prec := setBytes ((buf.drop 2).take 4)
        mode := RoundingMode.ofCode (b / 32 % 8)
        acc := Accuracy.ofCode (b / 8 % 4)
        form := Form.ofCode (b / 2 % 4)
        neg := decide (b % 2 ≠ 0)
        mant := 0
        exp := 0 }
    if z.form = Form.finite ∧ buf.length < 10 then
      Except.error "Float.GobDecode: buffer too small for finite form float"
    else
      let z := if z.form = Form.finite then
        { z with exp := toInt32 (setBytes ((buf.drop 6).take 4)), mant := setBytes (buf.drop 10) }
        else z
      if z.validate0 ≠ "" then Except.error ("Float.GobDecode: " ++ z.validate0)
      else Except.ok z

/-! ## The numeric library and the chain -/

/-- The two functions of `github.com/ALTree/bigfloat` the source calls.  Their
code is not part of the repository, so they are parameters; an `Except.error` is
a panic. -/
structure Bigfloat where
  Pow : BigFloat → BigFloat → Except String BigFloat
  Sqrt : BigFloat → Except String BigFloat

/-- How a call ends other than with its value: a returned Go `error`, or a panic. -/
inductive Failure
  | error (msg : String)
  | panic (msg : String)
  deriving DecidableEq, Repr

/-- A `math/big` or `bigfloat` call inside the source: its error is a panic. -/
def orPanic {α : Type} (r : Except String α) : Except Failure α :=
  match r with
  | Except.ok a => Except.ok a
  | Except.error e => Except.error (Failure.panic e)

/-- A `common.Address`: 20 bytes, read as a number. -/
abbrev Address := Nat

/-! Clock readings and values of `time.Duration` are integers, in nanoseconds. -/

/-- The constant `time.Second`. -/
def Second : Int := 1000000000

/-- The largest `time.Duration`. -/
def maxDuration : Int := 9223372036854775807

/-- The smallest `time.Duration`. -/
def minDuration : Int := -9223372036854775808

/-- The zero `time.Time` (January 1, year 1), in nanoseconds before the Unix epoch. -/
def zeroTime : Int := -62135596800000000000

/-- The call `time.Since(t)` at clock reading `now`: the difference, saturated to
the range of `time.Duration`. -/
def Since (now t : Int) : Int :=
  if now - t > maxDuration then maxDuration
  else if now - t < minDuration then minDuration
  else now - t

/-- Outcome of one pass of the connection loop of `Dial`. -/
inductive AttemptOutcome
  | dialFailed (cause : String)
  | poolFailed (cause : String)
  | connected
  deriving DecidableEq, Repr

/-- What the source observes of the world outside: the node it dials, the pool
contract, and `common.HexToAddress`.  `attempt i` is the outcome of pass `i` of
the connection loop (`ethclient.DialContext` then `NewUniswapV3Pool`); the reads
depend on the clock reading at which they are issued. -/
structure Node where
  HexToAddress : String → Address
  attempt : Nat → AttemptOutcome
  Token0 : Except String Address
  Token1 : Except String Address
  Slot0 : Int → Except String Unit
  Observe : Int → Nat → Nat → Except String (Int × Int)

/-- What the source does to the world outside, in order. -/
inductive Event
  | dialAttempt (i : Nat)
  | sleep (d : Int)
  | slot0Read (t : Int)
  | observeRead (t : Int)
  deriving DecidableEq, Repr

/-! ## The source: `uniswap_source.go` -/

/-- The struct `UniswapSource` (without the parsed ABI).  A handle is the index of
the connection attempt that produced it; `none` is a nil pointer. -/
structure UniswapSource where
  poolAddress : String
  tokenAddress : String
  providerUrl : String
  averagingInterval : Nat
  ethClient : Option Nat
  poolInstance : Option Nat
  updateInterval : Int
  token0IsBase : Bool
  priceDecimalsMult : BigFloat
  lastUpdated : Int
  lastPrice : Option BigFloat
  deriving DecidableEq, Repr

/-- The function `stripPrefix`: the runes of `input` from index `charsToRemove` on. -/
def stripPrefix (input : String) (charsToRemove : Nat) : String :=
  String.mk (input.data.drop charsToRemove)

/-- The call `strings.HasPrefix(s, p)`. -/
def HasPrefix (s p : String) : Bool := p.data.isPrefixOf s.data

/-- The loop of `NewUniswapSource` that multiplies `decMult` by `ten`, `n` times. -/
def decMultLoop (ten : BigFloat) : Nat → BigFloat → Except String BigFloat
  | 0, decMult => Except.ok decMult
  | n + 1, decMult =>
    match decMult.Mul decMult ten with
    | Except.error e => Except.error e
    | Except.ok decMult => decMultLoop ten n decMult

/-- The multiplier `priceDecimalsMult` built by `NewUniswapSource` for
`priceDecimals`: the loop runs `priceDecimals` times, not at all when it is
negative. -/
def priceDecimalsMult (priceDecimals : Int) : Except String BigFloat :=
  match BigFloat.new.SetInt64 10 with
  | Except.error e => Except.error e
  | Except.ok ten =>
    match BigFloat.new.SetInt64 1 with
    | Except.error e => Except.error e
    | Except.ok decMult => decMultLoop ten priceDecimals.toNat decMult

/-- The function `NewUniswapSource`; `abi` is the result of parsing the pool ABI. -/
def NewUniswapSource (abi : Except String Unit) (providerUrl : String)
    (averagingInterval : Nat) (tokenAddress : String) (priceDecimals : Int) :
    Except Failure UniswapSource :=
  match orPanic (priceDecimalsMult priceDecimals) with
  | Except.error f => Except.error f
  | Except.ok decMult =>
    match abi with
    | Except.error e =>
      Except.error (Failure.error ("Error retrieving UniswapV3Pool contract ABI: " ++ e))
    | Except.ok _ =>
      Except.ok
        { poolAddress := ""
          tokenAddress := tokenAddress
          providerUrl := providerUrl
          averagingInterval := averagingInterval
          ethClient := none
          poolInstance := none
          updateInterval := Second
          token0IsBase := false
          priceDecimalsMult := decMult
          lastUpdated := zeroTime
          lastPrice := none }

/-- State of the connection loop of `Dial` when it is left: the handles, the
variable `err`, and the attempts and sleeps so far. -/
structure LoopState where
  client : Option Nat
  pool : Option Nat
  err : Option String
  trace : List Event
  deriving DecidableEq, Repr

/-- The loop `for i := 0; i < 5; i++` of `Dial`, with `remaining = 5 - i` passes
left. -/
def dialLoop (node : Node) : Nat → Nat → Int → LoopState → LoopState
  | 0, _, _, st => st
  | remaining + 1, i, sleepFor, st =>
    let trace := st.trace ++ [Event.dialAttempt i]
    match node.attempt i with
    | AttemptOutcome.connected => ⟨some i, some i, none, trace⟩
    | AttemptOutcome.dialFailed cause =>
      dialLoop node remaining (i + 1) (sleepFor * 2)
        ⟨none, st.pool, some cause, trace ++ [Event.sleep sleepFor]⟩
    | AttemptOutcome.poolFailed cause =>
      dialLoop node remaining (i + 1) (sleepFor * 2)
        ⟨some i, none,
          some ("Error creating Uniswap pool contract instance: " ++ cause),
          trace ++ [Event.sleep sleepFor]⟩

/-- What `Dial` leaves: the source, the returned error (`none` is nil), and the
attempts and sleeps it made. -/
structure DialResult where
  us : UniswapSource
  err : Option String
  trace : List Event
  deriving DecidableEq, Repr

/-- The second half of `Dial`, after the connection loop: the failure of an
exhausted loop, else the token role from `Token0` and `Token1`.  The handles are
stored only when the role is resolved. -/
def resolveTokenRole (node : Node) (us : UniswapSource) (poolAddress : String)
    (st : LoopState) : DialResult :=
  match st.err with
  | some e => ⟨us, some ("Error dialing eth client: " ++ e), st.trace⟩
  | none =>
    let tokenAddr := node.HexToAddress us.tokenAddress
    match node.Token0 with
    | Except.error e => ⟨us, some ("Error reading uniswap token0 info: " ++ e), st.trace⟩
    | Except.ok token0 =>
      if token0 = tokenAddr then
        ⟨{ us with token0IsBase := true, ethClient := st.client, poolInstance := st.pool },
          none, st.trace⟩
      else
        match node.Token1 with
        | Except.error e => ⟨us, some ("Error reading uniswap token1 info: " ++ e), st.trace⟩
        | Except.ok token1 =>
          if token1 = tokenAddr then
            ⟨{ us with token0IsBase := false, ethClient := st.client, poolInstance := st.pool },
              none, st.trace⟩
          else
            ⟨us, some ("Error token " ++ us.tokenAddress ++ " not found in pool "
              ++ poolAddress), st.trace⟩

/-- The source as `Dial` has it when the connection loop starts: both addresses
without their `0x`. -/
def normalizeAddresses (us : UniswapSource) (poolAddress : String) : UniswapSource :=
  let poolAddress := if HasPrefix poolAddress "0x" then stripPrefix poolAddress 2 else poolAddress
  let us := if HasPrefix us.tokenAddress "0x"
    then { us with tokenAddress := stripPrefix us.tokenAddress 2 } else us
  { us with poolAddress := poolAddress }

/-- The method `Dial`. -/
def Dial (node : Node) (us : UniswapSource) (poolAddress : String) : DialResult :=
  let us := normalizeAddresses us poolAddress
  resolveTokenRole node us us.poolAddress
    (dialLoop node 5 0 (4 * Second) ⟨none, none, none, []⟩)

/-- The function `getSqrtRatioAtTick`: `sqrt(1.0001 ^ tick) * 2^96`, with the power
and the square root taken by the library.  The `float64` constant `1.0001` has the
fraction field `0x68db8bac71`; `1 << 96` is the `float64` `2^96`. -/
def getSqrtRatioAtTick (lib : Bigfloat) (tick : BigFloat) : Except String BigFloat := do
  let onePoint0001 ← BigFloat.new.SetFloat64 (F64.normal false 450359962737 0)
  let twoPower96 ← BigFloat.new.SetFloat64 (F64.normal false 0 96)
  let powResult ← lib.Pow onePoint0001 tick
  let sqrtResult ← lib.Sqrt powResult
  BigFloat.new.Mul sqrtResult twoPower96

/-- The value `ticks` of `getPrice`: the difference of the two cumulative ticks,
set into `big.NewFloat(0)`. -/
def ticksOf (tickCumulatives0 tickCumulatives1 : Int) : Except String BigFloat := do
  let z ← NewFloat (F64.zero false)
  z.SetInt (tickCumulatives1 - tickCumulatives0)

/-- The value `meanTick` of `getPrice`: `ticks` divided by the averaging interval. -/
def meanTickOf (averagingInterval : Nat) (tickCumulatives0 tickCumulatives1 : Int) :
    Except String BigFloat := do
  let ticks ← ticksOf tickCumulatives0 tickCumulatives1
  let z ← NewFloat (F64.zero false)
  let zw ← NewFloat (F64.zero false)
  let w ← zw.SetInt64 averagingInterval
  z.Quo ticks w

/-- The value `price` of `getPrice` from `meanTick` on: square of the sqrt ratio,
division by or of `2^192` by orientation, then the decimal multiplier. -/
def priceOfMeanTick (lib : Bigfloat) (token0IsBase : Bool) (decMult meanTick : BigFloat) :
    Except String BigFloat := do
  let sqrtRatio ← getSqrtRatioAtTick lib meanTick
  let ratio ← BigFloat.new.Mul sqrtRatio sqrtRatio
  let two192 ← BigFloat.new.SetInt (2 ^ 192)
  let numerator := if token0IsBase then ratio else two192
  let divisor := if token0IsBase then two192 else ratio
  let quo ← BigFloat.new.Quo numerator divisor
  BigFloat.new.Mul quo decMult

/-- Clock advances the source does not control: how long each read takes, how
much time passes between the two readings of `time.Since`, how much later than
asked `time.Sleep` returns, and how long the arithmetic takes. -/
structure Delays where
  slot0 : Nat
  check : Nat
  oversleep : Nat
  observe : Nat
  compute : Nat
  deriving DecidableEq, Repr

/-- What `getPrice` leaves: the source, the result, the clock reading at return,
and the reads and sleeps it made. -/
structure PriceResult where
  us : UniswapSource
  result : Except Failure BigFloat
  now : Int
  trace : List Event

/-- The clock reading at which `getPrice`, entered at `now`, has passed its
throttle: after the `Slot0` read, then, when `time.Since(us.lastUpdated)` is below
`updateInterval`, after a `time.Sleep` of `updateInterval` less a second reading
of `time.Since(us.lastUpdated)` (a duration of 0 or less returns at once). -/
def observeTime (us : UniswapSource) (delays : Delays) (now : Int) : Int :=
  let now1 := now + delays.slot0
  if Since now1 us.lastUpdated < us.updateInterval then
    let now2 := now1 + delays.check
    now2 + max (us.updateInterval - Since now2 us.lastUpdated) 0 + delays.oversleep
  else now1

/-- The call of `time.Sleep` in `getPrice`, when it is made. -/
def throttleSleep (us : UniswapSource) (delays : Delays) (now : Int) : List Event :=
  let now1 := now + delays.slot0
  if Since now1 us.lastUpdated < us.updateInterval then
    [Event.sleep (us.updateInterval - Since (now1 + delays.check) us.lastUpdated)]
  else []

/-- The method `getPrice`, entered at clock reading `now`. -/
def getPrice (lib : Bigfloat) (node : Node) (delays : Delays) (now : Int)
    (us : UniswapSource) : PriceResult :=
  match us.poolInstance with
  | none => ⟨us, Except.error (Failure.panic "nil pointer dereference"), now, []⟩
  | some _ =>
    match node.Slot0 now with
    | Except.error e =>
      ⟨us, Except.error (Failure.error ("Error reading uniswap slot0 info: " ++ e)),
        now + delays.slot0, [Event.slot0Read now]⟩
    | Except.ok _ =>
      let now3 := observeTime us delays now
      let trace := [Event.slot0Read now] ++ throttleSleep us delays now
        ++ [Event.observeRead now3]
      let now4 := now3 + delays.observe
      match node.Observe now3 us.averagingInterval 0 with
      | Except.error e => ⟨us, Except.error (Failure.error e), now4, trace⟩
      | Except.ok tickCumulatives =>
        let now5 := now4 + delays.compute
        match orPanic (meanTickOf us.averagingInterval tickCumulatives.1 tickCumulatives.2
            >>= priceOfMeanTick lib us.token0IsBase us.priceDecimalsMult) with
        | Except.error f => ⟨us, Except.error f, now5, trace⟩
        | Except.ok price =>
          ⟨{ us with lastPrice := some price, lastUpdated := now5 }, Except.ok price, now5,
            trace⟩

/-- The method `ReadServerData`: the price, gob-encoded. -/
def ReadServerData (lib : Bigfloat) (node : Node) (delays : Delays) (now : Int)
    (us : UniswapSource) : UniswapSource × Except Failure (List Nat) :=
  let r := getPrice lib node delays now us
  match r.result with
  | Except.error f => (r.us, Except.error f)
  | Except.ok price => (r.us, Except.ok price.GobEncode)

/-! ## The provider: `uniswap_provider.go` -/

/-- The closure `extractPrice` of `NewUniswapProvider`: the pair `(price, err)` it
returns, or the panic of `big.NewFloat` and `Mul`.  `Float64` is the conversion
`(*Float).Float64`. -/
def extractPrice (Float64 : BigFloat → F64) (multiplier : F64) (priceResponse : List Nat) :
    Except String (F64 × Option String) :=
  match GobDecode priceResponse with
  | Except.error e => Except.ok (F64.zero false, some e)
  | Except.ok bprice => do
    let m ← NewFloat multiplier
    let p ← bprice.Mul bprice m
    pure (Float64 p, none)

/-! ## Definitions used to state the properties -/

/-- The cause carried by the variable `err` after a failed pass of the connection
loop. -/
def AttemptOutcome.cause : AttemptOutcome → String
  | AttemptOutcome.dialFailed c => c
  | AttemptOutcome.poolFailed c => "Error creating Uniswap pool contract instance: " ++ c
  | AttemptOutcome.connected => ""

/-- The retry schedule in the words of the specification: `n` failed attempts, the
one with index `k` (attempt `k + 1`) followed by a wait of `4 * 2^k` seconds. -/
def backoffTrace (n : Nat) : List Event :=
  (List.range n).flatMap (fun k => [Event.dialAttempt k, Event.sleep (4 * 2 ^ k * Second)])

/-- The indices of the connection attempts in a trace, in order. -/
def attemptsIn (trace : List Event) : List Nat :=
  trace.filterMap (fun e => match e with | Event.dialAttempt i => some i | _ => none)

/-- The attempts and sleeps of `m` failed passes starting at pass `i` with the
sleep `s`. -/
def backoffFrom (i : Nat) (s : Int) : Nat → List Event
  | 0 => []
  | m + 1 => [Event.dialAttempt i, Event.sleep s] ++ backoffFrom (i + 1) (s * 2) m

/-- A node whose first four connection attempts fail and whose fifth succeeds, for
a pool of the tokens 7 and 9; every address string names the token 9. -/
def flakyNode : Node :=
  { HexToAddress := fun _ => 9
    attempt := fun i => if i < 4 then AttemptOutcome.dialFailed "connection refused"
      else AttemptOutcome.connected
    Token0 := Except.ok 7
    Token1 := Except.ok 9
    Slot0 := fun _ => Except.ok ()
    Observe := fun _ _ _ => Except.ok (0, 0) }

/-- A node that never accepts a connection. -/
def deadNode : Node :=
  { flakyNode with attempt := fun i => AttemptOutcome.poolFailed ("no contract " ++ toString i) }

/-- A source as `NewUniswapSource` leaves it, for the token `0xabc`, with the
multiplier 1 and a one-second averaging interval. -/
def freshSource : UniswapSource :=
  { poolAddress := ""
    tokenAddress := "0xabc"
    providerUrl := "ws://node"
    averagingInterval := 1
    ethClient := none
    poolInstance := none
    updateInterval := Second
    token0IsBase := false
    priceDecimalsMult :=
      ⟨64, RoundingMode.ToNearestEven, Accuracy.Exact, Form.finite, false, 2 ^ 63, 1⟩
    lastUpdated := zeroTime
    lastPrice := none }

/-- An instance of the library interface that is exact at the inputs 0 and 1: `Pow`
returns 1 (at the precision of its base) for a zero exponent and its base
otherwise, `Sqrt` returns its argument. -/
def trivialBigfloat : Bigfloat :=
  { Pow := fun z w =>
      if w.form = Form.zero then
        Except.ok ⟨z.prec, RoundingMode.ToNearestEven, Accuracy.Exact, Form.finite, false, 2 ^ 63, 1⟩
      else Except.ok z
    Sqrt := fun x => Except.ok x }

/-- A clock that does not advance on its own. -/
def noDelays : Delays := ⟨0, 0, 0, 0, 0⟩

/-- The source `freshSource` after a successful `Dial`. -/
def dialledSource : UniswapSource := (Dial flakyNode freshSource "0xpool").us

/-- Whether a rounding mode is one of the six constants. -/
def RoundingMode.isValid : RoundingMode → Bool
  | RoundingMode.invalid _ => false
  | _ => true

/-- A finite value as `round` receives it: positive precision, a mantissa whose top
word has its top bit set, an exponent in range. -/
def BigFloat.Normal (x : BigFloat) : Prop :=
  x.form = Form.finite ∧ 0 < x.prec ∧ x.prec < 2 ^ 32 ∧ x.mant ≠ 0 ∧ bitLen x.mant % 64 = 0 ∧
    MinExp ≤ x.exp ∧ x.exp ≤ MaxExp

/-- The invariant of a `big.Float` value (the conditions `validate` checks): the
precision is a `uint32`; a finite value has a positive precision, a normalized
non-empty mantissa of no more words than the precision needs, and an `int32`
exponent; a value that is not finite carries no mantissa and no exponent; the form
is one of the three constants. -/
def BigFloat.Valid (x : BigFloat) : Prop :=
  x.prec < 2 ^ 32 ∧
  (x.form = Form.finite →
    0 < x.prec ∧ x.mant ≠ 0 ∧ bitLen x.mant % 64 = 0 ∧
      bitLen x.mant ≤ (x.prec + 63) / 64 * 64 ∧ MinExp ≤ x.exp ∧ x.exp ≤ MaxExp) ∧
  (x.form ≠ Form.finite → x.mant = 0 ∧ x.exp = 0) ∧
  x.form ≠ Form.undef

/-- The mantissa cut to the words the precision needs (no cut when it is short enough). -/
def cutMant (prec mant : Nat) : Nat :=
  if wordLen mant > (prec + 63) / 64 then mant >>> (64 * (wordLen mant - (prec + 63) / 64))
  else mant

/-- The precision of the result of `z.Mul(x, y)` and `z.Quo(x, y)`. -/
def resPrec (z x y : BigFloat) : Nat := if z.prec = 0 then max x.prec y.prec else z.prec

/-- The receiver of `Mul` and `Quo` once precision and sign are set. -/
def receiver (z x y : BigFloat) : BigFloat :=
  { z with prec := resPrec z x y, neg := x.neg != y.neg }

/-- The sign `+1` or `-1` of a value. -/
def signOf (neg : Bool) : ℚ := if neg then -1 else 1

/-- The mantissa `m` has at most `p` significant bits. -/
def fitsIn (m p : Nat) : Prop := m % 2 ^ (bitLen m - p) = 0

/-- The number of zero words `uquo` appends to the dividend for a result of
precision `p`, the dividend having `lx` words and the divisor `ly`. -/
def quoShift (p lx ly : Nat) : Nat := p / 64 + 1 + ly - lx

/-- Whether the value of `x` is exactly `v / 2^k` (a decidable form of
`x.toRat = v / 2^k` for a finite, non-negative `x`). -/
def BigFloat.isDyadic (x : BigFloat) (v k : Nat) : Bool :=
  decide (x.form = Form.finite) && !x.neg && decide (0 ≤ x.exp + (k : Int))
    && decide (x.mant * 2 ^ (x.exp + (k : Int)).toNat = v * 2 ^ bitLen x.mant)

/-- Whether a call returned a value that is exactly `v / 2^k`, with accuracy `acc`. -/
def returnsDyadic (r : Except String BigFloat) (v k : Nat) (acc : Accuracy) : Bool :=
  match r with
  | Except.ok x => x.isDyadic v k && decide (x.acc = acc)
  | Except.error _ => false

/-- The value `big.NewFloat(0)`. -/
def zero53 : BigFloat :=
  ⟨53, RoundingMode.ToNearestEven, Accuracy.Exact, Form.zero, false, 0, 0⟩

/-- What the zero-tick scenario needs of the library: on valid arguments, a zero
exponent gives the value 1 and the square root of 1 is 1. -/
def Bigfloat.ExactAtOne (lib : Bigfloat) : Prop :=
  (∀ z w : BigFloat, z.Valid → z.form = Form.finite → w.form = Form.zero →
    ∃ r, lib.Pow z w = Except.ok r ∧ r.Valid ∧ r.form = Form.finite ∧ r.toRat = 1) ∧
  (∀ x : BigFloat, x.Valid → x.form = Form.finite → x.toRat = 1 →
    ∃ r, lib.Sqrt x = Except.ok r ∧ r.Valid ∧ r.form = Form.finite ∧ r.toRat = 1)

/-- The `float64` constant `1 << 96` set into a fresh `big.Float`. -/
def twoPower96 : BigFloat :=
  ⟨53, RoundingMode.ToNearestEven, Accuracy.Exact, Form.finite, false, 2 ^ 63, 97⟩

/-- The `float64` constant `1.0001` set into a fresh `big.Float`. -/
def onePoint0001 : BigFloat :=
  ⟨53, RoundingMode.ToNearestEven, Accuracy.Exact, Form.finite, false,
    2 ^ 63 + 450359962737 * 2 ^ 11, 1⟩

/-- The integer `2^192` set into a fresh `big.Float`. -/
def two192 : BigFloat :=
  ⟨193, RoundingMode.ToNearestEven, Accuracy.Exact, Form.finite, false, 2 ^ 255, 193⟩

/-- A dialled source that tracks the first token of its pool, with six price
decimals (the multiplier `10^6`). -/
def baseSource : UniswapSource :=
  { dialledSource with
    token0IsBase := true
    priceDecimalsMult :=
      ⟨64, RoundingMode.ToNearestEven, Accuracy.Exact, Form.finite, false,
        17592186044416000000, 20⟩ }

/-- The header byte of the encoding of `x`. -/
def BigFloat.headerByte (x : BigFloat) : Nat :=
  x.mode.code % 8 * 32 + x.acc.code % 4 * 8 + x.form.code % 4 * 2 + (if x.neg then 1 else 0)

/-- The library returns well-formed `big.Float` values on well-formed arguments. -/
def Bigfloat.ReturnsValid (lib : Bigfloat) : Prop :=
  (∀ z w r : BigFloat, z.Valid → z.form = Form.finite → w.Valid →
    lib.Pow z w = Except.ok r → r.Valid) ∧
  (∀ x r : BigFloat, x.Valid → lib.Sqrt x = Except.ok r → r.Valid)

/-- A conversion `(*Float).Float64` that only tells zero from the rest. -/
def coarseFloat64 (x : BigFloat) : F64 :=
  if x.form = Form.zero then F64.zero x.neg else F64.normal x.neg 0 0

/-- The increment `round` adds to the truncated mantissa in mode `ToNearestEven`:
`k` is the number of mantissa bits cut, `s` the sticky bit handed in. -/
def nearestInc (mant k s : Nat) : Bool :=
  decide (mant / 2 ^ (k - 1) % 2 ≠ 0) &&
    (decide ((if s = 0 then sticky mant (k - 1) else s) % 2 ≠ 0)
      || decide (mant / 2 ^ k % 2 ≠ 0))

/-- A connected node whose pool reports the cumulative ticks 0 and 1. -/
def tickingNode : Node :=
  { flakyNode with Observe := fun _ _ _ => Except.ok (0, 1) }

/-- A dialled source that tracks the second token of its pool, with six price
decimals (the multiplier `10^6`). -/
def quoteSource : UniswapSource :=
  { dialledSource with priceDecimalsMult := baseSource.priceDecimalsMult }

/-- The mean tick 1, at the 53 bits of its receiver. -/
def meanTickOne : BigFloat :=
  ⟨53, RoundingMode.ToNearestEven, Accuracy.Exact, Form.finite, false, 2 ^ 63, 1⟩

/-- The value `1.0001 * 2^96` (the `float64` constant `1.0001`), at 53 bits. -/
def sqrtRatioAtOne : BigFloat :=
  ⟨53, RoundingMode.ToNearestEven, Accuracy.Exact, Form.finite, false, 9224294374058461184, 97⟩

/-- The square of `sqrtRatioAtOne`, rounded to 53 bits. -/
def ratioAtOne : BigFloat :=
  ⟨53, RoundingMode.ToNearestEven, Accuracy.Below, Form.finite, false, 9225216803495866368, 193⟩

/-- The price `ratioAtOne / 2^192 * 10^6`, at 193 bits. -/
def basePriceAtOne : BigFloat :=
  ⟨193, RoundingMode.ToNearestEven, Accuracy.Exact, Form.finite, false,
    110450028241238156745963077136390230235948638285935203987181674751328256000000, 20⟩

/-- The price `2^192 / ratioAtOne * 10^6`, rounded to 193 bits. -/
def quotePriceAtOne : BigFloat :=
  ⟨193, RoundingMode.ToNearestEven, Accuracy.Above, Form.finite, false,
    110405859272735889835404682043087030420962325816270577868904703076523470487552, 20⟩

/-! ## The connection loop of `Dial` -/

theorem dialLoop_all_failed (node : Node) :
    ∀ (rem i : Nat) (s : Int) (st : LoopState),
    (∀ k, k < rem → node.attempt (i + k) ≠ AttemptOutcome.connected) →
    (dialLoop node rem i s st).trace = st.trace ++ backoffFrom i s rem ∧
    (dialLoop node rem i s st).err =
      (if rem = 0 then st.err else some (node.attempt (i + rem - 1)).cause) := by
  intro rem
  induction rem with
  | zero => intro i s st _; simp [dialLoop, backoffFrom]
  | succ rem ih =>
    intro i s st h
    have h0 := h 0 (Nat.succ_pos _)
    have hrest : ∀ k, k < rem → node.attempt (i + 1 + k) ≠ AttemptOutcome.connected := by
      intro k hk
      have := h (k + 1) (by omega)
      rwa [show i + 1 + k = i + (k + 1) by omega]
    rw [Nat.add_zero] at h0
    cases hi : node.attempt i with
    | connected => exact absurd hi h0
    | dialFailed c =>
      obtain ⟨h1, h2⟩ := ih (i + 1) (s * 2)
        ⟨none, st.pool, some c, st.trace ++ [Event.dialAttempt i] ++ [Event.sleep s]⟩ hrest
      simp only [dialLoop, hi]
      refine ⟨by rw [h1]; simp [backoffFrom], ?_⟩
      rw [h2]
      rcases Nat.eq_zero_or_pos rem with hr | hr
      · subst hr; simp [hi, AttemptOutcome.cause]
      · have : i + 1 + rem - 1 = i + (rem + 1) - 1 := by omega
        simp [Nat.ne_of_gt hr, this]
    | poolFailed c =>
      obtain ⟨h1, h2⟩ := ih (i + 1) (s * 2)
        ⟨some i, none, some ("Error creating Uniswap pool contract instance: " ++ c),
          st.trace ++ [Event.dialAttempt i] ++ [Event.sleep s]⟩ hrest
      simp only [dialLoop, hi]
      refine ⟨by rw [h1]; simp [backoffFrom], ?_⟩
      rw [h2]
      rcases Nat.eq_zero_or_pos rem with hr | hr
      · subst hr; simp [hi, AttemptOutcome.cause]
      · have : i + 1 + rem - 1 = i + (rem + 1) - 1 := by omega
        simp [Nat.ne_of_gt hr, this]

theorem dialLoop_first_connected (node : Node) :
    ∀ (m rem i : Nat) (s : Int) (st : LoopState), m < rem →
    (∀ k, k < m → node.attempt (i + k) ≠ AttemptOutcome.connected) →
    node.attempt (i + m) = AttemptOutcome.connected →
    dialLoop node rem i s st =
      ⟨some (i + m), some (i + m), none,
        st.trace ++ backoffFrom i s m ++ [Event.dialAttempt (i + m)]⟩ := by
  intro m
  induction m with
  | zero =>
    intro rem i s st hlt _ hc
    obtain ⟨r, rfl⟩ : ∃ r, rem = r + 1 := ⟨rem - 1, by omega⟩
    rw [Nat.add_zero] at hc
    simp [dialLoop, hc, backoffFrom]
  | succ m ih =>
    intro rem i s st hlt h hc
    obtain ⟨r, rfl⟩ : ∃ r, rem = r + 1 := ⟨rem - 1, by omega⟩
    have h0 := h 0 (Nat.succ_pos _)
    rw [Nat.add_zero] at h0
    have hrest : ∀ k, k < m → node.attempt (i + 1 + k) ≠ AttemptOutcome.connected := by
      intro k hk
      have := h (k + 1) (by omega)
      rwa [show i + 1 + k = i + (k + 1) by omega]
    have hc' : node.attempt (i + 1 + m) = AttemptOutcome.connected := by
      rwa [show i + 1 + m = i + (m + 1) by omega]
    cases hi : node.attempt i with
    | connected => exact absurd hi h0
    | dialFailed c =>
      simp only [dialLoop, hi]
      rw [ih r (i + 1) (s * 2) _ (by omega) hrest hc']
      simp [backoffFrom, show i + 1 + m = i + (m + 1) by omega]
    | poolFailed c =>
      simp only [dialLoop, hi]
      rw [ih r (i + 1) (s * 2) _ (by omega) hrest hc']
      simp [backoffFrom, show i + 1 + m = i + (m + 1) by omega]

theorem backoffFrom_eq (n : Nat) (h : n ≤ 5) :
    backoffFrom 0 (4 * Second) n = backoffTrace n := by
  interval_cases n <;> decide

theorem attemptsIn_backoff (n : Nat) (h : n ≤ 5) :
    attemptsIn (backoffTrace n) = List.range n ∧
    attemptsIn (backoffTrace n ++ [Event.dialAttempt n]) = List.range (n + 1) := by
  interval_cases n <;> decide

theorem resolveTokenRole_trace (node : Node) (us : UniswapSource) (poolAddress : String)
    (st : LoopState) : (resolveTokenRole node us poolAddress st).trace = st.trace := by
  unfold resolveTokenRole
  split
  · rfl
  · split
    · rfl
    · dsimp only
      split
      · rfl
      · split
        · rfl
        · split <;> rfl

theorem dialLoop_connected_state (node : Node) (n : Nat) (hn : n < 5)
    (hfail : ∀ k, k < n → node.attempt k ≠ AttemptOutcome.connected)
    (hok : node.attempt n = AttemptOutcome.connected) :
    dialLoop node 5 0 (4 * Second) ⟨none, none, none, []⟩ =
      ⟨some n, some n, none, backoffTrace n ++ [Event.dialAttempt n]⟩ := by
  have h := dialLoop_first_connected node n 5 0 (4 * Second) ⟨none, none, none, []⟩ hn
    (by intro k hk; rw [Nat.zero_add]; exact hfail k hk) (by rw [Nat.zero_add]; exact hok)
  rw [h, backoffFrom_eq n (by omega)]
  simp

/-! ## `Dial`: bounded retry and token role -/

/-- C6. Bounded bootstrap retry of `Dial`: when the first connection attempt that
succeeds is attempt `n + 1 <= 5`, the attempts 1 to `n + 1` are made in order, the
failed attempt with index `k` is followed by a wait of `4 * 2^k` seconds, and
`Dial` goes on to token resolution with the handles of that attempt; when all
five attempts fail, five attempts are made with the waits 4, 8, 16, 32 and 64
seconds, and `Dial` returns the error `Error dialing eth client:` carrying the
cause of the fifth failure, leaving the source without handles; in every case
there are at most five attempts. -/
theorem Dial_bounded_retry (node : Node) (us : UniswapSource) (poolAddress : String) :
    (∀ n, n < 5 → (∀ k, k < n → node.attempt k ≠ AttemptOutcome.connected) →
      node.attempt n = AttemptOutcome.connected →
      (Dial node us poolAddress).trace = backoffTrace n ++ [Event.dialAttempt n] ∧
      attemptsIn (Dial node us poolAddress).trace = List.range (n + 1) ∧
      Dial node us poolAddress =
        resolveTokenRole node (normalizeAddresses us poolAddress)
          (normalizeAddresses us poolAddress).poolAddress
          ⟨some n, some n, none, backoffTrace n ++ [Event.dialAttempt n]⟩) ∧
    ((∀ k, k < 5 → node.attempt k ≠ AttemptOutcome.connected) →
      (Dial node us poolAddress).trace = backoffTrace 5 ∧
      attemptsIn (Dial node us poolAddress).trace = List.range 5 ∧
      (Dial node us poolAddress).err =
        some ("Error dialing eth client: " ++ (node.attempt 4).cause) ∧
      (Dial node us poolAddress).us = normalizeAddresses us poolAddress) ∧
    (attemptsIn (Dial node us poolAddress).trace).length ≤ 5 := by
  have hsucc : ∀ n, n < 5 → (∀ k, k < n → node.attempt k ≠ AttemptOutcome.connected) →
      node.attempt n = AttemptOutcome.connected →
      (Dial node us poolAddress).trace = backoffTrace n ++ [Event.dialAttempt n] ∧
      attemptsIn (Dial node us poolAddress).trace = List.range (n + 1) ∧
      Dial node us poolAddress =
        resolveTokenRole node (normalizeAddresses us poolAddress)
          (normalizeAddresses us poolAddress).poolAddress
          ⟨some n, some n, none, backoffTrace n ++ [Event.dialAttempt n]⟩ := by
    intro n hn hfail hok
    have hst := dialLoop_connected_state node n hn hfail hok
    have htr : (Dial node us poolAddress).trace = backoffTrace n ++ [Event.dialAttempt n] := by
      simp only [Dial, resolveTokenRole_trace, hst]
    refine ⟨htr, ?_, ?_⟩
    · rw [htr]; exact (attemptsIn_backoff n (by omega)).2
    · simp only [Dial, hst]
  have hfailAll : (∀ k, k < 5 → node.attempt k ≠ AttemptOutcome.connected) →
      (Dial node us poolAddress).trace = backoffTrace 5 ∧
      attemptsIn (Dial node us poolAddress).trace = List.range 5 ∧
      (Dial node us poolAddress).err =
        some ("Error dialing eth client: " ++ (node.attempt 4).cause) ∧
      (Dial node us poolAddress).us = normalizeAddresses us poolAddress := by
    intro hall
    obtain ⟨h1, h2⟩ := dialLoop_all_failed node 5 0 (4 * Second) ⟨none, none, none, []⟩
      (by intro k hk; rw [Nat.zero_add]; exact hall k hk)
    have htr : (Dial node us poolAddress).trace = backoffTrace 5 := by
      simp only [Dial, resolveTokenRole_trace, h1, backoffFrom_eq 5 (le_refl 5), List.nil_append]
    have h2' : (dialLoop node 5 0 (4 * Second) ⟨none, none, none, []⟩).err
        = some (node.attempt 4).cause := by
      rw [h2]; simp
    refine ⟨htr, ?_, ?_, ?_⟩
    · rw [htr]; exact (attemptsIn_backoff 5 (le_refl 5)).1
    · simp only [Dial, resolveTokenRole, h2']
    · simp only [Dial, resolveTokenRole, h2']
  refine ⟨hsucc, hfailAll, ?_⟩
  by_cases hex : ∃ n, n < 5 ∧ node.attempt n = AttemptOutcome.connected
  · have hmin := Nat.find_spec hex
    have hlt := fun k (hk : k < Nat.find hex) => Nat.find_min hex hk
    obtain ⟨_, h2, _⟩ := hsucc (Nat.find hex) hmin.1
      (fun k hk hc => hlt k hk ⟨by omega, hc⟩) hmin.2
    rw [h2, List.length_range]
    omega
  · have hall : ∀ k, k < 5 → node.attempt k ≠ AttemptOutcome.connected :=
      fun k hk hc => hex ⟨k, hk, hc⟩
    obtain ⟨_, h2, _⟩ := hfailAll hall
    rw [h2, List.length_range]

/-- Four failures then a success: five attempts with the waits 4 s, 8 s, 16 s and
32 s, and a pool handle; five failures: the error of the fifth and no sixth
attempt. -/
theorem Dial_bounded_retry_witness :
    (Dial flakyNode freshSource "0xpool").trace =
      [Event.dialAttempt 0, Event.sleep 4000000000, Event.dialAttempt 1,
        Event.sleep 8000000000, Event.dialAttempt 2, Event.sleep 16000000000,
        Event.dialAttempt 3, Event.sleep 32000000000, Event.dialAttempt 4] ∧
    (Dial flakyNode freshSource "0xpool").err = none ∧
    (Dial flakyNode freshSource "0xpool").us.poolInstance = some 4 ∧
    (Dial deadNode freshSource "0xpool").err = some
      "Error dialing eth client: Error creating Uniswap pool contract instance: no contract 4" ∧
    (attemptsIn (Dial deadNode freshSource "0xpool").trace).length = 5 := by
  have h := Dial_bounded_retry flakyNode freshSource "0xpool"
  have h' := Dial_bounded_retry deadNode freshSource "0xpool"
  refine ⟨?_, ?_, ?_, ?_, ?_⟩
  · rw [(h.1 4 (by decide) (by intro k hk; interval_cases k <;> decide) (by decide)).1]; decide
  · decide
  · decide
  · rw [(h'.2.1 (by intro k hk; interval_cases k <;> decide)).2.2.1]; decide
  · rw [(h'.2.1 (by intro k hk; interval_cases k <;> decide)).2.1]; decide

theorem normalizeAddresses_handles (us : UniswapSource) (poolAddress : String) :
    (normalizeAddresses us poolAddress).poolInstance = us.poolInstance ∧
    (normalizeAddresses us poolAddress).ethClient = us.ethClient := by
  simp only [normalizeAddresses]
  split_ifs <;> exact ⟨rfl, rfl⟩

theorem resolveTokenRole_connected (node : Node) (us : UniswapSource) (poolAddress : String)
    (token0 token1 : Address) (c p : Option Nat) (tr : List Event)
    (h0 : node.Token0 = Except.ok token0) (h1 : node.Token1 = Except.ok token1) :
    resolveTokenRole node us poolAddress ⟨c, p, none, tr⟩ =
      if token0 = node.HexToAddress us.tokenAddress then
        ⟨{ us with token0IsBase := true, ethClient := c, poolInstance := p }, none, tr⟩
      else if token1 = node.HexToAddress us.tokenAddress then
        ⟨{ us with token0IsBase := false, ethClient := c, poolInstance := p }, none, tr⟩
      else
        ⟨us, some ("Error token " ++ us.tokenAddress ++ " not found in pool " ++ poolAddress),
          tr⟩ := by
  simp only [resolveTokenRole, h0, h1]

/-- C1. Token role resolution of `Dial`, once a connection attempt has succeeded
and the pool has returned its two token addresses: the flag `token0IsBase` is
true when the tracked token is `token0`, false when it is `token1` and not
`token0`, and `Dial` fails with the error `token ... not found in pool`, the
handles of the source left as they were, exactly when the tracked token is
neither. -/
theorem Dial_token_role (node : Node) (us : UniswapSource) (poolAddress : String)
    (token0 token1 : Address)
    (hconn : ∃ n, n < 5 ∧ node.attempt n = AttemptOutcome.connected)
    (h0 : node.Token0 = Except.ok token0) (h1 : node.Token1 = Except.ok token1) :
    (node.HexToAddress (normalizeAddresses us poolAddress).tokenAddress = token0 →
      (Dial node us poolAddress).err = none ∧
      (Dial node us poolAddress).us.token0IsBase = true ∧
      (Dial node us poolAddress).us.poolInstance ≠ none) ∧
    (node.HexToAddress (normalizeAddresses us poolAddress).tokenAddress ≠ token0 →
      node.HexToAddress (normalizeAddresses us poolAddress).tokenAddress = token1 →
      (Dial node us poolAddress).err = none ∧
      (Dial node us poolAddress).us.token0IsBase = false ∧
      (Dial node us poolAddress).us.poolInstance ≠ none) ∧
    (((Dial node us poolAddress).err = some ("Error token "
          ++ (normalizeAddresses us poolAddress).tokenAddress ++ " not found in pool "
          ++ (normalizeAddresses us poolAddress).poolAddress) ∧
        (Dial node us poolAddress).us.poolInstance = us.poolInstance ∧
        (Dial node us poolAddress).us.ethClient = us.ethClient) ↔
      (node.HexToAddress (normalizeAddresses us poolAddress).tokenAddress ≠ token0 ∧
        node.HexToAddress (normalizeAddresses us poolAddress).tokenAddress ≠ token1)) := by
  have hmin := Nat.find_spec hconn
  have hlt := fun k (hk : k < Nat.find hconn) => Nat.find_min hconn hk
  have hst := dialLoop_connected_state node (Nat.find hconn) hmin.1
    (fun k hk hc => hlt k hk ⟨by omega, hc⟩) hmin.2
  have hD := resolveTokenRole_connected node (normalizeAddresses us poolAddress)
    (normalizeAddresses us poolAddress).poolAddress token0 token1 (some (Nat.find hconn))
    (some (Nat.find hconn)) (backoffTrace (Nat.find hconn) ++ [Event.dialAttempt (Nat.find hconn)])
    h0 h1
  rw [← hst] at hD
  change Dial node us poolAddress = _ at hD
  obtain ⟨hp, hc⟩ := normalizeAddresses_handles us poolAddress
  rw [hD]
  by_cases ht0 : token0 = node.HexToAddress (normalizeAddresses us poolAddress).tokenAddress
  · rw [if_pos ht0]
    refine ⟨fun _ => ⟨rfl, rfl, by simp⟩, fun hne => absurd ht0.symm hne, ?_⟩
    constructor
    · intro h; exact absurd h.1 (by simp)
    · intro h; exact absurd ht0.symm h.1
  · rw [if_neg ht0]
    by_cases ht1 : token1 = node.HexToAddress (normalizeAddresses us poolAddress).tokenAddress
    · rw [if_pos ht1]
      refine ⟨fun h => absurd h.symm ht0, fun _ _ => ⟨rfl, rfl, by simp⟩, ?_⟩
      constructor
      · intro h; exact absurd h.1 (by simp)
      · intro h; exact absurd ht1.symm h.2
    · rw [if_neg ht1]
      refine ⟨fun h => absurd h.symm ht0, fun _ h => absurd h.symm ht1, ?_⟩
      constructor
      · intro _; exact ⟨fun h => ht0 h.symm, fun h => ht1 h.symm⟩
      · intro _; exact ⟨rfl, hp, hc⟩

/-- The tracked token 9 is the second token of the pool (7, 9). -/
theorem Dial_token_role_witness :
    (Dial flakyNode freshSource "0xpool").err = none ∧
    (Dial flakyNode freshSource "0xpool").us.token0IsBase = false ∧
    (Dial flakyNode freshSource "0xpool").us.poolInstance ≠ none :=
  (Dial_token_role flakyNode freshSource "0xpool" 7 9 ⟨4, by decide, by decide⟩ rfl rfl).2.1
    (by decide) (by decide)

/-! ## `getPrice`: throttle and zero window -/

theorem orPanic_ne_error {α : Type} (r : Except String α) (msg : String) :
    orPanic r ≠ Except.error (Failure.error msg) := by
  cases r <;> simp [orPanic]

theorem meanTickOf_zero_window (c : Int) :
    meanTickOf 0 c c = Except.error "division of zero by zero or infinity by infinity" := by
  simp [meanTickOf, ticksOf, NewFloat, BigFloat.SetFloat64, BigFloat.SetInt, BigFloat.SetInt64,
    BigFloat.setBits64, BigFloat.Quo, BigFloat.setForm, BigFloat.new, bind, Except.bind]

/-- C2 (the code at the failing input). With an averaging interval of 0 and both
reads successful, `getPrice` never returns an error, so no `InvalidWindow`: it
panics or returns a price; and when the two observations are equal, as two
observations at the same offset 0 are, it panics on the division 0 / 0. -/
theorem getPrice_zero_window (lib : Bigfloat) (node : Node) (delays : Delays) (now : Int)
    (us : UniswapSource) (handle : Nat) (c0 c1 : Int)
    (hw : us.averagingInterval = 0) (hp : us.poolInstance = some handle)
    (hs : node.Slot0 now = Except.ok ())
    (ho : node.Observe (observeTime us delays now) 0 0 = Except.ok (c0, c1)) :
    (∀ msg, (getPrice lib node delays now us).result ≠ Except.error (Failure.error msg)) ∧
    (c0 = c1 → (getPrice lib node delays now us).result =
      Except.error (Failure.panic "division of zero by zero or infinity by infinity")) := by
  constructor
  · intro msg
    cases hc : orPanic (meanTickOf 0 c0 c1
        >>= priceOfMeanTick lib us.token0IsBase us.priceDecimalsMult) with
    | error f =>
      simp only [getPrice, hp, hs, hw, ho, hc]
      intro h
      rw [h] at hc
      exact orPanic_ne_error _ _ hc
    | ok p => simp only [getPrice, hp, hs, hw, ho, hc]; simp
  · intro hc
    subst hc
    simp only [getPrice, hp, hs, hw, ho, meanTickOf_zero_window]
    rfl

/-- Window 0 on a pool whose two observations are both 0: the `ErrNaN` panic. -/
theorem getPrice_zero_window_witness :
    (getPrice trivialBigfloat flakyNode noDelays 5000000000
      { dialledSource with averagingInterval := 0 }).result =
      Except.error (Failure.panic "division of zero by zero or infinity by infinity") :=
  (getPrice_zero_window trivialBigfloat flakyNode noDelays 5000000000
    { dialledSource with averagingInterval := 0 } 4 0 0 rfl (by decide) rfl rfl).2 rfl

/-! ## Bit lengths and the invariant of `big.Float` -/

theorem bitLenAux_le_iff : ∀ (fuel n : Nat), n ≤ fuel → ∀ k, bitLenAux fuel n ≤ k ↔ n < 2 ^ k := by
  intro fuel
  induction fuel with
  | zero =>
    intro n hn k
    have : n = 0 := by omega
    subst this
    simp [bitLenAux]
  | succ f ih =>
    intro n hn k
    unfold bitLenAux
    by_cases h0 : n = 0
    · subst h0; simp
    · rw [if_neg h0]
      cases k with
      | zero => simp; omega
      | succ k =>
        rw [Nat.add_le_add_iff_right, ih (n / 2) (by omega) k, pow_succ]
        omega

theorem bitLen_le_iff (n k : Nat) : bitLen n ≤ k ↔ n < 2 ^ k :=
  bitLenAux_le_iff n n (le_refl n) k

theorem bitLen_eq_size (n : Nat) : bitLen n = Nat.size n := by
  apply le_antisymm
  · rw [bitLen_le_iff]; exact Nat.lt_size_self n
  · rw [Nat.size_le, ← bitLen_le_iff]

theorem lt_two_pow_bitLen (n : Nat) : n < 2 ^ bitLen n := (bitLen_le_iff n _).1 (le_refl _)

theorem two_pow_le_of_bitLen (n : Nat) (h : n ≠ 0) : 2 ^ (bitLen n - 1) ≤ n := by
  by_contra hlt
  rw [not_le, ← bitLen_le_iff] at hlt
  have : bitLen n ≠ 0 := by
    intro h0
    have := lt_two_pow_bitLen n
    rw [h0] at this
    omega
  omega

theorem bitLen_pos (n : Nat) (h : n ≠ 0) : 0 < bitLen n := by
  by_contra h0
  have := lt_two_pow_bitLen n
  rw [show bitLen n = 0 by omega] at this
  omega

theorem bitLen_eq_of_bounds (n k : Nat) (hlo : 2 ^ k ≤ n) (hhi : n < 2 ^ (k + 1)) :
    bitLen n = k + 1 := by
  apply le_antisymm
  · exact (bitLen_le_iff n _).2 hhi
  · by_contra h
    have : bitLen n ≤ k := by omega
    rw [bitLen_le_iff] at this
    omega

theorem bitLen_mul_two_pow (n j : Nat) (h : n ≠ 0) : bitLen (n * 2 ^ j) = bitLen n + j := by
  have hpos := bitLen_pos n h
  have hlo := two_pow_le_of_bitLen n h
  have hhi := lt_two_pow_bitLen n
  have := bitLen_eq_of_bounds (n * 2 ^ j) (bitLen n - 1 + j)
    (by rw [pow_add]; exact Nat.mul_le_mul_right _ hlo)
    (by rw [show bitLen n - 1 + j + 1 = bitLen n + j by omega, pow_add]
        exact Nat.mul_lt_mul_of_pos_right hhi (Nat.two_pow_pos j))
  omega

theorem bitLen_two_pow (k : Nat) : bitLen (2 ^ k) = k + 1 :=
  bitLen_eq_of_bounds _ k (le_refl _) (Nat.pow_lt_pow_right (by norm_num) (by omega))

theorem clear_ge (x L lsb : Nat) (hl : lsb ∣ L) (hLx : L ≤ x) (hpos : 0 < lsb) :
    L ≤ x - x % lsb := by
  obtain ⟨c, rfl⟩ := hl
  have h1 : x - x % lsb = lsb * (x / lsb) := by
    have := Nat.div_add_mod x lsb
    omega
  rw [h1]
  apply Nat.mul_le_mul_left
  rw [Nat.le_div_iff_mul_le hpos, Nat.mul_comm]
  exact hLx

theorem shiftRight_bounds (x a i : Nat) (hlo : 2 ^ (a + i) ≤ x) (hhi : x < 2 ^ (a + 1 + i)) :
    2 ^ a ≤ x >>> i ∧ x >>> i < 2 ^ (a + 1) := by
  rw [Nat.shiftRight_eq_div_pow]
  constructor
  · rw [Nat.le_div_iff_mul_le (Nat.two_pow_pos i), ← pow_add]; exact hlo
  · rw [Nat.div_lt_iff_lt_mul (Nat.two_pow_pos i), ← pow_add]; exact hhi

theorem wordLen_of_norm (mant : Nat) (h : bitLen mant % 64 = 0) :
    wordLen mant * 64 = bitLen mant := by
  unfold wordLen wordBits
  omega

theorem cutMant_bounds (prec mant : Nat) (hp : 0 < prec) (h0 : mant ≠ 0)
    (hn : bitLen mant % 64 = 0) (hbig : prec < bitLen mant) :
    2 ^ ((prec + 63) / 64 * 64 - 1) ≤ cutMant prec mant ∧
    cutMant prec mant < 2 ^ ((prec + 63) / 64 * 64) := by
  have hw := wordLen_of_norm mant hn
  have hlo := two_pow_le_of_bitLen mant h0
  have hhi := lt_two_pow_bitLen mant
  unfold cutMant
  split_ifs with hgt
  · have e1 : bitLen mant - 1 = ((prec + 63) / 64 * 64 - 1) + 64 * (wordLen mant - (prec + 63) / 64) := by
      omega
    have e2 : bitLen mant = ((prec + 63) / 64 * 64 - 1) + 1 + 64 * (wordLen mant - (prec + 63) / 64) := by
      omega
    have := shiftRight_bounds mant ((prec + 63) / 64 * 64 - 1)
      (64 * (wordLen mant - (prec + 63) / 64)) (by rw [← e1]; exact hlo) (by rw [← e2]; exact hhi)
    rw [show (prec + 63) / 64 * 64 - 1 + 1 = (prec + 63) / 64 * 64 by omega] at this
    exact this
  · have e : (prec + 63) / 64 * 64 = bitLen mant := by omega
    rw [e]
    exact ⟨hlo, hhi⟩

theorem clear_bounds (prec x : Nat) (hp : 0 < prec)
    (hlo : 2 ^ ((prec + 63) / 64 * 64 - 1) ≤ x) (hhi : x < 2 ^ ((prec + 63) / 64 * 64)) :
    2 ^ ((prec + 63) / 64 * 64 - 1) ≤ x - x % 2 ^ ((prec + 63) / 64 * 64 - prec) ∧
    x - x % 2 ^ ((prec + 63) / 64 * 64 - prec) < 2 ^ ((prec + 63) / 64 * 64) := by
  constructor
  · apply clear_ge _ _ _ _ hlo (Nat.two_pow_pos _)
    exact pow_dvd_pow 2 (by omega)
  · exact lt_of_le_of_lt (Nat.sub_le _ _) hhi

theorem valid_of_bounds (z : BigFloat) (x : Nat) (e : Int) (hz : z.Normal)
    (hlo : 2 ^ ((z.prec + 63) / 64 * 64 - 1) ≤ x) (hhi : x < 2 ^ ((z.prec + 63) / 64 * 64))
    (he1 : MinExp ≤ e) (he2 : e ≤ MaxExp) (acc : Accuracy) :
    BigFloat.Valid { z with acc := acc, mant := x, exp := e } := by
  obtain ⟨hf, hp, hp32, _, _, _, _⟩ := hz
  have hb : bitLen x = (z.prec + 63) / 64 * 64 := by
    have := bitLen_eq_of_bounds x ((z.prec + 63) / 64 * 64 - 1) hlo
      (by rw [show (z.prec + 63) / 64 * 64 - 1 + 1 = (z.prec + 63) / 64 * 64 by omega]; exact hhi)
    omega
  refine ⟨hp32, ?_, ?_, ?_⟩
  · intro _
    refine ⟨hp, ?_, ?_, ?_, he1, he2⟩
    · intro h0
      have : 0 < 2 ^ ((z.prec + 63) / 64 * 64 - 1) := Nat.two_pow_pos _
      simp only at h0
      omega
    · simp only [hb]; omega
    · simp only [hb]; omega
  · intro h; exact absurd hf h
  · show z.form ≠ Form.undef
    rw [hf]; decide

theorem valid_setForm (z : BigFloat) (f : Form) (hf : f ≠ Form.finite) (hu : f ≠ Form.undef)
    (hp : z.prec < 2 ^ 32) (acc : Accuracy) :
    BigFloat.Valid { (z.setForm f) with acc := acc } := by
  refine ⟨hp, ?_, ?_, hu⟩
  · intro h; exact absurd h hf
  · intro _; exact ⟨rfl, rfl⟩

theorem applyInc_valid (z : BigFloat) (inc : Bool) (x : Nat) (hz : z.Normal)
    (hlo : 2 ^ ((z.prec + 63) / 64 * 64 - 1) ≤ x) (hhi : x < 2 ^ ((z.prec + 63) / 64 * 64)) :
    (z.applyInc ((z.prec + 63) / 64) x (1 <<< ((z.prec + 63) / 64 * 64 - z.prec)) inc).Valid ∧
    (z.applyInc ((z.prec + 63) / 64) x (1 <<< ((z.prec + 63) / 64 * 64 - z.prec)) inc).prec
      = z.prec ∧
    (z.applyInc ((z.prec + 63) / 64) x (1 <<< ((z.prec + 63) / 64 * 64 - z.prec)) inc).mode
      = z.mode ∧
    (z.applyInc ((z.prec + 63) / 64) x (1 <<< ((z.prec + 63) / 64 * 64 - z.prec)) inc).neg
      = z.neg := by
  have hz' := hz
  obtain ⟨hf, hp, hp32, _, _, he1, he2⟩ := hz
  have hlsb : 1 <<< ((z.prec + 63) / 64 * 64 - z.prec) = 2 ^ ((z.prec + 63) / 64 * 64 - z.prec) := by
    rw [Nat.shiftLeft_eq, Nat.one_mul]
  rw [hlsb]
  have hlsb_le : 2 ^ ((z.prec + 63) / 64 * 64 - z.prec) ≤ 2 ^ ((z.prec + 63) / 64 * 64 - 1) :=
    Nat.pow_le_pow_right (by norm_num) (by omega)
  have hlsb_pos : 0 < 2 ^ ((z.prec + 63) / 64 * 64 - z.prec) := Nat.two_pow_pos _
  have hdouble : 2 ^ ((z.prec + 63) / 64 * 64) = 2 * 2 ^ ((z.prec + 63) / 64 * 64 - 1) := by
    rw [← pow_succ']; congr 1; omega
  unfold BigFloat.applyInc
  simp only [wordBits]
  split_ifs with hinc hov hmax
  · exact ⟨valid_setForm z Form.inf (by decide) (by decide) hp32 _, rfl, rfl, rfl⟩
  · refine ⟨?_, rfl, rfl, rfl⟩
    have hs : (x + 2 ^ ((z.prec + 63) / 64 * 64 - z.prec) - 2 ^ ((z.prec + 63) / 64 * 64)) >>> 1
        < 2 ^ ((z.prec + 63) / 64 * 64 - 1) := by
      rw [Nat.shiftRight_eq_div_pow]
      apply lt_of_le_of_lt (Nat.div_le_self _ _)
      omega
    have hb := clear_bounds z.prec
      ((x + 2 ^ ((z.prec + 63) / 64 * 64 - z.prec) - 2 ^ ((z.prec + 63) / 64 * 64)) >>> 1
        + 2 ^ ((z.prec + 63) / 64 * 64 - 1)) hp (by omega) (by omega)
    apply valid_of_bounds z _ _ hz' hb.1 hb.2
    · omega
    · simp only [ge_iff_le, not_le] at hmax; omega
  · refine ⟨?_, rfl, rfl, rfl⟩
    have hb := clear_bounds z.prec (x + 2 ^ ((z.prec + 63) / 64 * 64 - z.prec)) hp (by omega)
      (by simp only [ge_iff_le, not_le] at hov; exact hov)
    exact valid_of_bounds z _ _ hz' hb.1 hb.2 he1 he2 _
  · refine ⟨?_, rfl, rfl, rfl⟩
    have hb := clear_bounds z.prec x hp hlo hhi
    exact valid_of_bounds z _ _ hz' hb.1 hb.2 he1 he2 _

theorem roundInc_valid (mode : RoundingMode) (neg rbit sbit lsbSet : Bool)
    (hm : mode.isValid = true) : ∃ inc, roundInc mode neg rbit sbit lsbSet = Except.ok inc := by
  cases mode <;> simp [roundInc, RoundingMode.isValid] at hm ⊢

theorem round_valid (z : BigFloat) (s : Nat) (hz : z.Normal) (hm : z.mode.isValid = true) :
    ∃ r, z.round s = Except.ok r ∧ r.Valid ∧ r.prec = z.prec ∧ r.mode = z.mode ∧
      r.neg = z.neg := by
  rcases z with ⟨prec, mode, acc, form, neg, mant, exp⟩
  have hz0 := hz
  obtain ⟨hf, hp, hp32, h0, hn, he1, he2⟩ := hz
  simp only at hf hp hp32 h0 hn he1 he2 hm
  subst hf
  have hw := wordLen_of_norm mant hn
  have hz' : BigFloat.Normal ⟨prec, mode, Accuracy.Exact, Form.finite, neg, mant, exp⟩ := hz0
  unfold BigFloat.round
  simp only [ne_eq, not_true_eq_false, if_false, wordBits, hw]
  by_cases hfit : bitLen mant ≤ prec
  · rw [if_pos hfit]
    refine ⟨_, rfl, ⟨hp32, ?_, ?_, ?_⟩, rfl, rfl, rfl⟩
    · intro _; exact ⟨hp, h0, hn, by simp only; omega, he1, he2⟩
    · intro h; exact absurd rfl h
    · show Form.finite ≠ Form.undef
      decide
  · rw [if_neg hfit]
    have hcb := cutMant_bounds prec mant hp h0 hn (by omega)
    have hcut : (if wordLen mant > (prec + (64 - 1)) / 64
        then mant >>> (64 * (wordLen mant - (prec + (64 - 1)) / 64)) else mant)
        = cutMant prec mant := rfl
    simp only [hcut]
    generalize (if s = 0 ∧ (mant >>> (bitLen mant - prec - 1) % 2 = 0
        ∨ mode = RoundingMode.ToNearestEven)
      then sticky mant (bitLen mant - prec - 1) else s) % 2 = sb
    generalize mant >>> (bitLen mant - prec - 1) % 2 = rb
    split
    · obtain ⟨inc, hinc⟩ := roundInc_valid mode neg (decide (rb ≠ 0)) (decide (sb ≠ 0))
        (decide ((cutMant prec mant >>> ((prec + (64 - 1)) / 64 * 64 - prec)) % 2 ≠ 0)) hm
      rw [hinc]
      have := applyInc_valid ⟨prec, mode, Accuracy.Exact, Form.finite, neg, mant, exp⟩ inc
        (cutMant prec mant) hz' hcb.1 hcb.2
      exact ⟨_, rfl, this⟩
    · have hb := clear_bounds prec (cutMant prec mant) hp hcb.1 hcb.2
      refine ⟨_, rfl, ?_, rfl, rfl, rfl⟩
      have hlsb : 1 <<< ((prec + (64 - 1)) / 64 * 64 - prec)
          = 2 ^ ((prec + 63) / 64 * 64 - prec) := by
        rw [Nat.shiftLeft_eq, Nat.one_mul]
      rw [hlsb]
      exact valid_of_bounds ⟨prec, mode, Accuracy.Exact, Form.finite, neg, mant, exp⟩ _ _ hz'
        hb.1 hb.2 he1 he2 _

theorem fnorm_norm (q : Nat) (h : q ≠ 0) :
    (fnorm q).1 ≠ 0 ∧ bitLen (fnorm q).1 = wordLen q * 64 ∧ bitLen (fnorm q).1 % 64 = 0 ∧
    (fnorm q).1 = q * 2 ^ nlz q := by
  have he : (fnorm q).1 = q * 2 ^ nlz q := by
    simp only [fnorm, Nat.shiftLeft_eq]
  have hb : bitLen (fnorm q).1 = wordLen q * 64 := by
    rw [he, bitLen_mul_two_pow q _ h]
    unfold nlz wordLen wordBits
    omega
  refine ⟨?_, hb, ?_, he⟩
  · rw [he]; exact Nat.mul_ne_zero h (Nat.two_pow_pos _).ne'
  · rw [hb]; omega

theorem setExpAndRound_valid (z : BigFloat) (e : Int) (s : Nat)
    (hp : 0 < z.prec) (hp32 : z.prec < 2 ^ 32) (h0 : z.mant ≠ 0)
    (hn : bitLen z.mant % 64 = 0) (hm : z.mode.isValid = true) :
    ∃ r, z.setExpAndRound e s = Except.ok r ∧ r.Valid ∧ r.prec = z.prec ∧ r.mode = z.mode ∧
      r.neg = z.neg := by
  unfold BigFloat.setExpAndRound
  split_ifs with h1 h2
  · exact ⟨_, rfl, valid_setForm z Form.zero (by decide) (by decide) hp32 _, rfl, rfl, rfl⟩
  · exact ⟨_, rfl, valid_setForm z Form.inf (by decide) (by decide) hp32 _, rfl, rfl, rfl⟩
  · exact round_valid { z with form := Form.finite, exp := e } s
      ⟨rfl, hp, hp32, h0, hn, by simpa using h1, by simpa using h2⟩ hm

theorem Mul_finite (z x y : BigFloat) (hx : x.form = Form.finite) (hy : y.form = Form.finite) :
    z.Mul x y = (receiver z x y).umul x y := by
  simp only [BigFloat.Mul, hx, hy, and_self, if_true, receiver, resPrec]

theorem Quo_finite (z x y : BigFloat) (hx : x.form = Form.finite) (hy : y.form = Form.finite) :
    z.Quo x y = (receiver z x y).uquo x y := by
  simp only [BigFloat.Quo, hx, hy, and_self, if_true, receiver, resPrec]

theorem Mul_nonfinite (z x y : BigFloat) (h : ¬ (x.form = Form.finite ∧ y.form = Form.finite))
    (r : BigFloat) (hr : z.Mul x y = Except.ok r) :
    r = ⟨resPrec z x y, z.mode, Accuracy.Exact, Form.inf, x.neg != y.neg, 0, 0⟩ ∨
    r = ⟨resPrec z x y, z.mode, Accuracy.Exact, Form.zero, x.neg != y.neg, 0, 0⟩ := by
  by_cases h1 : (x.form = Form.zero ∧ y.form = Form.inf) ∨ (x.form = Form.inf ∧ y.form = Form.zero)
  · simp only [BigFloat.Mul, h, h1, if_false, if_true] at hr
    cases hr
  · by_cases h2 : x.form = Form.inf ∨ y.form = Form.inf
    · simp only [BigFloat.Mul, h, h1, h2, if_false, if_true, BigFloat.setForm] at hr
      cases hr; left; rfl
    · simp only [BigFloat.Mul, h, h1, h2, if_false, if_true, BigFloat.setForm] at hr
      cases hr; right; rfl

theorem Quo_nonfinite (z x y : BigFloat) (h : ¬ (x.form = Form.finite ∧ y.form = Form.finite))
    (r : BigFloat) (hr : z.Quo x y = Except.ok r) :
    r = ⟨resPrec z x y, z.mode, Accuracy.Exact, Form.inf, x.neg != y.neg, 0, 0⟩ ∨
    r = ⟨resPrec z x y, z.mode, Accuracy.Exact, Form.zero, x.neg != y.neg, 0, 0⟩ := by
  by_cases h1 : (x.form = Form.zero ∧ y.form = Form.zero) ∨ (x.form = Form.inf ∧ y.form = Form.inf)
  · simp only [BigFloat.Quo, h, h1, if_false, if_true] at hr
    cases hr
  · by_cases h2 : x.form = Form.zero ∨ y.form = Form.inf
    · simp only [BigFloat.Quo, h, h1, h2, if_false, if_true, BigFloat.setForm] at hr
      cases hr; right; rfl
    · simp only [BigFloat.Quo, h, h1, h2, if_false, if_true, BigFloat.setForm] at hr
      cases hr; left; rfl

theorem valid_nonfinite (prec : Nat) (mode : RoundingMode) (acc : Accuracy) (f : Form)
    (neg : Bool) (hf : f ≠ Form.finite) (hu : f ≠ Form.undef) (hp : prec < 2 ^ 32) :
    BigFloat.Valid ⟨prec, mode, acc, f, neg, 0, 0⟩ :=
  ⟨hp, fun h => absurd h hf, fun _ => ⟨rfl, rfl⟩, hu⟩

theorem resPrec_lt (z x y : BigFloat) (hx : x.Valid) (hy : y.Valid) (hzp : z.prec < 2 ^ 32) :
    resPrec z x y < 2 ^ 32 := by
  unfold resPrec
  split_ifs
  · exact max_lt hx.1 hy.1
  · exact hzp

theorem resPrec_pos (z x y : BigFloat) (hx : 0 < x.prec) : 0 < resPrec z x y := by
  unfold resPrec
  split_ifs
  · exact lt_of_lt_of_le hx (le_max_left _ _)
  · omega

theorem Mul_valid (z x y : BigFloat) (hx : x.Valid) (hy : y.Valid) (hzp : z.prec < 2 ^ 32)
    (hm : z.mode.isValid = true) (r : BigFloat) (h : z.Mul x y = Except.ok r) :
    r.Valid ∧ r.mode = z.mode ∧ r.prec = resPrec z x y := by
  have hp32 := resPrec_lt z x y hx hy hzp
  by_cases hfin : x.form = Form.finite ∧ y.form = Form.finite
  · obtain ⟨hxf, hyf⟩ := hfin
    obtain ⟨hxp, hx0, _, _, _, _⟩ := hx.2.1 hxf
    obtain ⟨hyp, hy0, _, _, _, _⟩ := hy.2.1 hyf
    have hxy : x.mant * y.mant ≠ 0 := Nat.mul_ne_zero hx0 hy0
    obtain ⟨hf0, _, hfn, _⟩ := fnorm_norm _ hxy
    rw [Mul_finite z x y hxf hyf] at h
    unfold BigFloat.umul at h
    obtain ⟨r', hr', hv, hprec, hmode, _⟩ := setExpAndRound_valid
      { (receiver z x y) with mant := (fnorm (x.mant * y.mant)).1 }
      (x.exp + y.exp - ((fnorm (x.mant * y.mant)).2 : Int)) 0
      (resPrec_pos z x y hxp) hp32 hf0 hfn hm
    rw [hr'] at h
    cases h
    exact ⟨hv, hmode, hprec⟩
  · rcases Mul_nonfinite z x y hfin r h with rfl | rfl
    · exact ⟨valid_nonfinite _ _ _ _ _ (by decide) (by decide) hp32, rfl, rfl⟩
    · exact ⟨valid_nonfinite _ _ _ _ _ (by decide) (by decide) hp32, rfl, rfl⟩

theorem uquo_quotient_ne_zero (x y n : Nat) (hx0 : x ≠ 0) (hy0 : y ≠ 0)
    (hxn : bitLen x % 64 = 0) (hyn : bitLen y % 64 = 0) :
    x * 2 ^ (64 * (n + 1 + wordLen y - wordLen x)) / y ≠ 0 := by
  have hxw := wordLen_of_norm x hxn
  have hyw := wordLen_of_norm y hyn
  have hxlo := two_pow_le_of_bitLen x hx0
  have hyhi := lt_two_pow_bitLen y
  have hxpos := bitLen_pos x hx0
  rw [ne_eq, Nat.div_eq_zero_iff (Nat.pos_of_ne_zero hy0), not_lt]
  calc y ≤ 2 ^ bitLen y := hyhi.le
    _ ≤ 2 ^ (bitLen x - 1 + 64 * (n + 1 + wordLen y - wordLen x)) :=
        Nat.pow_le_pow_right (by norm_num) (by omega)
    _ = 2 ^ (bitLen x - 1) * 2 ^ (64 * (n + 1 + wordLen y - wordLen x)) := by rw [pow_add]
    _ ≤ _ := Nat.mul_le_mul_right _ hxlo

theorem Quo_valid (z x y : BigFloat) (hx : x.Valid) (hy : y.Valid) (hzp : z.prec < 2 ^ 32)
    (hm : z.mode.isValid = true) (r : BigFloat) (h : z.Quo x y = Except.ok r) :
    r.Valid ∧ r.mode = z.mode ∧ r.prec = resPrec z x y := by
  have hp32 := resPrec_lt z x y hx hy hzp
  by_cases hfin : x.form = Form.finite ∧ y.form = Form.finite
  · obtain ⟨hxf, hyf⟩ := hfin
    obtain ⟨hxp, hx0, hxn, _, _, _⟩ := hx.2.1 hxf
    obtain ⟨hyp, hy0, hyn, _, _, _⟩ := hy.2.1 hyf
    rw [Quo_finite z x y hxf hyf] at h
    unfold BigFloat.uquo at h
    simp only [wordBits] at h
    have hq := uquo_quotient_ne_zero x.mant y.mant ((receiver z x y).prec / 64) hx0 hy0 hxn hyn
    obtain ⟨hf0, _, hfn, _⟩ := fnorm_norm _ hq
    obtain ⟨r', hr', hv, hprec, hmode, _⟩ := setExpAndRound_valid
      { (receiver z x y) with
        mant := (fnorm (x.mant * 2 ^ (64 * ((receiver z x y).prec / 64 + 1 + wordLen y.mant
          - wordLen x.mant)) / y.mant)).1 }
      (x.exp - y.exp - (((wordLen x.mant + ((receiver z x y).prec / 64
          + 1 + wordLen y.mant - wordLen x.mant) - wordLen y.mant : Nat) : Int)
          - (wordLen (x.mant * 2 ^ (64 * ((receiver z x y).prec / 64
              + 1 + wordLen y.mant - wordLen x.mant)) / y.mant) : Int)) * (64 : Nat)
          - ((fnorm (x.mant * 2 ^ (64 * ((receiver z x y).prec / 64 + 1 + wordLen y.mant
              - wordLen x.mant)) / y.mant)).2 : Int))
      (if x.mant * 2 ^ (64 * ((receiver z x y).prec / 64 + 1
          + wordLen y.mant - wordLen x.mant)) % y.mant = 0 then 0 else 1)
      (resPrec_pos z x y hxp) hp32 hf0 hfn hm
    rw [hr'] at h
    cases h
    exact ⟨hv, hmode, hprec⟩
  · rcases Quo_nonfinite z x y hfin r h with rfl | rfl
    · exact ⟨valid_nonfinite _ _ _ _ _ (by decide) (by decide) hp32, rfl, rfl⟩
    · exact ⟨valid_nonfinite _ _ _ _ _ (by decide) (by decide) hp32, rfl, rfl⟩

/-! ## Exact results: when rounding changes nothing -/

theorem toRat_finite (x : BigFloat) (h : x.form = Form.finite) :
    x.toRat = signOf x.neg * (x.mant : ℚ) * (2 : ℚ) ^ (x.exp - (bitLen x.mant : Int)) := by
  simp only [BigFloat.toRat, h, if_true, signOf]

theorem signOf_xor (a b : Bool) : signOf (a != b) = signOf a * signOf b := by
  cases a <;> cases b <;> simp [signOf]

theorem scale_eq (a b k : Nat) (i j : Int) (h : a * 2 ^ k = b) (hij : i = j + k) :
    (a : ℚ) * (2 : ℚ) ^ i = (b : ℚ) * (2 : ℚ) ^ j := by
  subst h hij
  push_cast
  rw [zpow_add₀ (by norm_num : (2 : ℚ) ≠ 0), zpow_natCast]
  ring

theorem mantVal_scale (a b k : Nat) (e : Int) (ha : a ≠ 0) (h : a * 2 ^ k = b) :
    (a : ℚ) * (2 : ℚ) ^ (e - (bitLen a : Int)) = (b : ℚ) * (2 : ℚ) ^ (e - (bitLen b : Int)) := by
  apply scale_eq a b k _ _ h
  rw [← h, bitLen_mul_two_pow a k ha]
  push_cast
  ring

theorem fitsIn_of_le (m p : Nat) (h : bitLen m ≤ p) : fitsIn m p := by
  unfold fitsIn
  rw [show bitLen m - p = 0 by omega, pow_zero, Nat.mod_one]

theorem fitsIn_mul_two_pow (m p j : Nat) (hm : m ≠ 0) (h : fitsIn m p) : fitsIn (m * 2 ^ j) p := by
  unfold fitsIn at *
  rw [bitLen_mul_two_pow m j hm]
  have hd : 2 ^ (bitLen m - p) ∣ m := Nat.dvd_of_mod_eq_zero h
  apply Nat.mod_eq_zero_of_dvd
  by_cases hle : p ≤ bitLen m
  · rw [show bitLen m + j - p = (bitLen m - p) + j by omega, pow_add]
    exact Nat.mul_dvd_mul hd (dvd_refl _)
  · have : bitLen m + j - p ≤ j := by omega
    exact Dvd.dvd.mul_left (pow_dvd_pow 2 this) m

theorem fitsIn_two_pow (k p : Nat) (hp : 0 < p) : fitsIn (2 ^ k) p := by
  unfold fitsIn
  rw [bitLen_two_pow]
  exact Nat.mod_eq_zero_of_dvd (pow_dvd_pow 2 (by omega))

theorem cutMant_exact (prec mant : Nat) (hn : bitLen mant % 64 = 0) (hfit : fitsIn mant prec) :
    (∃ k, cutMant prec mant * 2 ^ k = mant) ∧
    (prec < bitLen mant → cutMant prec mant % 2 ^ ((prec + 63) / 64 * 64 - prec) = 0) := by
  have hw := wordLen_of_norm mant hn
  have hd : 2 ^ (bitLen mant - prec) ∣ mant := Nat.dvd_of_mod_eq_zero hfit
  unfold cutMant
  split_ifs with hgt
  · constructor
    · refine ⟨64 * (wordLen mant - (prec + 63) / 64), ?_⟩
      rw [Nat.shiftRight_eq_div_pow]
      exact Nat.div_mul_cancel (dvd_trans (pow_dvd_pow 2 (by omega)) hd)
    · intro _
      rw [Nat.shiftRight_eq_div_pow]
      apply Nat.mod_eq_zero_of_dvd
      obtain ⟨c, hc⟩ := hd
      have e : bitLen mant - prec = ((prec + 63) / 64 * 64 - prec)
          + 64 * (wordLen mant - (prec + 63) / 64) := by omega
      rw [e, pow_add] at hc
      have hdiv : mant / 2 ^ (64 * (wordLen mant - (prec + 63) / 64))
          = 2 ^ ((prec + 63) / 64 * 64 - prec) * c :=
        Nat.div_eq_of_eq_mul_left (Nat.two_pow_pos _) (hc.trans (by ring))
      rw [hdiv]
      exact Dvd.intro _ rfl
  · refine ⟨⟨0, by simp⟩, ?_⟩
    intro hlt
    apply Nat.mod_eq_zero_of_dvd
    exact dvd_trans (pow_dvd_pow 2 (by omega)) hd

theorem low_bits_zero (m k c : Nat) (hk : 0 < k) (hc : m = 2 ^ k * c) :
    m / 2 ^ (k - 1) % 2 = 0 ∧ m % 2 ^ (k - 1) = 0 := by
  subst hc
  constructor
  · have : 2 ^ k * c / 2 ^ (k - 1) = 2 * c := by
      apply Nat.div_eq_of_eq_mul_left (Nat.two_pow_pos _)
      rw [show 2 ^ k = 2 ^ (k - 1 + 1) by congr 1; omega, pow_succ]
      ring
    rw [this]; simp
  · apply Nat.mod_eq_zero_of_dvd
    exact Dvd.dvd.mul_right (pow_dvd_pow 2 (by omega)) c

theorem round_exact (z : BigFloat) (hz : z.Normal) (hfit : fitsIn z.mant z.prec) :
    z.round 0 = Except.ok { z with acc := Accuracy.Exact, mant := cutMant z.prec z.mant } := by
  rcases z with ⟨prec, mode, acc, form, neg, mant, exp⟩
  obtain ⟨hf, hp, hp32, h0, hn, he1, he2⟩ := hz
  simp only at hf hp hp32 h0 hn he1 he2 hfit
  subst hf
  have hw := wordLen_of_norm mant hn
  obtain ⟨_, hcut0⟩ := cutMant_exact prec mant hn hfit
  unfold BigFloat.round
  simp only [ne_eq, not_true_eq_false, if_false, wordBits, hw]
  by_cases hle : bitLen mant ≤ prec
  · rw [if_pos hle]
    have : cutMant prec mant = mant := by
      unfold cutMant; rw [if_neg (by omega)]
    rw [this]
  · rw [if_neg hle]
    have hcut : (if wordLen mant > (prec + (64 - 1)) / 64
        then mant >>> (64 * (wordLen mant - (prec + (64 - 1)) / 64)) else mant)
        = cutMant prec mant := rfl
    simp only [hcut]
    have hd : 2 ^ (bitLen mant - prec) ∣ mant := Nat.dvd_of_mod_eq_zero hfit
    obtain ⟨c, hc⟩ := hd
    obtain ⟨hlow1, hlow2⟩ := low_bits_zero mant (bitLen mant - prec) c (by omega) hc
    have hrbit : mant >>> (bitLen mant - prec - 1) % 2 = 0 := by
      rw [Nat.shiftRight_eq_div_pow]; exact hlow1
    have hst : sticky mant (bitLen mant - prec - 1) = 0 := by
      unfold sticky
      rw [if_pos hlow2]
    have hlsb : 1 <<< ((prec + (64 - 1)) / 64 * 64 - prec)
        = 2 ^ ((prec + 63) / 64 * 64 - prec) := by
      rw [Nat.shiftLeft_eq, Nat.one_mul]
    simp only [hrbit, hst, true_or, and_self, if_true, Nat.zero_mod, ne_eq, not_true_eq_false,
      or_self, if_false, hlsb, hcut0 (by omega), Nat.sub_zero]

theorem setExpAndRound_exact (z : BigFloat) (e : Int) (hp : 0 < z.prec) (hp32 : z.prec < 2 ^ 32)
    (h0 : z.mant ≠ 0) (hn : bitLen z.mant % 64 = 0) (he1 : MinExp ≤ e) (he2 : e ≤ MaxExp)
    (hfit : fitsIn z.mant z.prec) :
    z.setExpAndRound e 0 = Except.ok
      ⟨z.prec, z.mode, Accuracy.Exact, Form.finite, z.neg, cutMant z.prec z.mant, e⟩ := by
  unfold BigFloat.setExpAndRound
  rw [if_neg (by omega), if_neg (by omega)]
  exact round_exact { z with form := Form.finite, exp := e } ⟨rfl, hp, hp32, h0, hn, he1, he2⟩ hfit

theorem toRat_cut (prec : Nat) (mode : RoundingMode) (acc : Accuracy) (neg : Bool) (mant : Nat)
    (e : Int) (h0 : mant ≠ 0) (hn : bitLen mant % 64 = 0) (hfit : fitsIn mant prec) :
    BigFloat.toRat ⟨prec, mode, acc, Form.finite, neg, cutMant prec mant, e⟩
      = signOf neg * ((mant : ℚ) * (2 : ℚ) ^ (e - (bitLen mant : Int))) := by
  obtain ⟨⟨k, hk⟩, _⟩ := cutMant_exact prec mant hn hfit
  have hc0 : cutMant prec mant ≠ 0 := by
    intro h; rw [h, Nat.zero_mul] at hk; exact h0 hk.symm
  rw [toRat_finite _ rfl]
  simp only
  rw [mul_assoc, mantVal_scale _ _ k e hc0 hk]

theorem bitLen_mul_norm (x y : Nat) (hx : x ≠ 0) (hy : y ≠ 0) (hxn : bitLen x % 64 = 0)
    (hyn : bitLen y % 64 = 0) :
    wordLen (x * y) * 64 = bitLen x + bitLen y ∧
    (nlz (x * y) = 0 ∨ nlz (x * y) = 1) ∧
    bitLen (x * y) + nlz (x * y) = bitLen x + bitLen y := by
  have hxlo := two_pow_le_of_bitLen x hx
  have hylo := two_pow_le_of_bitLen y hy
  have hxhi := lt_two_pow_bitLen x
  have hyhi := lt_two_pow_bitLen y
  have hxp := bitLen_pos x hx
  have hyp := bitLen_pos y hy
  have h1 : bitLen (x * y) ≤ bitLen x + bitLen y := by
    rw [bitLen_le_iff, pow_add]
    exact Nat.mul_lt_mul'' hxhi hyhi
  have h2 : bitLen x + bitLen y - 1 ≤ bitLen (x * y) := by
    by_contra hlt
    have hlt' : bitLen (x * y) ≤ bitLen x + bitLen y - 2 := by omega
    rw [bitLen_le_iff] at hlt'
    have : 2 ^ (bitLen x + bitLen y - 2) ≤ x * y := by
      rw [show bitLen x + bitLen y - 2 = (bitLen x - 1) + (bitLen y - 1) by omega, pow_add]
      exact Nat.mul_le_mul hxlo hylo
    omega
  unfold nlz wordLen wordBits
  omega

theorem Mul_exact (z x y : BigFloat) (hx : x.Valid) (hy : y.Valid)
    (hxf : x.form = Form.finite) (hyf : y.form = Form.finite) (hzp : z.prec < 2 ^ 32)
    (hm : z.mode.isValid = true)
    (hfit : fitsIn (x.mant * y.mant) (resPrec z x y))
    (he1 : MinExp ≤ x.exp + y.exp - (nlz (x.mant * y.mant) : Int))
    (he2 : x.exp + y.exp - (nlz (x.mant * y.mant) : Int) ≤ MaxExp) :
    ∃ r, z.Mul x y = Except.ok r ∧ r.form = Form.finite ∧ r.toRat = x.toRat * y.toRat ∧
      r.Valid ∧ r.prec = resPrec z x y ∧ r.mode = z.mode ∧ r.neg = (x.neg != y.neg) ∧
      r.acc = Accuracy.Exact ∧ r.exp = x.exp + y.exp - (nlz (x.mant * y.mant) : Int) := by
  obtain ⟨hxp, hx0, hxn, _, _, _⟩ := hx.2.1 hxf
  obtain ⟨hyp, hy0, hyn, _, _, _⟩ := hy.2.1 hyf
  have hxy : x.mant * y.mant ≠ 0 := Nat.mul_ne_zero hx0 hy0
  obtain ⟨hf0, hfb, hfn, hfe⟩ := fnorm_norm _ hxy
  obtain ⟨hwl, hnlz, hbl⟩ := bitLen_mul_norm x.mant y.mant hx0 hy0 hxn hyn
  have hp32 := resPrec_lt z x y hx hy hzp
  have hfitF : fitsIn (fnorm (x.mant * y.mant)).1 (resPrec z x y) := by
    rw [hfe]; exact fitsIn_mul_two_pow _ _ _ hxy hfit
  have hs : (fnorm (x.mant * y.mant)).2 = nlz (x.mant * y.mant) := rfl
  have hres := setExpAndRound_exact
    ⟨resPrec z x y, z.mode, z.acc, z.form, x.neg != y.neg, (fnorm (x.mant * y.mant)).1, z.exp⟩
    (x.exp + y.exp - ((fnorm (x.mant * y.mant)).2 : Int))
    (resPrec_pos z x y hxp) hp32 hf0 hfn (by rw [hs]; exact he1) (by rw [hs]; exact he2) hfitF
  have hmul : z.Mul x y = _ := (Mul_finite z x y hxf hyf).trans hres
  refine ⟨_, hmul, rfl, ?_, (Mul_valid z x y hx hy hzp hm _ hmul).1, rfl, rfl, rfl, rfl, rfl⟩
  rw [toRat_cut _ _ _ _ _ _ hf0 hfn hfitF, toRat_finite x hxf, toRat_finite y hyf]
  simp only [signOf_xor, hs]
  rw [hfb, hwl, hfe]
  have e1 : x.exp + y.exp - (nlz (x.mant * y.mant) : Int) - ((bitLen x.mant + bitLen y.mant : Nat) : Int)
      = (x.exp - (bitLen x.mant : Int)) + (y.exp - (bitLen y.mant : Int))
        - (nlz (x.mant * y.mant) : Int) := by
    push_cast; ring
  rw [e1, zpow_sub₀ (by norm_num : (2 : ℚ) ≠ 0), zpow_add₀ (by norm_num : (2 : ℚ) ≠ 0),
    zpow_natCast]
  push_cast
  field_simp
  ring

theorem uquo_eq (z x y : BigFloat) :
    z.uquo x y =
      BigFloat.setExpAndRound
        ⟨z.prec, z.mode, z.acc, z.form, z.neg,
          (fnorm (x.mant * 2 ^ (64 * quoShift z.prec (wordLen x.mant) (wordLen y.mant))
            / y.mant)).1, z.exp⟩
        (x.exp - y.exp
          - (((wordLen x.mant + quoShift z.prec (wordLen x.mant) (wordLen y.mant)
                - wordLen y.mant : Nat) : Int)
              - (wordLen (x.mant * 2 ^ (64 * quoShift z.prec (wordLen x.mant) (wordLen y.mant))
                  / y.mant) : Int)) * (64 : Nat)
          - (nlz (x.mant * 2 ^ (64 * quoShift z.prec (wordLen x.mant) (wordLen y.mant))
                  / y.mant) : Int))
        (if x.mant * 2 ^ (64 * quoShift z.prec (wordLen x.mant) (wordLen y.mant)) % y.mant = 0
          then 0 else 1) := by
  rfl

theorem quo_bitLen (x y dd : Nat) (hx0 : x ≠ 0) (hy0 : y ≠ 0) (hxn : bitLen x % 64 = 0)
    (hyn : bitLen y % 64 = 0) (hge : wordLen y < wordLen x + dd) :
    (wordLen (x * 2 ^ (64 * dd) / y) = wordLen x + dd - wordLen y ∧
      nlz (x * 2 ^ (64 * dd) / y) = 0) ∨
    (wordLen (x * 2 ^ (64 * dd) / y) = wordLen x + dd - wordLen y + 1 ∧
      nlz (x * 2 ^ (64 * dd) / y) = 63) := by
  have hxw := wordLen_of_norm x hxn
  have hyw := wordLen_of_norm y hyn
  have hxlo := two_pow_le_of_bitLen x hx0
  have hyhi := lt_two_pow_bitLen y
  have hylo := two_pow_le_of_bitLen y hy0
  have hxhi := lt_two_pow_bitLen x
  have hxp := bitLen_pos x hx0
  have hyp := bitLen_pos y hy0
  have hypos : 0 < y := Nat.pos_of_ne_zero hy0
  have hlow : 2 ^ (bitLen x + 64 * dd - bitLen y - 1) ≤ x * 2 ^ (64 * dd) / y := by
    rw [Nat.le_div_iff_mul_le hypos]
    calc 2 ^ (bitLen x + 64 * dd - bitLen y - 1) * y
        ≤ 2 ^ (bitLen x + 64 * dd - bitLen y - 1) * 2 ^ bitLen y :=
          Nat.mul_le_mul_left _ hyhi.le
      _ = 2 ^ (bitLen x - 1) * 2 ^ (64 * dd) := by
          rw [← pow_add, ← pow_add]; congr 1; omega
      _ ≤ x * 2 ^ (64 * dd) := Nat.mul_le_mul_right _ hxlo
  have hhigh : x * 2 ^ (64 * dd) / y < 2 ^ (bitLen x + 64 * dd - bitLen y + 1) := by
    rw [Nat.div_lt_iff_lt_mul hypos]
    calc x * 2 ^ (64 * dd) < 2 ^ bitLen x * 2 ^ (64 * dd) :=
          Nat.mul_lt_mul_of_pos_right hxhi (Nat.two_pow_pos _)
      _ = 2 ^ (bitLen x + 64 * dd - bitLen y + 1) * 2 ^ (bitLen y - 1) := by
          rw [← pow_add, ← pow_add]; congr 1; omega
      _ ≤ 2 ^ (bitLen x + 64 * dd - bitLen y + 1) * y := Nat.mul_le_mul_left _ hylo
  have h1 : bitLen (x * 2 ^ (64 * dd) / y) ≤ bitLen x + 64 * dd - bitLen y + 1 :=
    (bitLen_le_iff _ _).2 hhigh
  have h2 : bitLen x + 64 * dd - bitLen y ≤ bitLen (x * 2 ^ (64 * dd) / y) := by
    by_contra hlt
    have : bitLen (x * 2 ^ (64 * dd) / y) ≤ bitLen x + 64 * dd - bitLen y - 1 := by omega
    rw [bitLen_le_iff] at this
    omega
  unfold nlz wordLen wordBits at *
  omega

theorem quoShift_gt (p lx ly : Nat) : ly < lx + quoShift p lx ly := by
  unfold quoShift; omega

theorem toRat_of_isDyadic (x : BigFloat) (v k : Nat) (h : x.isDyadic v k = true) :
    x.form = Form.finite ∧ x.neg = false ∧ x.toRat = (v : ℚ) / (2 : ℚ) ^ k := by
  simp only [BigFloat.isDyadic, Bool.and_eq_true, decide_eq_true_eq, Bool.not_eq_true'] at h
  obtain ⟨⟨⟨hf, hn⟩, he⟩, hm⟩ := h
  refine ⟨hf, hn, ?_⟩
  rw [toRat_finite x hf, hn]
  have h2 : (2 : ℚ) ≠ 0 := by norm_num
  have hm' : (x.mant : ℚ) * (2 : ℚ) ^ (x.exp + (k : Int)) = (v : ℚ) * (2 : ℚ) ^ (bitLen x.mant) := by
    have : ((x.exp + (k : Int)).toNat : Int) = x.exp + (k : Int) := Int.toNat_of_nonneg he
    rw [← this, zpow_natCast]
    exact_mod_cast hm
  rw [zpow_add₀ h2, zpow_natCast] at hm'
  rw [zpow_sub₀ h2, zpow_natCast]
  simp only [signOf, Bool.false_eq_true, if_false, one_mul]
  field_simp
  linarith

theorem of_returnsDyadic (r : Except String BigFloat) (v k : Nat) (acc : Accuracy)
    (h : returnsDyadic r v k acc = true) :
    ∃ x, r = Except.ok x ∧ x.form = Form.finite ∧ x.neg = false ∧
      x.toRat = (v : ℚ) / (2 : ℚ) ^ k ∧ x.acc = acc := by
  cases r with
  | error e => simp [returnsDyadic] at h
  | ok x =>
    simp only [returnsDyadic, Bool.and_eq_true, decide_eq_true_eq] at h
    obtain ⟨h1, h2, h3⟩ := toRat_of_isDyadic x v k h.1
    exact ⟨x, rfl, h1, h2, h3, h.2⟩

theorem priceDecimalsMult_dyadic : ∀ k : Nat, k ≤ 27 →
    returnsDyadic (priceDecimalsMult (k : Int)) (10 ^ k) 0 Accuracy.Exact = true := by
  intro k hk
  interval_cases k <;> decide

/-- C8 (amended). Decimal scale: for every `priceDecimals` up to 27 the multiplier
`priceDecimalsMult` built by `NewUniswapSource` is exactly `10^priceDecimals`, with
accuracy `Exact`; it is 1 when `priceDecimals` is 0 or negative. -/
theorem priceDecimalsMult_exact (priceDecimals : Int) (h : priceDecimals ≤ 27) :
    ∃ d, priceDecimalsMult priceDecimals = Except.ok d ∧ d.form = Form.finite ∧
      d.toRat = (10 : ℚ) ^ priceDecimals.toNat ∧ d.acc = Accuracy.Exact ∧
      (priceDecimals.toNat = 0 → d.toRat = 1) := by
  have hk : priceDecimals.toNat ≤ 27 := by omega
  have key := priceDecimalsMult_dyadic
  have hcast : priceDecimalsMult priceDecimals = priceDecimalsMult (priceDecimals.toNat : Int) := by
    simp only [priceDecimalsMult, Int.toNat_ofNat]
  obtain ⟨d, hd, hf, _, hv, hacc⟩ := of_returnsDyadic _ _ _ _ (key _ hk)
  refine ⟨d, hcast.trans hd, hf, ?_, hacc, ?_⟩
  · rw [hv]; simp
  · intro h0; rw [hv, h0]; simp

/-- Six decimals: the multiplier is exactly 1,000,000. -/
theorem priceDecimalsMult_exact_witness :
    ∃ d, priceDecimalsMult 6 = Except.ok d ∧ d.form = Form.finite ∧
      d.toRat = (10 : ℚ) ^ (6 : Int).toNat ∧ d.acc = Accuracy.Exact ∧
      ((6 : Int).toNat = 0 → d.toRat = 1) :=
  priceDecimalsMult_exact 6 (by decide)

/-- C8 (as stated, refuted). With 28 decimals the multiplier is
9999999999999999999731564544, not `10^28`: the receiver `decMult` has 64 bits of
precision and `10^28 = 2^28 * 5^28` needs 66, so the last `Mul` rounds (accuracy
`Below`). -/
theorem priceDecimalsMult_28_counterexample :
    ∃ d, priceDecimalsMult 28 = Except.ok d ∧ d.acc = Accuracy.Below ∧
      d.toRat = 9999999999999999999731564544 ∧ d.toRat ≠ (10 : ℚ) ^ 28 := by
  obtain ⟨d, hd, _, _, hv, hacc⟩ := of_returnsDyadic (priceDecimalsMult 28)
    9999999999999999999731564544 0 Accuracy.Below (by decide)
  refine ⟨d, hd, hacc, ?_, ?_⟩
  · rw [hv]; simp
  · rw [hv]; norm_num

/-! ## The zero-tick scenario -/

theorem NewFloat_zero : NewFloat (F64.zero false) = Except.ok zero53 := rfl

theorem SetInt64_window (w : Nat) (h0 : 0 < w) (h32 : w < 2 ^ 32) :
    ∃ y, zero53.SetInt64 (w : Int) = Except.ok y ∧ y.form = Form.finite ∧ y.Valid ∧
      y.toRat = (w : ℚ) ∧ y.neg = false := by
  have hw0 : w ≠ 0 := by omega
  have hbl : bitLen w ≤ 32 := (bitLen_le_iff w 32).2 h32
  have hbp := bitLen_pos w hw0
  have hb64 : bitLen (w <<< (64 - bitLen w)) = 64 := by
    rw [Nat.shiftLeft_eq, bitLen_mul_two_pow w _ hw0]; omega
  have hm0 : w <<< (64 - bitLen w) ≠ 0 := by
    rw [Nat.shiftLeft_eq]; exact Nat.mul_ne_zero hw0 (Nat.two_pow_pos _).ne'
  have hfit : fitsIn (w <<< (64 - bitLen w)) 53 := by
    rw [Nat.shiftLeft_eq]
    exact fitsIn_mul_two_pow w 53 _ hw0 (fitsIn_of_le w 53 (by omega))
  have hN : BigFloat.Normal ⟨53, RoundingMode.ToNearestEven, Accuracy.Exact, Form.finite, false,
      w <<< (64 - bitLen w), 64 - ((64 - bitLen w : Nat) : Int)⟩ := by
    refine ⟨rfl, ?_, ?_, hm0, ?_, ?_, ?_⟩
    · show 0 < 53; decide
    · show 53 < 2 ^ 32; decide
    · simp only [hb64]
    · simp only [MinExp]; omega
    · simp only [MaxExp]; omega
  have hr := round_exact _ hN hfit
  have hset : zero53.SetInt64 (w : Int) = Except.ok
      ⟨53, RoundingMode.ToNearestEven, Accuracy.Exact, Form.finite, false,
        cutMant 53 (w <<< (64 - bitLen w)), 64 - ((64 - bitLen w : Nat) : Int)⟩ := by
    simp only [BigFloat.SetInt64, BigFloat.setBits64, zero53, Int.natAbs_ofNat, hw0,
      if_false, Nat.reduceLT, if_true]
    have : ¬ ((w : Int) < 0) := by omega
    simp only [this, decide_False]
    exact hr
  refine ⟨_, hset, rfl, ?_, ?_, rfl⟩
  · have := round_valid _ 0 hN rfl
    obtain ⟨r, hr', hv, _⟩ := this
    rw [hr] at hr'
    cases hr'
    exact hv
  · rw [toRat_cut _ _ _ _ _ _ hm0 (by simp only [hb64]) hfit]
    simp only [signOf, Bool.false_eq_true, if_false, one_mul, hb64]
    rw [Nat.shiftLeft_eq]
    push_cast [Nat.cast_sub (show bitLen w ≤ 64 by omega)]
    rw [show (64 : Int) - (64 - (bitLen w : Int)) - 64 = -((64 - bitLen w : Nat) : Int) by
      push_cast [Nat.cast_sub (show bitLen w ≤ 64 by omega)]; ring]
    rw [zpow_neg, zpow_natCast]
    field_simp

theorem meanTickOf_equal (w : Nat) (c : Int) (h0 : 0 < w) (h32 : w < 2 ^ 32) :
    meanTickOf w c c = Except.ok zero53 := by
  obtain ⟨y, hy, hyf, _, _, hyn⟩ := SetInt64_window w h0 h32
  simp only [meanTickOf, ticksOf, NewFloat_zero, bind, Except.bind, sub_self]
  have h1 : zero53.SetInt 0 = Except.ok zero53 := rfl
  rw [h1]
  simp only [hy]
  simp only [BigFloat.Quo, hyf, zero53, and_true, true_and, or_false, if_true, if_false,
    BigFloat.setForm]
  simp [hyn]

theorem new_prec_mode : BigFloat.new.prec = 0 ∧ BigFloat.new.mode.isValid = true ∧
    BigFloat.new.mode = RoundingMode.ToNearestEven := ⟨rfl, rfl, rfl⟩

theorem resPrec_new (x y : BigFloat) : resPrec BigFloat.new x y = max x.prec y.prec := rfl

theorem SetFloat64_twoPower96 :
    BigFloat.new.SetFloat64 (F64.normal false 0 96) = Except.ok twoPower96 := rfl

theorem SetFloat64_onePoint0001 :
    BigFloat.new.SetFloat64 (F64.normal false 450359962737 0) = Except.ok onePoint0001 := rfl

theorem SetInt_two192 : BigFloat.new.SetInt (2 ^ 192) = Except.ok two192 := by rfl

theorem twoPower96_valid : twoPower96.Valid ∧ twoPower96.form = Form.finite ∧
    twoPower96.toRat = (2 : ℚ) ^ (96 : Int) := by
  refine ⟨⟨by decide, fun _ => ⟨by decide, by decide, by decide, by decide, by decide, by decide⟩,
    fun h => absurd rfl h, by decide⟩, rfl, ?_⟩
  rw [toRat_finite _ rfl]
  have : bitLen twoPower96.mant = 64 := by decide
  rw [this]
  simp [twoPower96, signOf]
  norm_num

theorem onePoint0001_valid : onePoint0001.Valid ∧ onePoint0001.form = Form.finite :=
  ⟨⟨by decide, fun _ => ⟨by decide, by decide, by decide, by decide, by decide, by decide⟩,
    fun h => absurd rfl h, by decide⟩, rfl⟩

theorem two192_valid : two192.Valid ∧ two192.form = Form.finite ∧
    two192.toRat = (2 : ℚ) ^ (192 : Int) := by
  refine ⟨⟨by decide, fun _ => ⟨by decide, by decide, by decide, by decide, by decide, by decide⟩,
    fun h => absurd rfl h, by decide⟩, rfl, ?_⟩
  rw [toRat_finite _ rfl]
  have : bitLen two192.mant = 256 := by decide
  rw [this]
  simp [two192, signOf]
  norm_num

theorem decMultLoop_valid (ten : BigFloat) (hten : ten.Valid) :
    ∀ (n : Nat) (d r : BigFloat), d.Valid → d.prec = 64 →
      d.mode = RoundingMode.ToNearestEven → decMultLoop ten n d = Except.ok r →
      r.Valid ∧ r.prec = 64 ∧ r.mode = RoundingMode.ToNearestEven := by
  intro n
  induction n with
  | zero =>
    intro d r hd hp hm h
    simp only [decMultLoop] at h
    cases h
    exact ⟨hd, hp, hm⟩
  | succ n ih =>
    intro d r hd hp hm h
    simp only [decMultLoop] at h
    cases hmul : d.Mul d ten with
    | error e => rw [hmul] at h; cases h
    | ok d' =>
      rw [hmul] at h
      obtain ⟨hv, hmode, hprec⟩ := Mul_valid d d ten hd hten (by rw [hp]; decide)
        (by rw [hm]; rfl) d' hmul
      refine ih d' r hv ?_ (by rw [hmode, hm]) h
      rw [hprec]; simp [resPrec, hp]

theorem priceDecimalsMult_valid (priceDecimals : Int) (d : BigFloat)
    (h : priceDecimalsMult priceDecimals = Except.ok d) :
    d.Valid ∧ d.prec = 64 ∧ d.mode = RoundingMode.ToNearestEven := by
  have hten : BigFloat.new.SetInt64 10 = Except.ok
      ⟨64, RoundingMode.ToNearestEven, Accuracy.Exact, Form.finite, false, 10 * 2 ^ 60, 4⟩ := by
    rfl
  have hone : BigFloat.new.SetInt64 1 = Except.ok
      ⟨64, RoundingMode.ToNearestEven, Accuracy.Exact, Form.finite, false, 2 ^ 63, 1⟩ := by
    rfl
  simp only [priceDecimalsMult, hten, hone] at h
  refine decMultLoop_valid _ ?_ _ _ d ?_ rfl rfl h
  · exact ⟨by decide, fun _ => ⟨by decide, by decide, by decide, by decide, by decide,
      by decide⟩, fun h => absurd rfl h, by decide⟩
  · exact ⟨by decide, fun _ => ⟨by decide, by decide, by decide, by decide, by decide,
      by decide⟩, fun h => absurd rfl h, by decide⟩

theorem trivialBigfloat_exactAtOne : trivialBigfloat.ExactAtOne := by
  constructor
  · intro z w hz hzf hw
    obtain ⟨hzp, _, _, _, _, _⟩ := hz.2.1 hzf
    refine ⟨⟨z.prec, RoundingMode.ToNearestEven, Accuracy.Exact, Form.finite, false, 2 ^ 63, 1⟩,
      ?_, ?_, rfl, ?_⟩
    · simp only [trivialBigfloat, hw, if_true]
    · have hb : bitLen (2 ^ 63) = 64 := by decide
      refine ⟨hz.1, fun _ => ⟨hzp, ?_, ?_, ?_, ?_, ?_⟩, fun h => absurd rfl h, ?_⟩
      · show 2 ^ 63 ≠ 0; decide
      · simp only [hb]
      · simp only [hb]; omega
      · show MinExp ≤ 1; decide
      · show (1 : Int) ≤ MaxExp; decide
      · show Form.finite ≠ Form.undef; decide
    · rw [toRat_finite _ rfl]
      have hb : bitLen (2 ^ 63) = 64 := by decide
      simp only [hb, signOf]
      norm_num
  · intro x hx hxf hxv
    exact ⟨x, rfl, hx, hxf, hxv⟩

theorem setBytes_append_singleton (l : List Nat) (b : Nat) :
    setBytes (l ++ [b]) = setBytes l * 256 + b % 256 := by
  simp [setBytes, List.foldl_append]

theorem setBytes_putUint32 (v : Nat) (h : v < 2 ^ 32) : setBytes (putUint32 v) = v := by
  simp only [setBytes, putUint32, List.foldl_cons, List.foldl_nil]
  norm_num at h ⊢
  omega

theorem natBytes_length (k m : Nat) : (natBytes k m).length = k := by
  induction k generalizing m with
  | zero => rfl
  | succ k ih => simp [natBytes, ih]

theorem setBytes_natBytes (k m : Nat) : setBytes (natBytes k m) = m % 256 ^ k := by
  induction k generalizing m with
  | zero => simp [natBytes, setBytes, Nat.mod_one]
  | succ k ih =>
    rw [natBytes, setBytes_append_singleton, ih, Nat.mod_mod, pow_succ]
    have h1 := Nat.mod_mul_right_div_self m 256 (256 ^ k)
    have h2 : m % (256 ^ k * 256) = m % 256 + 256 * (m / 256 % 256 ^ k) := by
      rw [Nat.mul_comm (256 ^ k) 256, Nat.mod_mul]
    rw [h2]
    ring

theorem toInt32_roundtrip (e : Int) (h1 : MinExp ≤ e) (h2 : e ≤ MaxExp) :
    toInt32 (e % 2 ^ 32).toNat = e := by
  unfold toInt32
  simp only [MinExp, MaxExp] at h1 h2
  have hnn : 0 ≤ e % 2 ^ 32 := Int.emod_nonneg _ (by norm_num)
  have hcast : (((e % 2 ^ 32).toNat : Nat) : Int) = e % 2 ^ 32 := Int.toNat_of_nonneg hnn
  split_ifs with hlt
  · have : ((e % 2 ^ 32).toNat : Int) < 2 ^ 31 := by exact_mod_cast hlt
    rw [hcast] at this ⊢
    omega
  · have : ¬ ((e % 2 ^ 32).toNat : Int) < 2 ^ 31 := by
      intro h; apply hlt; exact_mod_cast h
    rw [hcast] at this ⊢
    omega

theorem ofCode_code_acc (a : Accuracy) : Accuracy.ofCode a.code = a ∧ a.code < 4 := by
  cases a <;> exact ⟨rfl, by decide⟩

theorem ofCode_code_form (f : Form) : Form.ofCode f.code = f ∧ f.code < 4 := by
  cases f <;> exact ⟨rfl, by decide⟩

theorem header_byte (m a f s : Nat) (ha : a < 4) (hf : f < 4) (hs : s < 2) :
    (m % 8 * 32 + a % 4 * 8 + f % 4 * 2 + s) % 256 / 32 % 8 = m % 8 ∧
    (m % 8 * 32 + a % 4 * 8 + f % 4 * 2 + s) % 256 / 8 % 4 = a ∧
    (m % 8 * 32 + a % 4 * 8 + f % 4 * 2 + s) % 256 / 2 % 4 = f ∧
    (m % 8 * 32 + a % 4 * 8 + f % 4 * 2 + s) % 256 % 2 = s := by
  omega

theorem GobEncode_eq (x : BigFloat) :
    x.GobEncode = 1 :: x.headerByte :: (x.prec % 2 ^ 32 / 2 ^ 24 % 256)
      :: (x.prec % 2 ^ 32 / 2 ^ 16 % 256) :: (x.prec % 2 ^ 32 / 2 ^ 8 % 256)
      :: (x.prec % 2 ^ 32 % 256)
      :: (if x.form = Form.finite then
          putUint32 (x.exp % 2 ^ 32).toNat
            ++ natBytes (min ((x.prec + 63) / 64) (wordLen x.mant) * 8)
              (x.mant >>> (64 * (wordLen x.mant - min ((x.prec + 63) / 64) (wordLen x.mant))))
        else []) := by
  unfold BigFloat.GobEncode BigFloat.headerByte
  by_cases hf : x.form = Form.finite
  · simp [hf, putUint32, wordBits]
  · simp [hf, putUint32, wordBits]

theorem headerByte_decode (x : BigFloat) (hm : RoundingMode.ofCode (x.mode.code % 8) = x.mode) :
    RoundingMode.ofCode (x.headerByte % 256 / 32 % 8) = x.mode ∧
    Accuracy.ofCode (x.headerByte % 256 / 8 % 4) = x.acc ∧
    Form.ofCode (x.headerByte % 256 / 2 % 4) = x.form ∧
    decide (x.headerByte % 256 % 2 ≠ 0) = x.neg := by
  obtain ⟨ha1, ha2⟩ := ofCode_code_acc x.acc
  obtain ⟨hf1, hf2⟩ := ofCode_code_form x.form
  have hs : (if x.neg then 1 else 0) < 2 := by split_ifs <;> decide
  obtain ⟨h1, h2, h3, h4⟩ := header_byte x.mode.code x.acc.code x.form.code
    (if x.neg then 1 else 0) ha2 hf2 hs
  unfold BigFloat.headerByte
  rw [h1, h2, h3, h4]
  refine ⟨hm, ha1, hf1, ?_⟩
  cases x.neg <;> simp

theorem GobDecode_GobEncode (x : BigFloat) (hx : x.Valid)
    (hm : RoundingMode.ofCode (x.mode.code % 8) = x.mode) :
    GobDecode x.GobEncode = Except.ok x := by
  obtain ⟨hd1, hd2, hd3, hd4⟩ := headerByte_decode x hm
  have hprec : setBytes [x.prec % 2 ^ 32 / 2 ^ 24 % 256, x.prec % 2 ^ 32 / 2 ^ 16 % 256,
      x.prec % 2 ^ 32 / 2 ^ 8 % 256, x.prec % 2 ^ 32 % 256] = x.prec := by
    rw [Nat.mod_eq_of_lt hx.1]
    exact setBytes_putUint32 x.prec hx.1
  rw [GobEncode_eq]
  by_cases hf : x.form = Form.finite
  · obtain ⟨hp, h0, hn, hb, he1, he2⟩ := hx.2.1 hf
    have hw := wordLen_of_norm x.mant hn
    have hmin : min ((x.prec + 63) / 64) (wordLen x.mant) = wordLen x.mant := by
      apply min_eq_right; omega
    have hexp : setBytes (putUint32 (x.exp % 2 ^ 32).toNat) = (x.exp % 2 ^ 32).toNat := by
      apply setBytes_putUint32
      have h1 : x.exp % 2 ^ 32 < 2 ^ 32 := Int.emod_lt_of_pos _ (by norm_num)
      have h2 : 0 ≤ x.exp % 2 ^ 32 := Int.emod_nonneg _ (by norm_num)
      omega
    have hmant : setBytes (natBytes (wordLen x.mant * 8) x.mant) = x.mant := by
      rw [setBytes_natBytes]
      apply Nat.mod_eq_of_lt
      have := lt_two_pow_bitLen x.mant
      rw [← hw] at this
      rw [show (256 : Nat) = 2 ^ 8 by norm_num, ← pow_mul]
      rw [show 8 * (wordLen x.mant * 8) = wordLen x.mant * 64 by ring]
      exact this
    rw [if_pos hf, hmin, Nat.sub_self, Nat.mul_zero, Nat.shiftRight_zero]
    unfold GobDecode
    simp only [putUint32, List.cons_append, List.nil_append, List.length_cons,
      natBytes_length, List.headD_cons, List.drop_succ_cons, List.drop_zero, List.take_succ_cons,
      List.take_zero, hd1, hd2, hd3, hd4, hf, hprec]
    have hexp' := hexp
    simp only [putUint32] at hexp'
    rw [hexp', toInt32_roundtrip x.exp he1 he2, hmant]
    simp [BigFloat.validate0, hf, h0, hn, wordBits, Nat.pos_iff_ne_zero.1 hp]
    rw [if_neg (by omega), if_neg (by omega)]
    rcases x with ⟨prec, mode, acc, form, neg, mant, exp⟩
    simp only at hf
    subst hf
    rfl
  · obtain ⟨hm0, he0⟩ := hx.2.2.1 hf
    rw [if_neg hf]
    unfold GobDecode
    simp only [List.length_cons, List.length_nil, List.headD_cons, List.drop_succ_cons,
      List.drop_zero, List.take_succ_cons, List.take_zero, hd1, hd2, hd3, hd4, hf, hprec]
    simp [BigFloat.validate0, hf]
    rcases x with ⟨prec, mode, acc, form, neg, mant, exp⟩
    simp only at hm0 he0
    subst hm0 he0
    rfl

theorem zero53_valid : zero53.Valid :=
  ⟨by decide, fun h => absurd h (by decide), fun _ => ⟨rfl, rfl⟩, by decide⟩

theorem SetInt_valid (x : Int) : ∃ r, zero53.SetInt x = Except.ok r ∧ r.Valid := by
  unfold BigFloat.SetInt
  by_cases hx : x = 0
  · simp only [hx, if_true]
    exact ⟨_, rfl, ⟨by decide, fun h => absurd h (by decide), fun _ => ⟨rfl, rfl⟩, by decide⟩⟩
  · simp only [hx, if_false]
    have hn : x.natAbs ≠ 0 := Int.natAbs_ne_zero.2 hx
    obtain ⟨hf0, _, hfn, _⟩ := fnorm_norm _ hn
    obtain ⟨r, hr, hv, _⟩ := setExpAndRound_valid
      ⟨53, RoundingMode.ToNearestEven, Accuracy.Exact, Form.zero, decide (x < 0),
        (fnorm x.natAbs).1, 0⟩ (bitLen x.natAbs) 0 (show 0 < 53 by decide)
      (show 53 < 2 ^ 32 by decide) hf0 hfn rfl
    exact ⟨r, hr, hv⟩

theorem SetInt64_valid (w : Nat) (h32 : w < 2 ^ 32) :
    ∃ r, zero53.SetInt64 (w : Int) = Except.ok r ∧ r.Valid := by
  rcases Nat.eq_zero_or_pos w with h0 | h0
  · subst h0
    exact ⟨_, rfl, ⟨by decide, fun h => absurd h (by decide), fun _ => ⟨rfl, rfl⟩, by decide⟩⟩
  · obtain ⟨y, hy, _, hv, _, _⟩ := SetInt64_window w h0 h32
    exact ⟨y, hy, hv⟩

theorem meanTickOf_valid (w : Nat) (c0 c1 : Int) (h32 : w < 2 ^ 32) (m : BigFloat)
    (h : meanTickOf w c0 c1 = Except.ok m) : m.Valid := by
  obtain ⟨t, ht, htv⟩ := SetInt_valid (c1 - c0)
  obtain ⟨y, hy, hyv⟩ := SetInt64_valid w h32
  simp only [meanTickOf, ticksOf, NewFloat_zero, bind, Except.bind, ht, hy] at h
  exact (Quo_valid zero53 t y htv hyv (by decide) rfl m h).1

theorem getSqrtRatioAtTick_valid (lib : Bigfloat) (hlib : lib.ReturnsValid) (tick s : BigFloat)
    (ht : tick.Valid) (h : getSqrtRatioAtTick lib tick = Except.ok s) : s.Valid := by
  simp only [getSqrtRatioAtTick, SetFloat64_twoPower96, SetFloat64_onePoint0001, bind,
    Except.bind] at h
  cases h1 : lib.Pow onePoint0001 tick with
  | error e => rw [h1] at h; cases h
  | ok r1 =>
    rw [h1] at h
    simp only at h
    cases h2 : lib.Sqrt r1 with
    | error e => rw [h2] at h; cases h
    | ok r2 =>
      rw [h2] at h
      simp only at h
      have v1 := hlib.1 _ _ _ onePoint0001_valid.1 onePoint0001_valid.2 ht h1
      have v2 := hlib.2 _ _ v1 h2
      exact (Mul_valid BigFloat.new r2 twoPower96 v2 twoPower96_valid.1 (by decide) rfl s h).1

theorem priceOfMeanTick_valid (lib : Bigfloat) (hlib : lib.ReturnsValid) (base : Bool)
    (d tick price : BigFloat) (hd : d.Valid) (ht : tick.Valid)
    (h : priceOfMeanTick lib base d tick = Except.ok price) :
    price.Valid ∧ price.mode = RoundingMode.ToNearestEven := by
  simp only [priceOfMeanTick, bind, Except.bind, SetInt_two192] at h
  cases h1 : getSqrtRatioAtTick lib tick with
  | error e => rw [h1] at h; cases h
  | ok s =>
    rw [h1] at h
    simp only at h
    have vs := getSqrtRatioAtTick_valid lib hlib tick s ht h1
    cases h2 : BigFloat.new.Mul s s with
    | error e => rw [h2] at h; cases h
    | ok ratio =>
      rw [h2] at h
      simp only at h
      have vr := (Mul_valid BigFloat.new s s vs vs (by decide) rfl ratio h2).1
      cases h3 : BigFloat.new.Quo (if base = true then ratio else two192)
          (if base = true then two192 else ratio) with
      | error e => rw [h3] at h; cases h
      | ok q =>
        rw [h3] at h
        simp only at h
        have vq : q.Valid := by
          cases base
          · exact (Quo_valid BigFloat.new _ _ two192_valid.1 vr (by decide) rfl q h3).1
          · exact (Quo_valid BigFloat.new _ _ vr two192_valid.1 (by decide) rfl q h3).1
        obtain ⟨hv, hm, _⟩ := Mul_valid BigFloat.new q d vq hd (by decide) rfl price h
        exact ⟨hv, hm⟩

theorem getPrice_valid (lib : Bigfloat) (hlib : lib.ReturnsValid) (node : Node)
    (delays : Delays) (now : Int) (us : UniswapSource) (price : BigFloat)
    (hd : us.priceDecimalsMult.Valid) (hw32 : us.averagingInterval < 2 ^ 32)
    (h : (getPrice lib node delays now us).result = Except.ok price) :
    price.Valid ∧ price.mode = RoundingMode.ToNearestEven := by
  cases hp : us.poolInstance with
  | none => simp [getPrice, hp] at h
  | some x =>
    cases hs : node.Slot0 now with
    | error e => simp [getPrice, hp, hs] at h
    | ok u =>
      cases ho : node.Observe (observeTime us delays now) us.averagingInterval 0 with
      | error e => simp [getPrice, hp, hs, ho] at h
      | ok tc =>
        cases hm : meanTickOf us.averagingInterval tc.1 tc.2 with
        | error e => simp [getPrice, hp, hs, ho, hm, bind, Except.bind, orPanic] at h
        | ok m =>
          cases hc : priceOfMeanTick lib us.token0IsBase us.priceDecimalsMult m with
          | error e => simp [getPrice, hp, hs, ho, hm, hc, bind, Except.bind, orPanic] at h
          | ok p =>
            simp [getPrice, hp, hs, ho, hm, hc, bind, Except.bind, orPanic] at h
            subst h
            exact priceOfMeanTick_valid lib hlib _ _ _ _ hd
              (meanTickOf_valid _ _ _ hw32 m hm) hc

theorem trivialBigfloat_returnsValid : trivialBigfloat.ReturnsValid := by
  constructor
  · intro z w r hz hzf _ h
    by_cases hw : w.form = Form.zero
    · obtain ⟨r', hr', hv, _, _⟩ := trivialBigfloat_exactAtOne.1 z w hz hzf hw
      rw [hr'] at h
      cases h
      exact hv
    · simp only [trivialBigfloat, hw, if_false] at h
      cases h
      exact hz
  · intro x r hx h
    cases h
    exact hx

theorem validate0_ne (x : BigFloat) :
    x.validate0 ≠ "" ↔
      x.form = Form.finite ∧ (x.mant = 0 ∨ bitLen x.mant % 64 ≠ 0 ∨ x.prec = 0) := by
  unfold BigFloat.validate0 wordBits
  by_cases hf : x.form = Form.finite
  · rw [if_neg (by simp [hf])]
    by_cases hm : x.mant = 0
    · rw [if_pos hm]
      exact ⟨fun _ => ⟨hf, Or.inl hm⟩, fun _ => by decide⟩
    · rw [if_neg hm]
      by_cases hb : bitLen x.mant % 64 ≠ 0
      · rw [if_pos hb]
        exact ⟨fun _ => ⟨hf, Or.inr (Or.inl hb)⟩, fun _ => by decide⟩
      · rw [if_neg hb]
        by_cases hp : x.prec = 0
        · rw [if_pos hp]
          exact ⟨fun _ => ⟨hf, Or.inr (Or.inr hp)⟩, fun _ => by decide⟩
        · rw [if_neg hp]
          constructor
          · intro h; exact absurd rfl h
          · rintro ⟨_, h | h | h⟩
            · exact absurd h hm
            · exact absurd h hb
            · exact absurd h hp
  · rw [if_pos hf]
    constructor
    · intro h; exact absurd rfl h
    · rintro ⟨h, _⟩; exact absurd h hf

theorem GobDecode_error_iff (buf : List Nat) :
    (∃ e, GobDecode buf = Except.error e) ↔
      buf.length ≠ 0 ∧ (buf.length < 6 ∨ buf.headD 0 % 256 ≠ 1 ∨
        (Form.ofCode ((buf.drop 1).headD 0 % 256 / 2 % 4) = Form.finite ∧
          (buf.length < 10 ∨ setBytes (buf.drop 10) = 0 ∨
            bitLen (setBytes (buf.drop 10)) % 64 ≠ 0 ∨ setBytes ((buf.drop 2).take 4) = 0))) := by
  unfold GobDecode
  by_cases h0 : buf.length = 0
  · rw [if_pos h0]
    constructor
    · rintro ⟨e, he⟩; cases he
    · rintro ⟨h, _⟩; exact absurd h0 h
  rw [if_neg h0]
  by_cases h6 : buf.length < 6
  · rw [if_pos h6]
    exact ⟨fun _ => ⟨h0, Or.inl h6⟩, fun _ => ⟨_, rfl⟩⟩
  rw [if_neg h6]
  by_cases hv : buf.headD 0 % 256 ≠ 1
  · rw [if_pos hv]
    exact ⟨fun _ => ⟨h0, Or.inr (Or.inl hv)⟩, fun _ => ⟨_, rfl⟩⟩
  rw [if_neg hv]
  dsimp only
  by_cases hf : Form.ofCode ((buf.drop 1).headD 0 % 256 / 2 % 4) = Form.finite
  · by_cases h10 : buf.length < 10
    · rw [if_pos ⟨hf, h10⟩]
      exact ⟨fun _ => ⟨h0, Or.inr (Or.inr ⟨hf, Or.inl h10⟩)⟩, fun _ => ⟨_, rfl⟩⟩
    · rw [if_neg (fun h => h10 h.2), if_pos hf]
      have hval := validate0_ne
        ⟨setBytes ((buf.drop 2).take 4),
          RoundingMode.ofCode ((buf.drop 1).headD 0 % 256 / 32 % 8),
          Accuracy.ofCode ((buf.drop 1).headD 0 % 256 / 8 % 4),
          Form.ofCode ((buf.drop 1).headD 0 % 256 / 2 % 4),
          decide ((buf.drop 1).headD 0 % 256 % 2 ≠ 0),
          setBytes (buf.drop 10), toInt32 (setBytes ((buf.drop 6).take 4))⟩
      simp only at hval
      by_cases hbad : setBytes (buf.drop 10) = 0 ∨
          bitLen (setBytes (buf.drop 10)) % 64 ≠ 0 ∨ setBytes ((buf.drop 2).take 4) = 0
      · rw [if_pos (hval.2 ⟨hf, hbad⟩)]
        exact ⟨fun _ => ⟨h0, Or.inr (Or.inr ⟨hf, Or.inr hbad⟩)⟩, fun _ => ⟨_, rfl⟩⟩
      · rw [if_neg (fun h => hbad (hval.1 h).2)]
        constructor
        · rintro ⟨e, he⟩; cases he
        · rintro ⟨_, h | h | ⟨_, h | h⟩⟩
          · exact absurd h h6
          · exact absurd h hv
          · exact absurd h h10
          · exact absurd h hbad
  · rw [if_neg (fun h => hf h.1), if_neg hf]
    have hval := validate0_ne
      ⟨setBytes ((buf.drop 2).take 4),
        RoundingMode.ofCode ((buf.drop 1).headD 0 % 256 / 32 % 8),
        Accuracy.ofCode ((buf.drop 1).headD 0 % 256 / 8 % 4),
        Form.ofCode ((buf.drop 1).headD 0 % 256 / 2 % 4),
        decide ((buf.drop 1).headD 0 % 256 % 2 ≠ 0), 0, 0⟩
    simp only at hval
    rw [if_neg (fun h => hf (hval.1 h).1)]
    constructor
    · rintro ⟨e, he⟩; cases he
    · rintro ⟨_, h | h | ⟨h, _⟩⟩
      · exact absurd h h6
      · exact absurd h hv
      · exact absurd h hf

/-- C5 (amended). Codec round trip, for a library that returns well-formed values:
the bytes `ReadServerData` returns are the gob encoding of the price `getPrice`
produced, and the provider's decoder gives back that very value (precision, mode,
accuracy, form, sign, mantissa and exponent all equal), on which `extractPrice` goes
on to multiply; whenever the decoder returns an error `extractPrice` returns the
price 0 with that error, and the decoder returns an error exactly for a non-empty
buffer that is shorter than 6 bytes, or has a version byte other than 1, or holds a
finite form in fewer than 10 bytes or with an empty mantissa, a mantissa whose top
bit is not set, or the precision 0. -/
theorem ReadServerData_roundtrip (lib : Bigfloat) (node : Node) (delays : Delays) (now : Int)
    (us : UniswapSource) (Float64 : BigFloat → F64) (multiplier : F64) (response : List Nat)
    (hlib : lib.ReturnsValid) (hd : us.priceDecimalsMult.Valid)
    (hw32 : us.averagingInterval < 2 ^ 32)
    (h : (ReadServerData lib node delays now us).2 = Except.ok response) :
    (∃ price, (getPrice lib node delays now us).result = Except.ok price ∧
      response = price.GobEncode ∧ GobDecode response = Except.ok price ∧
      extractPrice Float64 multiplier response =
        (NewFloat multiplier >>= fun m => price.Mul price m >>= fun p =>
          Except.ok (Float64 p, none))) ∧
    (∀ buf e, GobDecode buf = Except.error e →
      extractPrice Float64 multiplier buf = Except.ok (F64.zero false, some e)) ∧
    (∀ buf : List Nat, (∃ e, GobDecode buf = Except.error e) ↔
      buf.length ≠ 0 ∧ (buf.length < 6 ∨ buf.headD 0 % 256 ≠ 1 ∨
        (Form.ofCode ((buf.drop 1).headD 0 % 256 / 2 % 4) = Form.finite ∧
          (buf.length < 10 ∨ setBytes (buf.drop 10) = 0 ∨
            bitLen (setBytes (buf.drop 10)) % 64 ≠ 0 ∨
            setBytes ((buf.drop 2).take 4) = 0)))) := by
  refine ⟨?_, ?_, GobDecode_error_iff⟩
  · cases hr : (getPrice lib node delays now us).result with
    | error f => simp [ReadServerData, hr] at h
    | ok price =>
      simp only [ReadServerData, hr] at h
      cases h
      obtain ⟨hv, hm⟩ := getPrice_valid lib hlib node delays now us price hd hw32 hr
      have hrt := GobDecode_GobEncode price hv (by rw [hm]; rfl)
      refine ⟨price, rfl, rfl, hrt, ?_⟩
      simp only [extractPrice, hrt]
      rfl
  · intro buf e he
    simp only [extractPrice, he]

/-- C5 (as stated, refuted). Malformed bytes the decoder does not reject: the six
bytes `1, 14, 0, 0, 0, 53` carry the form bits 3, which name no form, yet
`GobDecode` returns no error and `extractPrice` returns the price 0 without an
error; the eighteen bytes of a finite value with the mode bits 7, which name no
rounding mode, are decoded without an error and `extractPrice` panics in `Mul`. -/
theorem extractPrice_malformed_counterexample :
    GobDecode [1, 14, 0, 0, 0, 53] = Except.ok
      ⟨53, RoundingMode.ToNearestEven, Accuracy.Exact, Form.undef, false, 0, 0⟩ ∧
    extractPrice coarseFloat64 (F64.normal false 0 0) [1, 14, 0, 0, 0, 53]
      = Except.ok (F64.zero false, none) ∧
    GobDecode [1, 234, 0, 0, 0, 53, 0, 0, 0, 1, 128, 0, 0, 0, 0, 0, 8, 0] = Except.ok
      ⟨53, RoundingMode.invalid 7, Accuracy.Exact, Form.finite, false, 2 ^ 63 + 2 ^ 11, 1⟩ ∧
    extractPrice coarseFloat64 (F64.normal false 450359962737 0)
      [1, 234, 0, 0, 0, 53, 0, 0, 0, 1, 128, 0, 0, 0, 0, 0, 8, 0]
      = Except.error "unreachable" := by
  refine ⟨by rfl, by rfl, by rfl, by rfl⟩

/-- The 42 bytes of the price 1,000,000 at 193 bits decode to that price. -/
theorem ReadServerData_roundtrip_witness :
    GobDecode [1, 10, 0, 0, 0, 193, 0, 0, 0, 20, 244, 36, 0, 0, 0, 0, 0, 0, 0, 0, 0, 0, 0, 0,
        0, 0, 0, 0, 0, 0, 0, 0, 0, 0, 0, 0, 0, 0, 0, 0, 0, 0] =
      Except.ok ⟨193, RoundingMode.ToNearestEven, Accuracy.Exact, Form.finite, false,
        1000000 * 2 ^ 236, 20⟩ := by
  obtain ⟨⟨price, h1, _, h3, _⟩, _⟩ := ReadServerData_roundtrip trivialBigfloat flakyNode
    noDelays 5000000000 baseSource coarseFloat64 (F64.normal false 0 0)
    [1, 10, 0, 0, 0, 193, 0, 0, 0, 20, 244, 36, 0, 0, 0, 0, 0, 0, 0, 0, 0, 0, 0, 0,
      0, 0, 0, 0, 0, 0, 0, 0, 0, 0, 0, 0, 0, 0, 0, 0, 0, 0]
    trivialBigfloat_returnsValid (priceDecimalsMult_valid 6 _ (by rfl)).1 (by decide) (by rfl)
  have h : (getPrice trivialBigfloat flakyNode noDelays 5000000000 baseSource).result =
      Except.ok ⟨193, RoundingMode.ToNearestEven, Accuracy.Exact, Form.finite, false,
        1000000 * 2 ^ 236, 20⟩ := by rfl
  rw [h] at h1
  cases h1
  exact h3


/-! ## Rounding to nearest: the value of a rounded result -/

theorem toRat_of_top (prec : Nat) (mode : RoundingMode) (acc : Accuracy) (neg : Bool)
    (mant c : Nat) (e : Int) (hp : 0 < prec)
    (hlo : 2 ^ ((prec + 63) / 64 * 64 - 1) ≤ mant) (hhi : mant < 2 ^ ((prec + 63) / 64 * 64))
    (hc : c * 2 ^ ((prec + 63) / 64 * 64 - prec) = mant) :
    BigFloat.toRat ⟨prec, mode, acc, Form.finite, neg, mant, e⟩
      = signOf neg * ((c : ℚ) * (2 : ℚ) ^ (e - (prec : Int))) := by
  have hb : bitLen mant = (prec + 63) / 64 * 64 := by
    have := bitLen_eq_of_bounds mant ((prec + 63) / 64 * 64 - 1) hlo
      (by rw [show (prec + 63) / 64 * 64 - 1 + 1 = (prec + 63) / 64 * 64 by omega]; exact hhi)
    omega
  rw [toRat_finite _ rfl]
  simp only
  rw [mul_assoc, hb]
  congr 1
  symm
  apply scale_eq c mant ((prec + 63) / 64 * 64 - prec) _ _ hc
  push_cast [Nat.cast_sub (show prec ≤ (prec + 63) / 64 * 64 by omega)]
  ring

theorem clear_eq (x lsb : Nat) : x - x % lsb = x / lsb * lsb := by
  have := Nat.div_add_mod x lsb
  rw [Nat.mul_comm] at this
  omega

theorem applyInc_toRat (z : BigFloat) (inc : Bool) (x : Nat) (hz : z.Normal)
    (hlo : 2 ^ ((z.prec + 63) / 64 * 64 - 1) ≤ x) (hhi : x < 2 ^ ((z.prec + 63) / 64 * 64))
    (hfin : (z.applyInc ((z.prec + 63) / 64) x (1 <<< ((z.prec + 63) / 64 * 64 - z.prec))
      inc).form = Form.finite) :
    (z.applyInc ((z.prec + 63) / 64) x (1 <<< ((z.prec + 63) / 64 * 64 - z.prec)) inc).toRat
      = signOf z.neg * (((x / 2 ^ ((z.prec + 63) / 64 * 64 - z.prec)
          + (if inc then 1 else 0) : Nat) : ℚ) * (2 : ℚ) ^ (z.exp - (z.prec : Int))) := by
  rcases z with ⟨prec, mode, acc, form, neg, mant, exp⟩
  obtain ⟨hf, hp, hp32, _, _, he1, he2⟩ := hz
  simp only at hf hp hp32 he1 he2 hlo hhi hfin ⊢
  subst hf
  have hlsb : 1 <<< ((prec + 63) / 64 * 64 - prec) = 2 ^ ((prec + 63) / 64 * 64 - prec) := by
    rw [Nat.shiftLeft_eq, Nat.one_mul]
  rw [hlsb] at hfin ⊢
  generalize hL : 2 ^ ((prec + 63) / 64 * 64 - prec) = lsb at hfin ⊢
  have hLpos : 0 < lsb := by rw [← hL]; exact Nat.two_pow_pos _
  have hLdvd : lsb ∣ 2 ^ ((prec + 63) / 64 * 64 - 1) := by
    rw [← hL]; exact pow_dvd_pow 2 (by omega)
  have hLle : lsb ≤ 2 ^ ((prec + 63) / 64 * 64 - 1) := Nat.le_of_dvd (Nat.two_pow_pos _) hLdvd
  have hdouble : 2 ^ ((prec + 63) / 64 * 64) = 2 * 2 ^ ((prec + 63) / 64 * 64 - 1) := by
    rw [← pow_succ']; congr 1; omega
  have hLP : lsb * 2 ^ prec = 2 ^ ((prec + 63) / 64 * 64) := by
    rw [← hL, ← pow_add]; congr 1; omega
  have hdm := Nat.div_add_mod x lsb
  have hmodlt := Nat.mod_lt x hLpos
  unfold BigFloat.applyInc at hfin ⊢
  simp only [wordBits] at hfin ⊢
  by_cases hinc : inc = true
  · subst hinc
    simp only [if_true] at hfin ⊢
    by_cases hov : x + lsb ≥ 2 ^ ((prec + 63) / 64 * 64)
    · simp only [hov, if_true] at hfin ⊢
      by_cases hmax : exp ≥ MaxExp
      · simp only [hmax, if_true, BigFloat.setForm] at hfin
        cases hfin
      · simp only [hmax, if_false] at hfin ⊢
        -- the top `prec` bits were all ones
        have ht : x / lsb + 1 = 2 ^ prec := by
          have h1 : x / lsb < 2 ^ prec := by
            rw [Nat.div_lt_iff_lt_mul hLpos, Nat.mul_comm, hLP]; exact hhi
          have h2 : 2 ^ prec ≤ x / lsb + 1 := by
            by_contra hlt
            have hlt' : x / lsb + 2 ≤ 2 ^ prec := by omega
            have := Nat.mul_le_mul_left lsb hlt'
            rw [hLP, Nat.mul_add] at this
            omega
          omega
        have hc : (x + lsb - 2 ^ ((prec + 63) / 64 * 64)) >>> 1 < lsb := by
          rw [Nat.shiftRight_eq_div_pow]
          apply lt_of_le_of_lt (Nat.div_le_self _ _)
          omega
        have hmant : (x + lsb - 2 ^ ((prec + 63) / 64 * 64)) >>> 1
            + 2 ^ ((prec + 63) / 64 * 64 - 1)
            - ((x + lsb - 2 ^ ((prec + 63) / 64 * 64)) >>> 1
              + 2 ^ ((prec + 63) / 64 * 64 - 1)) % lsb
            = 2 ^ ((prec + 63) / 64 * 64 - 1) := by
          obtain ⟨q, hq⟩ := hLdvd
          have hmod : ((x + lsb - 2 ^ ((prec + 63) / 64 * 64)) >>> 1
              + 2 ^ ((prec + 63) / 64 * 64 - 1)) % lsb
              = (x + lsb - 2 ^ ((prec + 63) / 64 * 64)) >>> 1 := by
            rw [hq, Nat.add_mul_mod_self_left]
            exact Nat.mod_eq_of_lt hc
          rw [hmod]
          omega
        rw [hmant]
        rw [toRat_of_top prec mode _ neg _ (2 ^ (prec - 1)) (exp + 1) hp (le_refl _)
          (by rw [hdouble]; have := Nat.two_pow_pos ((prec + 63) / 64 * 64 - 1); omega)
          (by rw [← pow_add]; congr 1; omega)]
        congr 1
        rw [ht]
        push_cast
        rw [show exp + 1 - (prec : Int) = (exp - (prec : Int)) + 1 by ring,
          zpow_add₀ (by norm_num : (2 : ℚ) ≠ 0), zpow_one]
        have : (2 : ℚ) ^ prec = 2 ^ (prec - 1) * 2 := by
          rw [← pow_succ]; congr 1; omega
        rw [this]
        ring
    · simp only [hov, if_false] at hfin ⊢
      have hsum : x + lsb - (x + lsb) % lsb = (x / lsb + 1) * lsb := by
        rw [Nat.add_mod_right, Nat.add_mul, Nat.one_mul]
        rw [Nat.mul_comm] at hdm
        omega
      rw [hsum]
      have hb := clear_bounds prec (x + lsb) hp (by omega)
        (by simp only [ge_iff_le, not_le] at hov; exact hov)
      rw [hL, hsum] at hb
      rw [toRat_of_top prec mode _ neg _ (x / lsb + 1) exp hp hb.1 hb.2 (by rw [hL])]
  · have hinc2 : inc = false := by cases inc <;> simp_all
    subst hinc2
    simp only [Bool.false_eq_true, if_false] at hfin ⊢
    have hb := clear_bounds prec x hp hlo hhi
    rw [hL, clear_eq] at hb
    rw [clear_eq]
    rw [toRat_of_top prec mode _ neg _ (x / lsb) exp hp hb.1 hb.2 (by rw [hL])]
    simp

theorem mod_add_le (low h g : Nat) (hg : g ∣ h) (hl : g ∣ low) (hlt : low < h) : low + g ≤ h := by
  obtain ⟨c, rfl⟩ := hl
  obtain ⟨d, rfl⟩ := hg
  rcases Nat.eq_zero_or_pos g with h0 | h0
  · subst h0; simp at hlt
  · have : c < d := Nat.lt_of_mul_lt_mul_left hlt
    calc g * c + g = g * (c + 1) := by ring
      _ ≤ g * d := Nat.mul_le_mul_left g this

theorem nearest_bound (mant k s j : Nat) (T : ℚ) (hk : 0 < k)
    (hT : (s = 0 ∧ T = mant) ∨
      (s = 1 ∧ j < k ∧ 2 ^ j ∣ mant ∧ (mant : ℚ) < T ∧ T < (mant : ℚ) + (2 : ℚ) ^ j)) :
    |(((mant / 2 ^ k + (if nearestInc mant k s then 1 else 0) : Nat) : ℚ) * (2 : ℚ) ^ k - T)|
      ≤ (2 : ℚ) ^ (k - 1) := by
  have hkk : 2 ^ k = 2 * 2 ^ (k - 1) := by rw [← pow_succ']; congr 1; omega
  have hkq : (2 : ℚ) ^ k = 2 * (2 : ℚ) ^ (k - 1) := by rw [← pow_succ']; congr 1; omega
  have hpos : 0 < 2 ^ (k - 1) := Nat.two_pow_pos _
  have hdm := Nat.div_add_mod mant (2 ^ (k - 1))
  have hlt := Nat.mod_lt mant hpos
  have ht : mant / 2 ^ k = mant / 2 ^ (k - 1) / 2 := by
    rw [hkk, Nat.mul_comm, Nat.div_div_eq_div_mul]
  have ha := Nat.div_add_mod (mant / 2 ^ (k - 1)) 2
  have hrb := Nat.mod_lt (mant / 2 ^ (k - 1)) (show 0 < 2 by decide)
  have hj : s = 1 → ((mant % 2 ^ (k - 1) : Nat) : ℚ) + (2 : ℚ) ^ j ≤ (2 : ℚ) ^ (k - 1) := by
    intro hs
    rcases hT with ⟨h0, _⟩ | ⟨_, hjk, hd, _, _⟩
    · omega
    · have hgh : 2 ^ j ∣ 2 ^ (k - 1) := pow_dvd_pow 2 (by omega)
      have := mod_add_le _ _ _ hgh ((Nat.dvd_mod_iff hgh).2 hd) hlt
      exact_mod_cast this
  unfold nearestInc sticky
  rw [ht]
  have hmQ : (mant : ℚ) = (2 : ℚ) ^ (k - 1) * (2 * ((mant / 2 ^ (k - 1) / 2 : Nat) : ℚ)
      + ((mant / 2 ^ (k - 1) % 2 : Nat) : ℚ)) + ((mant % 2 ^ (k - 1) : Nat) : ℚ) := by
    have : mant = 2 ^ (k - 1) * (2 * (mant / 2 ^ (k - 1) / 2) + mant / 2 ^ (k - 1) % 2)
        + mant % 2 ^ (k - 1) := by rw [ha, hdm]
    exact_mod_cast this
  have hlq : ((mant % 2 ^ (k - 1) : Nat) : ℚ) < (2 : ℚ) ^ (k - 1) := by exact_mod_cast hlt
  have hl0 : (0 : ℚ) ≤ ((mant % 2 ^ (k - 1) : Nat) : ℚ) := Nat.cast_nonneg _
  have hlz : mant % 2 ^ (k - 1) = 0 → ((mant % 2 ^ (k - 1) : Nat) : ℚ) = 0 := by
    intro h; rw [h]; simp
  have hlnz : mant % 2 ^ (k - 1) ≠ 0 → (1 : ℚ) ≤ ((mant % 2 ^ (k - 1) : Nat) : ℚ) := by
    intro h; exact_mod_cast Nat.one_le_iff_ne_zero.2 h
  rw [hkq]
  generalize (2 : ℚ) ^ (k - 1) = H at *
  generalize mant % 2 ^ (k - 1) = low at *
  generalize mant / 2 ^ (k - 1) / 2 = t at *
  generalize mant / 2 ^ (k - 1) % 2 = rb at *
  have hrb' : rb = 0 ∨ rb = 1 := by omega
  rcases hT with ⟨hs, hTm⟩ | ⟨hs, hjk, hd, hT1, hT2⟩
  · subst hs
    rw [hTm, hmQ]
    rcases hrb' with hr | hr
    · subst hr
      simp only [ne_eq, not_true_eq_false, decide_False, Bool.false_and, Bool.false_eq_true,
        if_false, Nat.add_zero, Nat.cast_zero, add_zero]
      rw [abs_le]; constructor <;> nlinarith
    · subst hr
      by_cases hlow : low = 0
      · have := hlz hlow
        by_cases hte : t % 2 = 0
        · simp [hlow, hte]
          rw [abs_le]; constructor <;> nlinarith
        · simp [hlow, hte]
          rw [abs_le]; constructor <;> nlinarith
      · have := hlnz hlow
        simp [hlow]
        rw [abs_le]; constructor <;> nlinarith
  · subst hs
    have hjj := hj rfl
    rw [hmQ] at hT1 hT2
    have h2j : (0 : ℚ) < (2 : ℚ) ^ j := by positivity
    rcases hrb' with hr | hr
    · subst hr
      simp
      simp at hT1 hT2
      rw [abs_le]; constructor <;> nlinarith
    · subst hr
      simp
      simp at hT1 hT2
      rw [abs_le]; constructor <;> nlinarith

theorem applyInc_form (z : BigFloat) (n x lsb : Nat) (inc : Bool) (hf : z.form = Form.finite)
    (he : z.exp < MaxExp) : (z.applyInc n x lsb inc).form = Form.finite := by
  unfold BigFloat.applyInc
  dsimp only
  split_ifs with h1 h2 h3
  · omega
  · exact hf
  · exact hf
  · exact hf

theorem applyInc_exp (z : BigFloat) (n x lsb : Nat) (inc : Bool) (he : z.exp < MaxExp) :
    z.exp ≤ (z.applyInc n x lsb inc).exp ∧ (z.applyInc n x lsb inc).exp ≤ z.exp + 1 := by
  unfold BigFloat.applyInc
  dsimp only
  split_ifs with h1 h2 h3
  · omega
  · exact ⟨by simp, by simp⟩
  · exact ⟨by simp, by simp⟩
  · exact ⟨by simp, by simp⟩

theorem cutMant_div (prec mant : Nat) (hn : bitLen mant % 64 = 0) (hgt : prec < bitLen mant) :
    cutMant prec mant / 2 ^ ((prec + 63) / 64 * 64 - prec) = mant / 2 ^ (bitLen mant - prec) := by
  have hw := wordLen_of_norm mant hn
  unfold cutMant
  split_ifs with h
  · rw [Nat.shiftRight_eq_div_pow, Nat.div_div_eq_div_mul, ← pow_add]
    congr 2
    omega
  · congr 2
    omega

theorem round_toRat (z : BigFloat) (s : Nat) (hz : z.Normal)
    (hmode : z.mode = RoundingMode.ToNearestEven) (hgt : z.prec < bitLen z.mant)
    (hexp : z.exp < MaxExp) :
    ∃ r, z.round s = Except.ok r ∧ r.form = Form.finite ∧ z.exp ≤ r.exp ∧ r.exp ≤ z.exp + 1 ∧
      r.toRat = signOf z.neg * (((z.mant / 2 ^ (bitLen z.mant - z.prec)
          + (if nearestInc z.mant (bitLen z.mant - z.prec) s then 1 else 0) : Nat) : ℚ)
          * (2 : ℚ) ^ (z.exp - (z.prec : Int))) := by
  rcases z with ⟨prec, mode, acc, form, neg, mant, exp⟩
  have hz0 := hz
  obtain ⟨hf, hp, hp32, h0, hn, he1, he2⟩ := hz
  simp only at hf hp hp32 h0 hn he1 he2 hmode hgt hexp ⊢
  subst hf
  subst hmode
  have hw := wordLen_of_norm mant hn
  have hz' : BigFloat.Normal ⟨prec, RoundingMode.ToNearestEven, Accuracy.Exact, Form.finite,
      neg, mant, exp⟩ := hz0
  have hcb := cutMant_bounds prec mant hp h0 hn hgt
  have hcd := cutMant_div prec mant hn hgt
  unfold BigFloat.round
  simp only [ne_eq, not_true_eq_false, if_false, wordBits, hw]
  rw [if_neg (by omega)]
  have hcut : (if wordLen mant > (prec + (64 - 1)) / 64
      then mant >>> (64 * (wordLen mant - (prec + (64 - 1)) / 64)) else mant)
      = cutMant prec mant := rfl
  simp only [hcut]
  simp only [or_true, and_true, Nat.shiftRight_eq_div_pow, Nat.reduceSub, hcd]
  have hfm : ∀ inc, (BigFloat.applyInc ⟨prec, RoundingMode.ToNearestEven, Accuracy.Exact,
      Form.finite, neg, mant, exp⟩ ((prec + 63) / 64) (cutMant prec mant)
      (1 <<< ((prec + 63) / 64 * 64 - prec)) inc).form = Form.finite :=
    fun inc => applyInc_form _ _ _ _ inc rfl hexp
  by_cases hc : ¬mant / 2 ^ (bitLen mant - prec - 1) % 2 = 0 ∨
      ¬(if s = 0 then sticky mant (bitLen mant - prec - 1) else s) % 2 = 0
  · rw [if_pos hc]
    simp only [roundInc]
    refine ⟨_, rfl, hfm _, (applyInc_exp _ _ _ _ _ hexp).1, (applyInc_exp _ _ _ _ _ hexp).2, ?_⟩
    rw [applyInc_toRat _ _ _ hz' hcb.1 hcb.2 (hfm _)]
    simp only [hcd, nearestInc, ne_eq]
  · rw [if_neg hc]
    refine ⟨_, rfl, rfl, le_refl _, by simp, ?_⟩
    have hni : nearestInc mant (bitLen mant - prec) s = false := by
      simp only [not_or, not_not] at hc
      simp only [nearestInc, ne_eq, hc.1, not_true_eq_false, decide_False, Bool.false_and]
    have hlsb : 1 <<< ((prec + 63) / 64 * 64 - prec) = 2 ^ ((prec + 63) / 64 * 64 - prec) := by
      rw [Nat.shiftLeft_eq, Nat.one_mul]
    have hb := clear_bounds prec (cutMant prec mant) hp hcb.1 hcb.2
    rw [clear_eq] at hb
    rw [hni, hlsb, clear_eq,
      toRat_of_top prec _ _ neg _ (cutMant prec mant / 2 ^ ((prec + 63) / 64 * 64 - prec)) exp hp
        hb.1 hb.2 rfl, hcd]
    simp

theorem round_near (z : BigFloat) (s j : Nat) (T : ℚ) (hz : z.Normal)
    (hmode : z.mode = RoundingMode.ToNearestEven) (hgt : z.prec < bitLen z.mant)
    (hexp : z.exp < MaxExp)
    (hT : (s = 0 ∧ T = z.mant) ∨
      (s = 1 ∧ j < bitLen z.mant - z.prec ∧ 2 ^ j ∣ z.mant ∧ (z.mant : ℚ) < T
        ∧ T < (z.mant : ℚ) + (2 : ℚ) ^ j)) :
    ∃ r, z.round s = Except.ok r ∧ r.form = Form.finite ∧ z.exp ≤ r.exp ∧ r.exp ≤ z.exp + 1 ∧
      |r.toRat - signOf z.neg * (T * (2 : ℚ) ^ (z.exp - (bitLen z.mant : Int)))|
        ≤ T * (2 : ℚ) ^ (z.exp - (bitLen z.mant : Int)) / (2 : ℚ) ^ z.prec := by
  obtain ⟨r, hr, hrf, hre1, hre2, hrv⟩ := round_toRat z s hz hmode hgt hexp
  refine ⟨r, hr, hrf, hre1, hre2, ?_⟩
  have hb := nearest_bound z.mant (bitLen z.mant - z.prec) s j T (by omega) hT
  have hlo := two_pow_le_of_bitLen z.mant hz.2.2.2.1
  have hTm : (z.mant : ℚ) ≤ T := by
    rcases hT with ⟨_, h⟩ | ⟨_, _, _, h, _⟩
    · exact h.ge
    · exact h.le
  have hloQ : (2 : ℚ) ^ (bitLen z.mant - 1) ≤ (z.mant : ℚ) := by exact_mod_cast hlo
  have hsplit : (2 : ℚ) ^ (bitLen z.mant - 1)
      = (2 : ℚ) ^ (bitLen z.mant - z.prec - 1) * (2 : ℚ) ^ z.prec := by
    rw [← pow_add]; congr 1; omega
  have hsc : (2 : ℚ) ^ (z.exp - (z.prec : Int))
      = (2 : ℚ) ^ (bitLen z.mant - z.prec) * (2 : ℚ) ^ (z.exp - (bitLen z.mant : Int)) := by
    rw [← zpow_natCast, ← zpow_add₀ (by norm_num : (2 : ℚ) ≠ 0)]
    congr 1
    push_cast [Nat.cast_sub hgt.le]
    ring
  have hE : (0 : ℚ) < (2 : ℚ) ^ (z.exp - (bitLen z.mant : Int)) := by positivity
  have hP : (0 : ℚ) < (2 : ℚ) ^ z.prec := by positivity
  rw [hrv, hsc]
  generalize (2 : ℚ) ^ (z.exp - (bitLen z.mant : Int)) = E at *
  generalize (((z.mant / 2 ^ (bitLen z.mant - z.prec)
    + (if nearestInc z.mant (bitLen z.mant - z.prec) s then 1 else 0) : Nat) : ℚ)) = N at *
  have hfac : signOf z.neg * (N * ((2 : ℚ) ^ (bitLen z.mant - z.prec) * E)) - signOf z.neg * (T * E)
      = signOf z.neg * ((N * (2 : ℚ) ^ (bitLen z.mant - z.prec) - T) * E) := by ring
  have hsabs : |signOf z.neg| = 1 := by cases z.neg <;> simp [signOf]
  rw [hfac, abs_mul, hsabs, one_mul, abs_mul, abs_of_pos hE, le_div_iff₀ hP]
  have h1 : (2 : ℚ) ^ (bitLen z.mant - z.prec - 1) * (2 : ℚ) ^ z.prec ≤ T := by
    rw [← hsplit]; exact hloQ.trans hTm
  calc |N * (2 : ℚ) ^ (bitLen z.mant - z.prec) - T| * E * (2 : ℚ) ^ z.prec
      ≤ (2 : ℚ) ^ (bitLen z.mant - z.prec - 1) * E * (2 : ℚ) ^ z.prec := by
        apply mul_le_mul_of_nonneg_right _ hP.le
        exact mul_le_mul_of_nonneg_right hb hE.le
    _ = (2 : ℚ) ^ (bitLen z.mant - z.prec - 1) * (2 : ℚ) ^ z.prec * E := by ring
    _ ≤ T * E := mul_le_mul_of_nonneg_right h1 hE.le

theorem setExpAndRound_near (z : BigFloat) (e : Int) (s j : Nat) (T : ℚ)
    (hp : 0 < z.prec) (hp32 : z.prec < 2 ^ 32) (h0 : z.mant ≠ 0) (hn : bitLen z.mant % 64 = 0)
    (hmode : z.mode = RoundingMode.ToNearestEven) (hgt : z.prec < bitLen z.mant)
    (he1 : MinExp ≤ e) (he2 : e < MaxExp)
    (hT : (s = 0 ∧ T = z.mant) ∨
      (s = 1 ∧ j < bitLen z.mant - z.prec ∧ 2 ^ j ∣ z.mant ∧ (z.mant : ℚ) < T
        ∧ T < (z.mant : ℚ) + (2 : ℚ) ^ j)) :
    ∃ r, z.setExpAndRound e s = Except.ok r ∧ r.form = Form.finite ∧ e ≤ r.exp ∧ r.exp ≤ e + 1 ∧
      |r.toRat - signOf z.neg * (T * (2 : ℚ) ^ (e - (bitLen z.mant : Int)))|
        ≤ T * (2 : ℚ) ^ (e - (bitLen z.mant : Int)) / (2 : ℚ) ^ z.prec := by
  unfold BigFloat.setExpAndRound
  rw [if_neg (by omega), if_neg (by omega)]
  exact round_near { z with form := Form.finite, exp := e } s j T
    ⟨rfl, hp, hp32, h0, hn, he1, he2.le⟩ hmode hgt he2 hT

theorem Mul_near (z x y : BigFloat) (hx : x.Valid) (hy : y.Valid)
    (hxf : x.form = Form.finite) (hyf : y.form = Form.finite) (hzp : z.prec < 2 ^ 32)
    (hm : z.mode = RoundingMode.ToNearestEven)
    (he1 : MinExp ≤ x.exp + y.exp - 1) (he2 : x.exp + y.exp < MaxExp) :
    ∃ r, z.Mul x y = Except.ok r ∧ r.form = Form.finite ∧
      |r.toRat - x.toRat * y.toRat| ≤ |x.toRat * y.toRat| / (2 : ℚ) ^ resPrec z x y ∧
      r.Valid ∧ r.prec = resPrec z x y ∧ r.mode = z.mode ∧
      x.exp + y.exp - 1 ≤ r.exp ∧ r.exp ≤ x.exp + y.exp + 1 := by
  have hmv : z.mode.isValid = true := by rw [hm]; rfl
  obtain ⟨hxp, hx0, hxn, _, _, _⟩ := hx.2.1 hxf
  obtain ⟨hyp, hy0, hyn, _, _, _⟩ := hy.2.1 hyf
  have hxy : x.mant * y.mant ≠ 0 := Nat.mul_ne_zero hx0 hy0
  obtain ⟨hf0, hfb, hfn, hfe⟩ := fnorm_norm _ hxy
  obtain ⟨hwl, hnlz, hbl⟩ := bitLen_mul_norm x.mant y.mant hx0 hy0 hxn hyn
  have hp32 := resPrec_lt z x y hx hy hzp
  have hs : (fnorm (x.mant * y.mant)).2 = nlz (x.mant * y.mant) := rfl
  have hnz : (nlz (x.mant * y.mant) : Int) = 0 ∨ (nlz (x.mant * y.mant) : Int) = 1 := by
    rcases hnlz with h | h <;> rw [h] <;> simp
  by_cases hgt : resPrec z x y < bitLen (fnorm (x.mant * y.mant)).1
  · obtain ⟨r, hr, hrf, hre1, hre2, hrv⟩ := setExpAndRound_near
      ⟨resPrec z x y, z.mode, z.acc, z.form, x.neg != y.neg, (fnorm (x.mant * y.mant)).1, z.exp⟩
      (x.exp + y.exp - ((fnorm (x.mant * y.mant)).2 : Int)) 0 0
      ((fnorm (x.mant * y.mant)).1 : ℚ)
      (resPrec_pos z x y hxp) hp32 hf0 hfn hm hgt (by rw [hs]; omega) (by rw [hs]; omega)
      (Or.inl ⟨rfl, rfl⟩)
    have hmul : z.Mul x y = Except.ok r := (Mul_finite z x y hxf hyf).trans hr
    obtain ⟨hv, hmo, hpr⟩ := Mul_valid z x y hx hy hzp hmv r hmul
    rw [hs] at hre1 hre2
    refine ⟨r, hmul, hrf, ?_, hv, hpr, hmo, by omega, by omega⟩
    have hval : signOf (x.neg != y.neg) * (((fnorm (x.mant * y.mant)).1 : ℚ)
        * (2 : ℚ) ^ (x.exp + y.exp - ((fnorm (x.mant * y.mant)).2 : Int)
          - (bitLen (fnorm (x.mant * y.mant)).1 : Int))) = x.toRat * y.toRat := by
      rw [toRat_finite x hxf, toRat_finite y hyf]
      simp only [signOf_xor, hs]
      rw [hfb, hwl, hfe]
      have e1 : x.exp + y.exp - (nlz (x.mant * y.mant) : Int)
          - ((bitLen x.mant + bitLen y.mant : Nat) : Int)
          = (x.exp - (bitLen x.mant : Int)) + (y.exp - (bitLen y.mant : Int))
            - (nlz (x.mant * y.mant) : Int) := by
        push_cast; ring
      rw [e1, zpow_sub₀ (by norm_num : (2 : ℚ) ≠ 0), zpow_add₀ (by norm_num : (2 : ℚ) ≠ 0),
        zpow_natCast]
      push_cast
      field_simp
      ring
    have hsabs : |signOf (x.neg != y.neg)| = 1 := by
      cases (x.neg != y.neg) <;> simp [signOf]
    have hnn : (0 : ℚ) ≤ ((fnorm (x.mant * y.mant)).1 : ℚ)
        * (2 : ℚ) ^ (x.exp + y.exp - ((fnorm (x.mant * y.mant)).2 : Int)
          - (bitLen (fnorm (x.mant * y.mant)).1 : Int)) := by positivity
    simp only at hrv
    rw [← hval, abs_mul, hsabs, one_mul, abs_of_nonneg hnn]
    exact hrv
  · have hfit : fitsIn (x.mant * y.mant) (resPrec z x y) := by
      apply fitsIn_of_le
      have := Nat.le_add_right (bitLen (x.mant * y.mant)) (nlz (x.mant * y.mant))
      rw [hfb, hwl] at hgt
      omega
    obtain ⟨r, hr, hrf, hrv, hv, hpr, hmo, _, _, hre⟩ := Mul_exact z x y hx hy hxf hyf hzp hmv hfit
      (by omega) (by omega)
    refine ⟨r, hr, hrf, ?_, hv, hpr, hmo, by omega, by omega⟩
    rw [hrv, sub_self, abs_zero]
    positivity

theorem Quo_near (z x y : BigFloat) (hx : x.Valid) (hy : y.Valid)
    (hxf : x.form = Form.finite) (hyf : y.form = Form.finite) (hzp : z.prec < 2 ^ 32)
    (hm : z.mode = RoundingMode.ToNearestEven)
    (he1 : MinExp ≤ x.exp - y.exp) (he2 : x.exp - y.exp + 1 < MaxExp) :
    ∃ r, z.Quo x y = Except.ok r ∧ r.form = Form.finite ∧
      |r.toRat - x.toRat / y.toRat| ≤ |x.toRat / y.toRat| / (2 : ℚ) ^ resPrec z x y ∧
      r.Valid ∧ r.prec = resPrec z x y ∧ r.mode = z.mode ∧
      x.exp - y.exp ≤ r.exp ∧ r.exp ≤ x.exp - y.exp + 2 := by
  have hmv : z.mode.isValid = true := by rw [hm]; rfl
  obtain ⟨hxp, hx0, hxn, _, _, _⟩ := hx.2.1 hxf
  obtain ⟨hyp, hy0, hyn, _, _, _⟩ := hy.2.1 hyf
  have hp32 := resPrec_lt z x y hx hy hzp
  have hq0 : x.mant * 2 ^ (64 * quoShift (resPrec z x y) (wordLen x.mant) (wordLen y.mant))
      / y.mant ≠ 0 :=
    uquo_quotient_ne_zero x.mant y.mant (resPrec z x y / 64) hx0 hy0 hxn hyn
  have hddv : wordLen x.mant + quoShift (resPrec z x y) (wordLen x.mant) (wordLen y.mant)
      - wordLen y.mant ≥ resPrec z x y / 64 + 1 := by
    unfold quoShift; omega
  generalize hdd : quoShift (resPrec z x y) (wordLen x.mant) (wordLen y.mant) = dd at hq0 hddv
  have hquo : z.Quo x y = _ := (Quo_finite z x y hxf hyf).trans (uquo_eq (receiver z x y) x y)
  simp only [receiver, hdd] at hquo
  have hgtw : wordLen y.mant < wordLen x.mant + dd := by
    rw [← hdd]; exact quoShift_gt _ _ _
  obtain ⟨hf0, hfb, hfn, hfe⟩ := fnorm_norm _ hq0
  have hbl := quo_bitLen x.mant y.mant dd hx0 hy0 hxn hyn hgtw
  have hypos : 0 < y.mant := Nat.pos_of_ne_zero hy0
  have hyQ : (0 : ℚ) < (y.mant : ℚ) := by exact_mod_cast hypos
  have hdm := Nat.div_add_mod (x.mant * 2 ^ (64 * dd)) y.mant
  have hml := Nat.mod_lt (x.mant * 2 ^ (64 * dd)) hypos
  have hdmQ : (y.mant : ℚ) * ((x.mant * 2 ^ (64 * dd) / y.mant : Nat) : ℚ)
      + ((x.mant * 2 ^ (64 * dd) % y.mant : Nat) : ℚ) = ((x.mant * 2 ^ (64 * dd) : Nat) : ℚ) := by
    exact_mod_cast hdm
  have hmlQ : ((x.mant * 2 ^ (64 * dd) % y.mant : Nat) : ℚ) < (y.mant : ℚ) := by
    exact_mod_cast hml
  have hX : ((x.mant * 2 ^ (64 * dd) : Nat) : ℚ) / (y.mant : ℚ)
      = ((x.mant * 2 ^ (64 * dd) / y.mant : Nat) : ℚ)
        + ((x.mant * 2 ^ (64 * dd) % y.mant : Nat) : ℚ) / (y.mant : ℚ) := by
    rw [← hdmQ]; field_simp; ring
  have hgt : resPrec z x y < bitLen (fnorm (x.mant * 2 ^ (64 * dd) / y.mant)).1 := by
    rw [hfb]
    rcases hbl with ⟨h1, _⟩ | ⟨h1, _⟩ <;> rw [h1] <;> omega
  have hT : ((if x.mant * 2 ^ (64 * dd) % y.mant = 0 then 0 else 1) = 0 ∧
        ((x.mant * 2 ^ (64 * dd) : Nat) : ℚ) / (y.mant : ℚ)
          * (2 : ℚ) ^ nlz (x.mant * 2 ^ (64 * dd) / y.mant)
        = ((fnorm (x.mant * 2 ^ (64 * dd) / y.mant)).1 : ℚ)) ∨
      ((if x.mant * 2 ^ (64 * dd) % y.mant = 0 then 0 else 1) = 1 ∧
        nlz (x.mant * 2 ^ (64 * dd) / y.mant)
          < bitLen (fnorm (x.mant * 2 ^ (64 * dd) / y.mant)).1 - resPrec z x y ∧
        2 ^ nlz (x.mant * 2 ^ (64 * dd) / y.mant) ∣ (fnorm (x.mant * 2 ^ (64 * dd) / y.mant)).1 ∧
        ((fnorm (x.mant * 2 ^ (64 * dd) / y.mant)).1 : ℚ)
          < ((x.mant * 2 ^ (64 * dd) : Nat) : ℚ) / (y.mant : ℚ)
            * (2 : ℚ) ^ nlz (x.mant * 2 ^ (64 * dd) / y.mant) ∧
        ((x.mant * 2 ^ (64 * dd) : Nat) : ℚ) / (y.mant : ℚ)
            * (2 : ℚ) ^ nlz (x.mant * 2 ^ (64 * dd) / y.mant)
          < ((fnorm (x.mant * 2 ^ (64 * dd) / y.mant)).1 : ℚ)
            + (2 : ℚ) ^ nlz (x.mant * 2 ^ (64 * dd) / y.mant)) := by
    have h2pos : (0 : ℚ) < (2 : ℚ) ^ nlz (x.mant * 2 ^ (64 * dd) / y.mant) := by positivity
    by_cases hrem : x.mant * 2 ^ (64 * dd) % y.mant = 0
    · left
      refine ⟨if_pos hrem, ?_⟩
      rw [hX, hrem, hfe]
      push_cast
      simp
    · right
      have hr1 : (0 : ℚ) < ((x.mant * 2 ^ (64 * dd) % y.mant : Nat) : ℚ) := by
        exact_mod_cast Nat.pos_of_ne_zero hrem
      have hfr0 : (0 : ℚ) < ((x.mant * 2 ^ (64 * dd) % y.mant : Nat) : ℚ) / (y.mant : ℚ) :=
        div_pos hr1 hyQ
      have hfr1 : ((x.mant * 2 ^ (64 * dd) % y.mant : Nat) : ℚ) / (y.mant : ℚ) < 1 := by
        rw [div_lt_one hyQ]; exact hmlQ
      refine ⟨if_neg hrem, ?_, ?_, ?_, ?_⟩
      · rw [hfb]
        rcases hbl with ⟨h1, h2⟩ | ⟨h1, h2⟩ <;> rw [h1, h2] <;> omega
      · rw [hfe]; exact Dvd.intro_left _ rfl
      · rw [hX, hfe]
        push_cast
        nlinarith
      · rw [hX, hfe]
        push_cast
        nlinarith
  obtain ⟨r, hr, hrf, hre1, hre2, hrv⟩ := setExpAndRound_near
    ⟨resPrec z x y, z.mode, z.acc, z.form, x.neg != y.neg,
      (fnorm (x.mant * 2 ^ (64 * dd) / y.mant)).1, z.exp⟩
    (x.exp - y.exp
      - (((wordLen x.mant + dd - wordLen y.mant : Nat) : Int)
          - (wordLen (x.mant * 2 ^ (64 * dd) / y.mant) : Int)) * (64 : Nat)
      - (nlz (x.mant * 2 ^ (64 * dd) / y.mant) : Int))
    (if x.mant * 2 ^ (64 * dd) % y.mant = 0 then 0 else 1)
    (nlz (x.mant * 2 ^ (64 * dd) / y.mant))
    (((x.mant * 2 ^ (64 * dd) : Nat) : ℚ) / (y.mant : ℚ)
          * (2 : ℚ) ^ nlz (x.mant * 2 ^ (64 * dd) / y.mant))
    (resPrec_pos z x y hxp) hp32 hf0 hfn hm hgt
    (by rcases hbl with ⟨h1, h2⟩ | ⟨h1, h2⟩ <;> rw [h1, h2] <;> push_cast <;> omega)
    (by rcases hbl with ⟨h1, h2⟩ | ⟨h1, h2⟩ <;> rw [h1, h2] <;> push_cast <;> omega) hT
  rw [hr] at hquo
  obtain ⟨hv, hmo, hpr⟩ := Quo_valid z x y hx hy hzp hmv r hquo
  refine ⟨r, hquo, hrf, ?_, hv, hpr, hmo, ?_, ?_⟩
  · have hxw := wordLen_of_norm x.mant hxn
    have hyw := wordLen_of_norm y.mant hyn
    have hval : signOf (x.neg != y.neg) * (((x.mant * 2 ^ (64 * dd) : Nat) : ℚ) / (y.mant : ℚ)
          * (2 : ℚ) ^ nlz (x.mant * 2 ^ (64 * dd) / y.mant)
        * (2 : ℚ) ^ (x.exp - y.exp
          - (((wordLen x.mant + dd - wordLen y.mant : Nat) : Int)
              - (wordLen (x.mant * 2 ^ (64 * dd) / y.mant) : Int)) * (64 : Nat)
          - (nlz (x.mant * 2 ^ (64 * dd) / y.mant) : Int)
          - (bitLen (fnorm (x.mant * 2 ^ (64 * dd) / y.mant)).1 : Int)))
        = x.toRat / y.toRat := by
      rw [toRat_finite x hxf, toRat_finite y hyf]
      simp only [signOf_xor]
      rw [hfb]
      have hy0' : (y.mant : ℚ) ≠ 0 := hyQ.ne'
      have hsy : signOf y.neg ≠ 0 := by cases y.neg <;> simp [signOf]
      have hsy2 : signOf y.neg * signOf y.neg = 1 := by cases y.neg <;> simp [signOf]
      have e1 : x.exp - y.exp
          - (((wordLen x.mant + dd - wordLen y.mant : Nat) : Int)
              - (wordLen (x.mant * 2 ^ (64 * dd) / y.mant) : Int)) * (64 : Nat)
          - (nlz (x.mant * 2 ^ (64 * dd) / y.mant) : Int)
          - ((wordLen (x.mant * 2 ^ (64 * dd) / y.mant) * 64 : Nat) : Int)
          = (x.exp - (bitLen x.mant : Int)) - (y.exp - (bitLen y.mant : Int))
            - ((64 * dd : Nat) : Int) - (nlz (x.mant * 2 ^ (64 * dd) / y.mant) : Int) := by
        rw [← hxw, ← hyw]
        push_cast [Nat.cast_sub hgtw.le]
        ring
      rw [e1, zpow_sub₀ (by norm_num : (2 : ℚ) ≠ 0), zpow_sub₀ (by norm_num : (2 : ℚ) ≠ 0),
        zpow_sub₀ (by norm_num : (2 : ℚ) ≠ 0), zpow_natCast, zpow_natCast]
      push_cast
      field_simp
      ring_nf
      rw [show signOf y.neg ^ 2 = 1 by rw [pow_two]; exact hsy2]
      ring
    have hsabs : |signOf (x.neg != y.neg)| = 1 := by
      cases (x.neg != y.neg) <;> simp [signOf]
    have hnn : (0 : ℚ) ≤ ((x.mant * 2 ^ (64 * dd) : Nat) : ℚ) / (y.mant : ℚ)
          * (2 : ℚ) ^ nlz (x.mant * 2 ^ (64 * dd) / y.mant)
        * (2 : ℚ) ^ (x.exp - y.exp
          - (((wordLen x.mant + dd - wordLen y.mant : Nat) : Int)
              - (wordLen (x.mant * 2 ^ (64 * dd) / y.mant) : Int)) * (64 : Nat)
          - (nlz (x.mant * 2 ^ (64 * dd) / y.mant) : Int)
          - (bitLen (fnorm (x.mant * 2 ^ (64 * dd) / y.mant)).1 : Int)) := by positivity
    simp only at hrv
    rw [← hval, abs_mul, hsabs, one_mul, abs_of_nonneg hnn]
    exact hrv
  · rcases hbl with ⟨h1, h2⟩ | ⟨h1, h2⟩ <;> rw [h1, h2] at hre1 <;> push_cast at hre1 <;> omega
  · rcases hbl with ⟨h1, h2⟩ | ⟨h1, h2⟩ <;> rw [h1, h2] at hre2 <;> push_cast at hre2 <;> omega


/-! ## The mean tick -/

theorem SetInt_near (x : Int) (hx : x ≠ 0) (hb : x.natAbs < 2 ^ 2 ^ 30) :
    ∃ r, zero53.SetInt x = Except.ok r ∧ r.form = Form.finite ∧ r.Valid ∧ r.prec = 53 ∧
      |r.toRat - (x : ℚ)| ≤ |(x : ℚ)| / (2 : ℚ) ^ 53 ∧
      (x.natAbs ≤ 2 ^ 53 → r.toRat = (x : ℚ) ∧ r.acc = Accuracy.Exact) ∧
      1 ≤ r.exp ∧ r.exp ≤ 2 ^ 30 + 1 := by
  have hn : x.natAbs ≠ 0 := Int.natAbs_ne_zero.2 hx
  obtain ⟨hf0, hfb, hfn, hfe⟩ := fnorm_norm _ hn
  have hbl : bitLen x.natAbs ≤ 2 ^ 30 := (bitLen_le_iff _ _).2 hb
  have hbp := bitLen_pos x.natAbs hn
  have hgt : 53 < bitLen (fnorm x.natAbs).1 := by
    rw [hfb]
    have : 0 < wordLen x.natAbs := by unfold wordLen wordBits; omega
    omega
  have hset : zero53.SetInt x = BigFloat.setExpAndRound
      ⟨53, RoundingMode.ToNearestEven, Accuracy.Exact, Form.zero, decide (x < 0),
        (fnorm x.natAbs).1, 0⟩ (bitLen x.natAbs) 0 := by
    simp only [BigFloat.SetInt, zero53, hx, if_false]
    rfl
  obtain ⟨r, hr, hrf, hre1, hre2, hrv⟩ := setExpAndRound_near
    ⟨53, RoundingMode.ToNearestEven, Accuracy.Exact, Form.zero, decide (x < 0),
      (fnorm x.natAbs).1, 0⟩ (bitLen x.natAbs) 0 0 ((fnorm x.natAbs).1 : ℚ)
    (show 0 < 53 by decide) (show 53 < 2 ^ 32 by decide) hf0 hfn rfl hgt
    (by simp only [MinExp]; omega) (by simp only [MaxExp]; omega) (Or.inl ⟨rfl, rfl⟩)
  obtain ⟨r', hr', hv, hpr, _, _⟩ := setExpAndRound_valid
    ⟨53, RoundingMode.ToNearestEven, Accuracy.Exact, Form.zero, decide (x < 0),
      (fnorm x.natAbs).1, 0⟩ (bitLen x.natAbs) 0 (show 0 < 53 by decide)
    (show 53 < 2 ^ 32 by decide) hf0 hfn rfl
  rw [hr] at hr'
  cases hr'
  have hnl : bitLen (fnorm x.natAbs).1 = bitLen x.natAbs + nlz x.natAbs := by
    rw [hfe, bitLen_mul_two_pow _ _ hn]
  have habs : ((x.natAbs : Nat) : ℚ) = |(x : ℚ)| := by
    rw [Nat.cast_natAbs]; push_cast; rfl
  have hsign : signOf (decide (x < 0)) * |(x : ℚ)| = (x : ℚ) := by
    by_cases hneg : x < 0
    · have : (x : ℚ) < 0 := by exact_mod_cast hneg
      simp only [hneg, decide_True, signOf, if_true, abs_of_neg this]
      ring
    · have : (0 : ℚ) ≤ (x : ℚ) := by exact_mod_cast (not_lt.1 hneg)
      simp only [hneg, decide_False, signOf, Bool.false_eq_true, if_false, abs_of_nonneg this]
      ring
  have hval : ((fnorm x.natAbs).1 : ℚ)
      * (2 : ℚ) ^ ((bitLen x.natAbs : Int) - (bitLen (fnorm x.natAbs).1 : Int)) = |(x : ℚ)| := by
    rw [hnl, hfe, ← habs]
    push_cast
    rw [show (bitLen x.natAbs : Int) - ((bitLen x.natAbs : Int) + (nlz x.natAbs : Int))
      = -(nlz x.natAbs : Int) by ring, zpow_neg, zpow_natCast]
    field_simp
  simp only at hrv hre1 hre2
  rw [hval, hsign] at hrv
  refine ⟨r, hset.trans hr, hrf, hv, hpr, hrv, ?_, by omega, by omega⟩
  intro h53
  have hfit0 : fitsIn x.natAbs 53 := by
    rcases Nat.lt_or_ge x.natAbs (2 ^ 53) with hlt | hge
    · exact fitsIn_of_le _ _ ((bitLen_le_iff _ _).2 hlt)
    · have : x.natAbs = 2 ^ 53 := le_antisymm h53 hge
      rw [this]; exact fitsIn_two_pow 53 53 (by decide)
  have hfit : fitsIn (fnorm x.natAbs).1 53 := by
    rw [hfe]; exact fitsIn_mul_two_pow _ _ _ hn hfit0
  have hex := setExpAndRound_exact
    ⟨53, RoundingMode.ToNearestEven, Accuracy.Exact, Form.zero, decide (x < 0),
      (fnorm x.natAbs).1, 0⟩ (bitLen x.natAbs) (show 0 < 53 by decide)
    (show 53 < 2 ^ 32 by decide) hf0 hfn (by simp only [MinExp]; omega)
    (by simp only [MaxExp]; omega) hfit
  rw [hr] at hex
  cases hex
  refine ⟨?_, rfl⟩
  rw [toRat_cut _ _ _ _ _ _ hf0 hfn hfit, hval, hsign]

theorem SetInt64_exp (w : Nat) (h0 : 0 < w) (h32 : w < 2 ^ 32) (y : BigFloat)
    (hy : zero53.SetInt64 (w : Int) = Except.ok y) : 1 ≤ y.exp ∧ y.exp ≤ 32 := by
  have hw0 : w ≠ 0 := by omega
  have hbl : bitLen w ≤ 32 := (bitLen_le_iff w 32).2 h32
  have hbp := bitLen_pos w hw0
  have hb64 : bitLen (w <<< (64 - bitLen w)) = 64 := by
    rw [Nat.shiftLeft_eq, bitLen_mul_two_pow w _ hw0]; omega
  have hm0 : w <<< (64 - bitLen w) ≠ 0 := by
    rw [Nat.shiftLeft_eq]; exact Nat.mul_ne_zero hw0 (Nat.two_pow_pos _).ne'
  have hfit : fitsIn (w <<< (64 - bitLen w)) 53 := by
    rw [Nat.shiftLeft_eq]
    exact fitsIn_mul_two_pow w 53 _ hw0 (fitsIn_of_le w 53 (by omega))
  have hN : BigFloat.Normal ⟨53, RoundingMode.ToNearestEven, Accuracy.Exact, Form.finite, false,
      w <<< (64 - bitLen w), 64 - ((64 - bitLen w : Nat) : Int)⟩ := by
    refine ⟨rfl, ?_, ?_, hm0, ?_, ?_, ?_⟩
    · show 0 < 53; decide
    · show 53 < 2 ^ 32; decide
    · simp only [hb64]
    · simp only [MinExp]; omega
    · simp only [MaxExp]; omega
  have hr := round_exact _ hN hfit
  have hset : zero53.SetInt64 (w : Int) = Except.ok
      ⟨53, RoundingMode.ToNearestEven, Accuracy.Exact, Form.finite, false,
        cutMant 53 (w <<< (64 - bitLen w)), 64 - ((64 - bitLen w : Nat) : Int)⟩ := by
    simp only [BigFloat.SetInt64, BigFloat.setBits64, zero53, Int.natAbs_ofNat, hw0,
      if_false, Nat.reduceLT, if_true]
    have : ¬ ((w : Int) < 0) := by omega
    simp only [this, decide_False]
    exact hr
  rw [hset] at hy
  cases hy
  simp only
  omega

/-- C7 (amended). Mean tick derivation, for a window `w` that is not zero: the value
`ticks` is the difference of the two cumulative ticks rounded to the 53 bits of its
receiver `big.NewFloat(0)`, so it is the exact difference whenever that has
magnitude at most `2^53` and otherwise within `|delta| / 2^53` of it; `meanTick` is
the quotient `ticks / w` correctly rounded to 53 bits, a non-truncating division
(within `|ticks / w| / 2^53` of the quotient); a difference of 3 over a window of 2
gives exactly 1.5. -/
theorem meanTickOf_rounded (w : Nat) (c0 c1 : Int) (h0 : 0 < w) (h32 : w < 2 ^ 32)
    (hb : (c1 - c0).natAbs < 2 ^ 2 ^ 30) :
    ∃ t m, ticksOf c0 c1 = Except.ok t ∧ meanTickOf w c0 c1 = Except.ok m ∧
      |t.toRat - ((c1 - c0 : Int) : ℚ)| ≤ |((c1 - c0 : Int) : ℚ)| / (2 : ℚ) ^ 53 ∧
      ((c1 - c0).natAbs ≤ 2 ^ 53 → t.toRat = ((c1 - c0 : Int) : ℚ) ∧
        |m.toRat - ((c1 - c0 : Int) : ℚ) / (w : ℚ)|
          ≤ |((c1 - c0 : Int) : ℚ) / (w : ℚ)| / (2 : ℚ) ^ 53) ∧
      |m.toRat - t.toRat / (w : ℚ)| ≤ |t.toRat / (w : ℚ)| / (2 : ℚ) ^ 53 ∧
      (∃ m', meanTickOf 2 0 3 = Except.ok m' ∧ m'.toRat = 3 / 2) := by
  have hex : ∃ m', meanTickOf 2 0 3 = Except.ok m' ∧ m'.toRat = 3 / 2 := by
    obtain ⟨x, hx, _, _, hv, _⟩ := of_returnsDyadic (meanTickOf 2 0 3) 3 1 Accuracy.Exact
      (by decide)
    exact ⟨x, hx, by rw [hv]; norm_num⟩
  have hz53 : zero53.toRat = 0 := by simp [BigFloat.toRat, zero53]
  by_cases hd : c1 - c0 = 0
  · have hc : c1 = c0 := by omega
    subst hc
    have hm := meanTickOf_equal w c1 h0 h32
    refine ⟨zero53, zero53, ?_, hm, ?_, ?_, ?_, hex⟩
    · simp only [ticksOf, NewFloat_zero, bind, Except.bind, sub_self]
      rfl
    · simp [hz53]
    · intro _
      simp [hz53]
    · simp [hz53]
  · obtain ⟨t, ht, htf, htV, htp, htn, htx, hte1, hte2⟩ := SetInt_near (c1 - c0) hd hb
    obtain ⟨y, hy, hyf, hyV, hyv, _⟩ := SetInt64_window w h0 h32
    obtain ⟨hye1, hye2⟩ := SetInt64_exp w h0 h32 y hy
    obtain ⟨m, hm, _, hmv, _⟩ := Quo_near zero53 t y htV hyV htf hyf (by decide) rfl
      (by simp only [MinExp]; omega) (by simp only [MaxExp]; omega)
    have hrp : resPrec zero53 t y = 53 := rfl
    rw [hrp, hyv] at hmv
    refine ⟨t, m, ?_, ?_, htn, ?_, hmv, hex⟩
    · simp only [ticksOf, NewFloat_zero, bind, Except.bind, ht]
    · simp only [meanTickOf, ticksOf, NewFloat_zero, bind, Except.bind, ht, hy, hm]
    · intro h53
      have := (htx h53).1
      refine ⟨this, ?_⟩
      rw [← this]
      exact hmv

/-- A difference of 3 over a window of 2 seconds. -/
theorem meanTickOf_rounded_witness :
    ∃ t m, ticksOf 0 3 = Except.ok t ∧ meanTickOf 2 0 3 = Except.ok m ∧
      |t.toRat - (((3 : Int) - 0 : Int) : ℚ)| ≤ |(((3 : Int) - 0 : Int) : ℚ)| / (2 : ℚ) ^ 53 ∧
      (((3 : Int) - 0).natAbs ≤ 2 ^ 53 → t.toRat = (((3 : Int) - 0 : Int) : ℚ) ∧
        |m.toRat - (((3 : Int) - 0 : Int) : ℚ) / ((2 : Nat) : ℚ)|
          ≤ |(((3 : Int) - 0 : Int) : ℚ) / ((2 : Nat) : ℚ)| / (2 : ℚ) ^ 53) ∧
      |m.toRat - t.toRat / ((2 : Nat) : ℚ)| ≤ |t.toRat / ((2 : Nat) : ℚ)| / (2 : ℚ) ^ 53 ∧
      (∃ m', meanTickOf 2 0 3 = Except.ok m' ∧ m'.toRat = 3 / 2) :=
  meanTickOf_rounded 2 0 3 (by decide) (by decide)
    (lt_of_lt_of_le (show ((3 : Int) - 0).natAbs < 2 ^ 2 by decide)
      (Nat.pow_le_pow_right (by decide) (by decide)))

/-- C7 (as stated, refuted). Cumulative ticks `0` and `2^53 + 1`: the value `ticks`
is `2^53`, not the exact difference (its receiver `big.NewFloat(0)` has 53 bits of
precision, accuracy `Below`), and with a window of one second `meanTick` is `2^53`,
not `delta / w`. -/
theorem meanTickOf_wide_delta_counterexample :
    ∃ t m, ticksOf 0 9007199254740993 = Except.ok t ∧ t.acc = Accuracy.Below ∧
      t.toRat = 9007199254740992 ∧ t.toRat ≠ (((9007199254740993 : Int) - 0 : Int) : ℚ) ∧
      meanTickOf 1 0 9007199254740993 = Except.ok m ∧ m.toRat = 9007199254740992 ∧
      m.toRat ≠ (((9007199254740993 : Int) - 0 : Int) : ℚ) / ((1 : Nat) : ℚ) := by
  obtain ⟨t, ht, _, _, htv, hta⟩ := of_returnsDyadic (ticksOf 0 9007199254740993)
    9007199254740992 0 Accuracy.Below (by decide)
  obtain ⟨m, hm, _, _, hmv, _⟩ := of_returnsDyadic (meanTickOf 1 0 9007199254740993)
    9007199254740992 0 Accuracy.Exact (by decide)
  refine ⟨t, m, ht, hta, ?_, ?_, hm, ?_, ?_⟩
  · rw [htv]; norm_num
  · rw [htv]; norm_num
  · rw [hmv]; norm_num
  · rw [hmv]; norm_num


/-! ## Orientation and scaling of the price -/

theorem div_two_pow_le (X : ℚ) (a b : Nat) (hX : 0 ≤ X) (h : a ≤ b) :
    X / (2 : ℚ) ^ b ≤ X / (2 : ℚ) ^ a := by
  apply div_le_div_of_nonneg_left hX (by positivity)
  exact pow_le_pow_right₀ (by norm_num) h

theorem two_roundings (v q d p : ℚ) (a b : Nat) (ha : 193 ≤ a) (hb : 193 ≤ b)
    (h1 : |q - v| ≤ |v| / (2 : ℚ) ^ a) (h2 : |p - q * d| ≤ |q * d| / (2 : ℚ) ^ b) :
    |p - v * d| ≤ |v * d| / (2 : ℚ) ^ 191 := by
  have h1' : |q - v| ≤ |v| / (2 : ℚ) ^ 193 :=
    h1.trans (div_two_pow_le _ _ _ (abs_nonneg _) ha)
  have h2' : |p - q * d| ≤ |q * d| / (2 : ℚ) ^ 193 :=
    h2.trans (div_two_pow_le _ _ _ (abs_nonneg _) hb)
  rw [abs_mul] at h2' ⊢
  have hV := abs_nonneg v
  have hD := abs_nonneg d
  have hq : |q| ≤ |v| + |v| / (2 : ℚ) ^ 193 := by
    have := abs_sub_abs_le_abs_sub q v
    linarith
  have htri : |p - v * d| ≤ |p - q * d| + |q * d - v * d| := abs_sub_le p (q * d) (v * d)
  have hB : |q * d - v * d| = |q - v| * |d| := by rw [← sub_mul, abs_mul]
  have hB' : |q - v| * |d| ≤ |v| / (2 : ℚ) ^ 193 * |d| := mul_le_mul_of_nonneg_right h1' hD
  have hA : |q| * |d| / (2 : ℚ) ^ 193 ≤ (|v| + |v| / (2 : ℚ) ^ 193) * |d| / (2 : ℚ) ^ 193 := by
    apply div_le_div_of_nonneg_right _ (by positivity)
    exact mul_le_mul_of_nonneg_right hq hD
  have hVD : 0 ≤ |v| * |d| := mul_nonneg hV hD
  have hfin : (|v| + |v| / (2 : ℚ) ^ 193) * |d| / (2 : ℚ) ^ 193 + |v| / (2 : ℚ) ^ 193 * |d|
      ≤ |v| * |d| / (2 : ℚ) ^ 191 := by
    have e : (|v| + |v| / (2 : ℚ) ^ 193) * |d| / (2 : ℚ) ^ 193 + |v| / (2 : ℚ) ^ 193 * |d|
        = |v| * |d| * ((2 + 1 / (2 : ℚ) ^ 193) / (2 : ℚ) ^ 193) := by
      field_simp; ring
    have e2 : |v| * |d| / (2 : ℚ) ^ 191 = |v| * |d| * (1 / (2 : ℚ) ^ 191) := by ring
    rw [e, e2]
    apply mul_le_mul_of_nonneg_left _ hVD
    norm_num
  linarith

theorem toRat_ne_zero (x : BigFloat) (hx : x.Valid) (hf : x.form = Form.finite) :
    x.toRat ≠ 0 := by
  obtain ⟨_, h0, _, _, _, _⟩ := hx.2.1 hf
  rw [toRat_finite x hf]
  have h1 : signOf x.neg ≠ 0 := by cases x.neg <;> simp [signOf]
  have h2 : (x.mant : ℚ) ≠ 0 := by exact_mod_cast h0
  have h3 : (2 : ℚ) ^ (x.exp - (bitLen x.mant : Int)) ≠ 0 := by positivity
  exact mul_ne_zero (mul_ne_zero h1 h2) h3

theorem priceOfMeanTick_near (lib : Bigfloat) (base : Bool) (d tick s : BigFloat)
    (hsq : getSqrtRatioAtTick lib tick = Except.ok s) (hsV : s.Valid)
    (hsf : s.form = Form.finite) (hse1 : -(2 ^ 28) ≤ s.exp) (hse2 : s.exp ≤ 2 ^ 28)
    (hdV : d.Valid) (hdf : d.form = Form.finite) (hde1 : -(2 ^ 28) ≤ d.exp)
    (hde2 : d.exp ≤ 2 ^ 28) :
    ∃ ratio quo price,
      BigFloat.new.Mul s s = Except.ok ratio ∧
      BigFloat.new.Quo (if base then ratio else two192) (if base then two192 else ratio)
        = Except.ok quo ∧
      BigFloat.new.Mul quo d = Except.ok price ∧
      priceOfMeanTick lib base d tick = Except.ok price ∧
      ratio.toRat ≠ 0 ∧
      |ratio.toRat - s.toRat * s.toRat| ≤ |s.toRat * s.toRat| / (2 : ℚ) ^ s.prec ∧
      |price.toRat - (if base then ratio.toRat / (2 : ℚ) ^ 192 else (2 : ℚ) ^ 192 / ratio.toRat)
          * d.toRat|
        ≤ |(if base then ratio.toRat / (2 : ℚ) ^ 192 else (2 : ℚ) ^ 192 / ratio.toRat)
          * d.toRat| / (2 : ℚ) ^ 191 := by
  obtain ⟨hnp, hnm, _⟩ := new_prec_mode
  have hmode : BigFloat.new.mode = RoundingMode.ToNearestEven := rfl
  have hzp : BigFloat.new.prec < 2 ^ 32 := by decide
  obtain ⟨tV, tf, tv⟩ := two192_valid
  have te : two192.exp = 193 := rfl
  have tp : two192.prec = 193 := rfl
  have tv' : two192.toRat = (2 : ℚ) ^ 192 := by rw [tv]; norm_num
  simp only [MinExp, MaxExp] at *
  obtain ⟨ratio, hr, hrf, hrv, hrV, hrp, _, hre1, hre2⟩ := Mul_near BigFloat.new s s hsV hsV hsf hsf
    hzp hmode (by simp only [MinExp]; omega) (by simp only [MaxExp]; omega)
  rw [resPrec_new, max_self] at hrv
  have hr0 := toRat_ne_zero ratio hrV hrf
  cases base with
  | true =>
    obtain ⟨q, hq, hqf, hqv, hqV, hqp, _, hqe1, hqe2⟩ := Quo_near BigFloat.new ratio two192 hrV tV
      hrf tf hzp hmode (by simp only [MinExp]; omega) (by simp only [MaxExp]; omega)
    obtain ⟨p, hp, hpf, hpv, hpV, hpp, _, _, _⟩ := Mul_near BigFloat.new q d hqV hdV hqf hdf
      hzp hmode (by simp only [MinExp]; omega) (by simp only [MaxExp]; omega)
    rw [resPrec_new, tp, tv'] at hqv
    rw [resPrec_new, hqp, resPrec_new, tp] at hpv
    refine ⟨ratio, q, p, hr, hq, hp, ?_, hr0, hrv, ?_⟩
    · simp only [priceOfMeanTick, hsq, bind, Except.bind, hr, SetInt_two192, if_true, hq, hp]
    · simp only [if_true]
      exact two_roundings _ _ _ _ _ _ (le_max_right _ _)
        (le_trans (le_max_right _ _) (le_max_left _ _)) hqv hpv
  | false =>
    obtain ⟨q, hq, hqf, hqv, hqV, hqp, _, hqe1, hqe2⟩ := Quo_near BigFloat.new two192 ratio tV hrV
      tf hrf hzp hmode (by simp only [MinExp]; omega) (by simp only [MaxExp]; omega)
    obtain ⟨p, hp, hpf, hpv, hpV, hpp, _, _, _⟩ := Mul_near BigFloat.new q d hqV hdV hqf hdf
      hzp hmode (by simp only [MinExp]; omega) (by simp only [MaxExp]; omega)
    rw [resPrec_new, tp, tv'] at hqv
    rw [resPrec_new, hqp, resPrec_new, tp] at hpv
    refine ⟨ratio, q, p, hr, hq, hp, ?_, hr0, hrv, ?_⟩
    · simp only [priceOfMeanTick, hsq, bind, Except.bind, hr, SetInt_two192, Bool.false_eq_true,
        if_false, hq, hp]
    · simp only [Bool.false_eq_true, if_false]
      exact two_roundings _ _ _ _ _ _ (le_max_left _ _)
        (le_trans (le_max_left _ _) (le_max_left _ _)) hqv hpv

theorem round_total (z : BigFloat) (s : Nat) (hm : z.mode = RoundingMode.ToNearestEven) :
    ∃ r, z.round s = Except.ok r := by
  unfold BigFloat.round
  simp only [hm, roundInc]
  split_ifs <;> exact ⟨_, rfl⟩

theorem Mul_self_total (s : BigFloat) : ∃ ratio, BigFloat.new.Mul s s = Except.ok ratio := by
  by_cases hf : s.form = Form.finite
  · rw [Mul_finite _ _ _ hf hf]
    unfold BigFloat.umul BigFloat.setExpAndRound
    dsimp only
    split_ifs
    · exact ⟨_, rfl⟩
    · exact ⟨_, rfl⟩
    · exact round_total _ _ rfl
  · unfold BigFloat.Mul
    dsimp only
    rw [if_neg (by simp [hf])]
    have h1 : ¬ ((s.form = Form.zero ∧ s.form = Form.inf) ∨ (s.form = Form.inf ∧ s.form = Form.zero)) := by
      rintro (⟨a, b⟩ | ⟨a, b⟩) <;> rw [a] at b <;> cases b
    rw [if_neg h1]
    split_ifs <;> exact ⟨_, rfl⟩

theorem getPrice_result (lib : Bigfloat) (node : Node) (delays : Delays) (now : Int)
    (us : UniswapSource) (handle : Nat) (c0 c1 : Int)
    (hp : us.poolInstance = some handle) (hs0 : node.Slot0 now = Except.ok ())
    (ho : node.Observe (observeTime us delays now) us.averagingInterval 0 = Except.ok (c0, c1)) :
    (getPrice lib node delays now us).result
      = orPanic (meanTickOf us.averagingInterval c0 c1
          >>= priceOfMeanTick lib us.token0IsBase us.priceDecimalsMult) := by
  simp only [getPrice, hp, hs0, ho]
  cases h : orPanic (meanTickOf us.averagingInterval c0 c1
          >>= priceOfMeanTick lib us.token0IsBase us.priceDecimalsMult) <;> rfl

/-- C3. Orientation and scaling of the price, for every mean tick and every value
`s` that `getSqrtRatioAtTick` returns for it: the square `ratio = Mul(s, s)` always
exists, and `getPrice` returns `Mul(Quo(ratio, 2^192), priceDecimalsMult)` when
`token0IsBase` is true and `Mul(Quo(2^192, ratio), priceDecimalsMult)` when it is
false (a panic of `Quo` or `Mul` being the panic of `getPrice`), the multiplier
being applied once, to the quotient.  Each of the three operations rounds to
nearest at the precision of its result: when `s` and the multiplier are
well-formed finite values with exponents of magnitude at most `2^28`, `ratio` is
within `|s*s| / 2^prec(s)` of `s*s` and the price is within `1 / 2^191` (relative)
of `(ratio / 2^192) * decimalScale`, or of `(2^192 / ratio) * decimalScale`. -/
theorem getPrice_orientation (lib : Bigfloat) (node : Node) (delays : Delays) (now : Int)
    (us : UniswapSource) (handle : Nat) (c0 c1 : Int) (meanTick s : BigFloat)
    (hp : us.poolInstance = some handle) (hs0 : node.Slot0 now = Except.ok ())
    (ho : node.Observe (observeTime us delays now) us.averagingInterval 0 = Except.ok (c0, c1))
    (hmt : meanTickOf us.averagingInterval c0 c1 = Except.ok meanTick)
    (hsq : getSqrtRatioAtTick lib meanTick = Except.ok s) :
    (∃ ratio, BigFloat.new.Mul s s = Except.ok ratio) ∧
    (∀ ratio, BigFloat.new.Mul s s = Except.ok ratio →
      (us.token0IsBase = true →
        (getPrice lib node delays now us).result
          = orPanic (BigFloat.new.Quo ratio two192
              >>= fun quo => BigFloat.new.Mul quo us.priceDecimalsMult)) ∧
      (us.token0IsBase = false →
        (getPrice lib node delays now us).result
          = orPanic (BigFloat.new.Quo two192 ratio
              >>= fun quo => BigFloat.new.Mul quo us.priceDecimalsMult))) ∧
    (s.Valid → s.form = Form.finite → -(2 ^ 28) ≤ s.exp → s.exp ≤ 2 ^ 28 →
      us.priceDecimalsMult.Valid → us.priceDecimalsMult.form = Form.finite →
      -(2 ^ 28) ≤ us.priceDecimalsMult.exp → us.priceDecimalsMult.exp ≤ 2 ^ 28 →
      ∃ ratio quo price,
        BigFloat.new.Mul s s = Except.ok ratio ∧
        BigFloat.new.Quo (if us.token0IsBase then ratio else two192)
          (if us.token0IsBase then two192 else ratio) = Except.ok quo ∧
        BigFloat.new.Mul quo us.priceDecimalsMult = Except.ok price ∧
        (getPrice lib node delays now us).result = Except.ok price ∧
        ratio.toRat ≠ 0 ∧
        |ratio.toRat - s.toRat * s.toRat| ≤ |s.toRat * s.toRat| / (2 : ℚ) ^ s.prec ∧
        (us.token0IsBase = true →
          |price.toRat - ratio.toRat / (2 : ℚ) ^ 192 * us.priceDecimalsMult.toRat|
            ≤ |ratio.toRat / (2 : ℚ) ^ 192 * us.priceDecimalsMult.toRat| / (2 : ℚ) ^ 191) ∧
        (us.token0IsBase = false →
          |price.toRat - (2 : ℚ) ^ 192 / ratio.toRat * us.priceDecimalsMult.toRat|
            ≤ |(2 : ℚ) ^ 192 / ratio.toRat * us.priceDecimalsMult.toRat| / (2 : ℚ) ^ 191)) := by
  have hres := getPrice_result lib node delays now us handle c0 c1 hp hs0 ho
  refine ⟨Mul_self_total s, ?_, ?_⟩
  · intro ratio hr
    constructor
    · intro hb
      rw [hres, hmt, hb]
      simp only [bind, Except.bind, priceOfMeanTick, hsq, hr, SetInt_two192, if_true]
    · intro hb
      rw [hres, hmt, hb]
      simp only [bind, Except.bind, priceOfMeanTick, hsq, hr, SetInt_two192,
        Bool.false_eq_true, if_false]
  · intro hsV hsf hse1 hse2 hdV hdf hde1 hde2
    obtain ⟨ratio, quo, price, h1, h2, h3, h4, h5, h6, h7⟩ := priceOfMeanTick_near lib
      us.token0IsBase us.priceDecimalsMult meanTick s hsq hsV hsf hse1 hse2 hdV hdf hde1 hde2
    refine ⟨ratio, quo, price, h1, h2, h3, ?_, h5, h6, ?_, ?_⟩
    · rw [hres, hmt]
      simp only [bind, Except.bind, h4, orPanic]
    · intro hb
      rw [hb] at h7
      simpa using h7
    · intro hb
      rw [hb] at h7
      simpa using h7

/-- Cumulative ticks 0 and 1 over a window of one second, six decimals, with a
library whose `Pow` returns its base and whose `Sqrt` returns its argument: the
square root ratio is `1.0001 * 2^96`; the source tracking the first token returns
`ratio / 2^192 * 10^6`, about 1000200.01, and the source tracking the second token
returns `2^192 / ratio * 10^6`, about 999800.03. -/
theorem getPrice_orientation_witness :
    getSqrtRatioAtTick trivialBigfloat meanTickOne = Except.ok sqrtRatioAtOne ∧
    BigFloat.new.Mul sqrtRatioAtOne sqrtRatioAtOne = Except.ok ratioAtOne ∧
    (getPrice trivialBigfloat tickingNode noDelays 5000000000 baseSource).result
      = Except.ok basePriceAtOne ∧
    (getPrice trivialBigfloat tickingNode noDelays 5000000000 quoteSource).result
      = Except.ok quotePriceAtOne ∧
    BigFloat.new.Quo ratioAtOne two192 >>= (fun quo => BigFloat.new.Mul quo
      baseSource.priceDecimalsMult) = Except.ok basePriceAtOne ∧
    BigFloat.new.Quo two192 ratioAtOne >>= (fun quo => BigFloat.new.Mul quo
      quoteSource.priceDecimalsMult) = Except.ok quotePriceAtOne ∧
    basePriceAtOne.toRat = ratioAtOne.toRat / (2 : ℚ) ^ 192 * 1000000 ∧
    (1000200 : ℚ) < basePriceAtOne.toRat ∧ basePriceAtOne.toRat < 1000201 ∧
    (999800 : ℚ) < quotePriceAtOne.toRat ∧ quotePriceAtOne.toRat < 999801 := by
  have hB := ((getPrice_orientation trivialBigfloat tickingNode noDelays 5000000000 baseSource
    4 0 1 meanTickOne sqrtRatioAtOne (by rfl) rfl rfl (by rfl) (by rfl)).2.1 ratioAtOne
    (by rfl)).1 (by rfl)
  have hQ := ((getPrice_orientation trivialBigfloat tickingNode noDelays 5000000000 quoteSource
    4 0 1 meanTickOne sqrtRatioAtOne (by rfl) rfl rfl (by rfl) (by rfl)).2.1 ratioAtOne
    (by rfl)).2 (by rfl)
  have cB : BigFloat.new.Quo ratioAtOne two192 >>= (fun quo => BigFloat.new.Mul quo
      baseSource.priceDecimalsMult) = Except.ok basePriceAtOne := by rfl
  have cQ : BigFloat.new.Quo two192 ratioAtOne >>= (fun quo => BigFloat.new.Mul quo
      quoteSource.priceDecimalsMult) = Except.ok quotePriceAtOne := by rfl
  have vR := (toRat_of_isDyadic ratioAtOne (9225216803495866368 * 2 ^ 129) 0 (by decide)).2.2
  have vB := (toRat_of_isDyadic basePriceAtOne (9225216803495866368 * 1000000) 63
    (by decide)).2.2
  have vQ := (toRat_of_isDyadic quotePriceAtOne
    110405859272735889835404682043087030420962325816270577868904703076523470487552 236
    (by decide)).2.2
  refine ⟨by rfl, by rfl, ?_, ?_, cB, cQ, ?_, ?_, ?_, ?_, ?_⟩
  · rw [hB, cB]; rfl
  · rw [hQ, cQ]; rfl
  · rw [vB, vR]; norm_num
  · rw [vB]; norm_num
  · rw [vB]; norm_num
  · rw [vQ]; norm_num
  · rw [vQ]; norm_num

end UniswapOracle
